import Mathlib

/-!
SingleLinkedList: a shallow embedding of `include/single-linked-list.h`.

The C++ class keeps a sentinel node `head_` inside the list object and a chain
of nodes obtained from `new`.  The embedding is pointer-level: a `World` holds
the dynamic storage (`heap`), the list objects (`objs`, each with its own
sentinel) and the number of nodes the allocator will ever hand out (`limit`).
Every member function is a function from a world to an outcome; an outcome is
a new world and a result, or a `Fault`.

* `assert(...)` that fails                         -> `Fault.assertion`
* `new` that throws `std::bad_alloc`               -> `Fault.bad_alloc w`, where
  `w` is the world in which the exception leaves the function (after unwinding)
* a read or write through a null or dangling pointer -> `Fault.invalid_access`
* `size_t` arithmetic is taken modulo `2 ^ 64`.
-/

namespace SLL

/-! ## Memory model -/

/-- Largest value of `size_t`. -/
def SIZE_MAX : Nat := 2 ^ 64 - 1

/-- A value of type `Node*`: null, the address of the sentinel `head_` of the
list object `l`, or the address of a node obtained from `new`. -/
inductive Ptr where
  | null
  | head (l : Nat)
  | cell (a : Nat)
  deriving DecidableEq, Repr

/-- `struct Node { Type value; Node* next_node = nullptr; }`. -/
structure Node (α : Type) where
  value : α
  next_node : Ptr
  deriving DecidableEq, Repr

/-- The data members of a list object: `Node head_; size_t size_;`. -/
structure SingleLinkedList (α : Type) where
  head_ : Node α
  size_ : Nat
  deriving DecidableEq, Repr

/-- The program state.  `heap[a]` is `some n` while the node at address `a` is
live and `none` once it has been deleted; `new` hands out the address
`heap.length` and throws once `limit` nodes have been handed out.  `objs` are the
list objects in order of construction (a stack: locals are pushed on entry to
their scope and popped on exit). -/
structure World (α : Type) where
  heap : List (Option (Node α))
  limit : Nat
  objs : List (SingleLinkedList α)
  deriving DecidableEq, Repr

/-- Ways in which a call does not return normally. -/
inductive Fault (α : Type) where
  | bad_alloc (w : World α)
  | assertion
  | invalid_access
  | out_of_fuel
  deriving DecidableEq, Repr

/-- `assert(c)`. -/
def assert {α : Type} (c : Bool) : Except (Fault α) Unit :=
  if c then .ok () else .error .assertion

/-- The list object with index `l`. -/
def World.obj {α : Type} (w : World α) (l : Nat) : Except (Fault α) (SingleLinkedList α) :=
  match w.objs[l]? with
  | some o => .ok o
  | none => .error .invalid_access

/-- Overwrite the list object with index `l`. -/
def World.set_obj {α : Type} (w : World α) (l : Nat) (o : SingleLinkedList α) : World α :=
  { w with objs := w.objs.set l o }

/-- Read the node `*p`. -/
def World.load {α : Type} (w : World α) : Ptr → Except (Fault α) (Node α)
  | .null => .error .invalid_access
  | .head l =>
    match w.objs[l]? with
    | some o => .ok o.head_
    | none => .error .invalid_access
  | .cell a =>
    match w.heap[a]? with
    | some (some n) => .ok n
    | _ => .error .invalid_access

/-- The assignment `p->next_node = q`. -/
def World.store_next {α : Type} (w : World α) (p q : Ptr) : Except (Fault α) (World α) :=
  match p with
  | .null => .error .invalid_access
  | .head l =>
    match w.objs[l]? with
    | some o => .ok (w.set_obj l { o with head_ := { o.head_ with next_node := q } })
    | none => .error .invalid_access
  | .cell a =>
    match w.heap[a]? with
    | some (some n) => .ok { w with heap := w.heap.set a (some { n with next_node := q }) }
    | _ => .error .invalid_access

/-- The expression `new Node(val, next)`. -/
def World.new_Node {α : Type} (w : World α) (val : α) (next : Ptr) :
    Except (Fault α) (World α × Ptr) :=
  if w.heap.length < w.limit then
    .ok ({ w with heap := w.heap ++ [some ⟨val, next⟩] }, .cell w.heap.length)
  else .error (.bad_alloc w)

/-- The statement `delete p`. -/
def World.delete_Node {α : Type} (w : World α) : Ptr → Except (Fault α) (World α)
  | .null => .ok w
  | .head _ => .error .invalid_access
  | .cell a =>
    match w.heap[a]? with
    | some (some _) => .ok { w with heap := w.heap.set a none }
    | _ => .error .invalid_access

/-- The statement `++size_` of the list object `l`. -/
def World.incr_size {α : Type} (w : World α) (l : Nat) : Except (Fault α) (World α) := do
  let o ← w.obj l
  pure (w.set_obj l { o with size_ := (o.size_ + 1) % 2 ^ 64 })

/-- The statement `--size_` of the list object `l`. -/
def World.decr_size {α : Type} (w : World α) (l : Nat) : Except (Fault α) (World α) := do
  let o ← w.obj l
  pure (w.set_obj l { o with size_ := (o.size_ + (2 ^ 64 - 1)) % 2 ^ 64 })

/-! ## BasicIterator -/

/-- `BasicIterator<ValueType>`: its only data member is `Node* node_`. -/
structure BasicIterator where
  node_ : Ptr
  deriving DecidableEq, Repr

abbrev Iterator := BasicIterator

abbrev ConstIterator := BasicIterator

/-- `operator==` of two iterators. -/
def BasicIterator.eq (it rhs : BasicIterator) : Bool :=
  decide (it.node_ = rhs.node_)

/-- `operator!=` of two iterators. -/
def BasicIterator.ne (it rhs : BasicIterator) : Bool :=
  !(it.eq rhs)

/-- Pre-increment `operator++()`: the result is the new value of `*this`. -/
def BasicIterator.incr {α : Type} (w : World α) (it : BasicIterator) :
    Except (Fault α) BasicIterator := do
  assert (decide (it.node_ ≠ .null))
  let n ← w.load it.node_
  pure ⟨n.next_node⟩

/-- Post-increment `operator++(int)`: the returned iterator, then the new value
of `*this`. -/
def BasicIterator.post_incr {α : Type} (w : World α) (it : BasicIterator) :
    Except (Fault α) (BasicIterator × BasicIterator) := do
  let old := it
  let it1 ← it.incr w
  pure (old, it1)

/-- Dereference `operator*()`. -/
def BasicIterator.deref {α : Type} (w : World α) (it : BasicIterator) : Except (Fault α) α := do
  assert (decide (it.node_ ≠ .null))
  let n ← w.load it.node_
  pure n.value

/-- Member access `operator->()`; the pointer `&node_->value` is represented by
the value it points to. -/
def BasicIterator.arrow {α : Type} (w : World α) (it : BasicIterator) : Except (Fault α) α := do
  assert (decide (it.node_ ≠ .null))
  let n ← w.load it.node_
  pure n.value

/-! ## SingleLinkedList: positions and queries -/

def before_begin (this : Nat) : Iterator := ⟨.head this⟩

def cbefore_begin (this : Nat) : ConstIterator := ⟨.head this⟩

def cbegin {α : Type} (w : World α) (this : Nat) : Except (Fault α) ConstIterator := do
  let o ← w.obj this
  pure ⟨o.head_.next_node⟩

def begin {α : Type} (w : World α) (this : Nat) : Except (Fault α) Iterator := do
  let o ← w.obj this
  pure ⟨o.head_.next_node⟩

def cend : ConstIterator := ⟨.null⟩

/-- The member function `end()`. -/
def end_ : Iterator := ⟨.null⟩

def GetSize {α : Type} (w : World α) (this : Nat) : Except (Fault α) Nat := do
  let o ← w.obj this
  pure o.size_

def IsEmpty {α : Type} (w : World α) (this : Nat) : Except (Fault α) Bool := do
  let o ← w.obj this
  pure (decide (o.size_ = 0))

/-! ## SingleLinkedList: mutation -/

def InsertAfter {α : Type} (w : World α) (this : Nat) (pos : ConstIterator) (value : α) :
    Except (Fault α) (World α × Iterator) := do
  assert (decide (pos.node_ ≠ .null))
  let pos_node := pos.node_
  let n ← w.load pos_node
  let (w1, p) ← w.new_Node value n.next_node
  let w2 ← w1.store_next pos_node p
  let w3 ← w2.incr_size this
  let n3 ← w3.load pos_node
  pure (w3, ⟨n3.next_node⟩)

def PopFront {α : Type} (w : World α) (this : Nat) : Except (Fault α) (World α) := do
  let e ← IsEmpty w this
  assert (!e)
  let o ← w.obj this
  let temp := o.head_.next_node
  let t ← w.load temp
  let w1 ← w.store_next (.head this) t.next_node
  let w2 ← w1.delete_Node temp
  w2.decr_size this

def EraseAfter {α : Type} (w : World α) (this : Nat) (pos : ConstIterator) :
    Except (Fault α) (World α × Iterator) := do
  assert (decide (pos.node_ ≠ .null))
  let pn ← w.load pos.node_
  assert (decide (pn.next_node ≠ .null))
  let o ← w.obj this
  assert (decide (o.size_ > 0))
  let pos_node := pos.node_
  let temp := pn.next_node
  let t ← w.load temp
  let w1 ← w.store_next pos_node t.next_node
  let w2 ← w1.delete_Node temp
  let w3 ← w2.decr_size this
  let n3 ← w3.load pos_node
  pure (w3, ⟨n3.next_node⟩)

def swap {α : Type} (w : World α) (this other : Nat) : Except (Fault α) (World α) := do
  let a ← w.obj this
  let b ← w.obj other
  let w1 := (w.set_obj this { a with size_ := b.size_ }).set_obj other { b with size_ := a.size_ }
  let a1 ← w1.obj this
  let b1 ← w1.obj other
  pure ((w1.set_obj this { a1 with head_ := { a1.head_ with next_node := b1.head_.next_node } }).set_obj
    other { b1 with head_ := { b1.head_ with next_node := a1.head_.next_node } })

def PushFront {α : Type} (w : World α) (this : Nat) (value : α) : Except (Fault α) (World α) := do
  let o ← w.obj this
  let (w1, p) ← w.new_Node value o.head_.next_node
  let w2 ← w1.store_next (.head this) p
  w2.incr_size this

/-- The loop of `Clear`.  Every iteration that does not fault deletes a live
node, so `heap.length + 1` iterations always suffice. -/
def Clear.loop {α : Type} (this : Nat) : Nat → World α → Except (Fault α) (World α)
  | 0, _ => .error .out_of_fuel
  | fuel + 1, w => do
    let o ← w.obj this
    if o.head_.next_node ≠ .null then
      let n ← w.load o.head_.next_node
      let next := n.next_node
      let w1 ← w.delete_Node o.head_.next_node
      let w2 ← w1.store_next (.head this) next
      Clear.loop this fuel w2
    else pure w

def Clear {α : Type} (w : World α) (this : Nat) : Except (Fault α) (World α) := do
  let w1 ← Clear.loop this (w.heap.length + 1) w
  let o ← w1.obj this
  pure (w1.set_obj this { o with size_ := 0 })

/-- The default constructor `SingleLinkedList() : head_(), size_(0u) {}`: a new
list object on top of the object stack; the result is the world and the index
of the new object. -/
def construct_default {α : Type} [Inhabited α] (w : World α) : World α × Nat :=
  ({ w with objs := w.objs ++ [⟨⟨default, .null⟩, 0⟩] }, w.objs.length)

/-- End of the lifetime of the most recently constructed list object: the
destructor `~SingleLinkedList() { Clear(); }` runs and the storage of the object
is released. -/
def destroy_top {α : Type} (w : World α) : Except (Fault α) (World α) := do
  let w1 ← Clear w (w.objs.length - 1)
  pure { w1 with objs := w1.objs.dropLast }

/-- What `InitFromRange` uses of its template parameter `InputIt`: the
comparison `first != last` and the expression `*first++` (the value read and
the advanced iterator). -/
structure InputIt (α σ : Type) where
  ne : σ → σ → Bool
  read_incr : World α → σ → Except (Fault α) (α × σ)

/-- The iterators of a `std::initializer_list<Type>` over the array `values`:
pointers into the array, represented by indices. -/
def InputIt.of_values {α : Type} (values : List α) : InputIt α Nat where
  ne i j := decide (i ≠ j)
  read_incr _ i :=
    match values[i]? with
    | some v => .ok (v, i + 1)
    | none => .error .invalid_access

/-- The `ConstIterator` of this class used as `InputIt`. -/
def InputIt.of_list {α : Type} : InputIt α ConstIterator where
  ne a b := a.ne b
  read_incr w it := do
    let (old, it1) ← it.post_incr w
    let v ← old.deref w
    pure (v, it1)

/-- The loop of `InitFromRange`.  Every iteration that does not fault takes a
node from the allocator, so `limit - heap.length + 1` iterations always
suffice. -/
def InitFromRange.loop {α σ : Type} (I : InputIt α σ) (last : σ) (temp_list : Nat) :
    Nat → World α → Ptr → σ → Except (Fault α) (World α)
  | 0, _, _, _ => .error .out_of_fuel
  | fuel + 1, w, hold_node_, first =>
    if I.ne first last then do
      let (v, first1) ← I.read_incr w first
      let (w1, p) ← w.new_Node v .null
      let w2 ← w1.store_next hold_node_ p
      let h ← w2.load hold_node_
      let w3 ← w2.incr_size temp_list
      InitFromRange.loop I last temp_list fuel w3 h.next_node first1
    else pure w

/-- Propagation of an exception out of the scope of the most recently
constructed list object: the object is destroyed during unwinding. -/
def unwind_top {α ρ : Type} (r : Except (Fault α) ρ) : Except (Fault α) ρ :=
  match r with
  | .error (.bad_alloc w) =>
    match destroy_top w with
    | .ok w1 => .error (.bad_alloc w1)
    | .error e => .error e
  | r => r

def InitFromRange {α σ : Type} [Inhabited α] (I : InputIt α σ) (w : World α) (this : Nat)
    (first last : σ) : Except (Fault α) (World α) :=
  let (w0, temp_list) := construct_default w
  let hold_node_ := Ptr.head temp_list
  match InitFromRange.loop I last temp_list (w0.limit - w0.heap.length + 1) w0 hold_node_ first with
  | .ok w1 => do
    let w2 ← swap w1 this temp_list
    destroy_top w2
  | .error e => unwind_top (.error e)

/-- The constructor `SingleLinkedList(std::initializer_list<Type> values)`: it
delegates to the default constructor and calls `InitFromRange`; when the body
throws, the object under construction is destroyed. -/
def construct_values {α : Type} [Inhabited α] (w : World α) (values : List α) :
    Except (Fault α) (World α × Nat) :=
  let (w0, this) := construct_default w
  match InitFromRange (InputIt.of_values values) w0 this 0 values.length with
  | .ok w1 => .ok (w1, this)
  | .error e => unwind_top (.error e)

/-- The copy constructor `SingleLinkedList(const SingleLinkedList& other)`. -/
def construct_copy {α : Type} [Inhabited α] (w : World α) (other : Nat) :
    Except (Fault α) (World α × Nat) :=
  let (w0, this) := construct_default w
  match (do
      let first ← cbegin w0 other
      InitFromRange InputIt.of_list w0 this first cend) with
  | .ok w1 => .ok (w1, this)
  | .error e => unwind_top (.error e)

/-- Copy assignment `operator=(const SingleLinkedList& rhs)`. -/
def assign {α : Type} [Inhabited α] (w : World α) (this rhs : Nat) : Except (Fault α) (World α) :=
  if this ≠ rhs then
    match construct_copy w rhs with
    | .ok (w1, temp) => do
      let w2 ← swap w1 this temp
      destroy_top w2
    | .error e => .error e
  else pure w

/-- The free function `swap(lhs, rhs)`. -/
def swap_free {α : Type} (w : World α) (lhs rhs : Nat) : Except (Fault α) (World α) :=
  swap w lhs rhs

/-! ## Iteration by a caller -/

/-- The caller's loop `for (; first != last; ++first) out.push_back(*first);`. -/
def traverse {α : Type} : Nat → World α → ConstIterator → ConstIterator →
    Except (Fault α) (List α)
  | 0, _, _, _ => .error .out_of_fuel
  | fuel + 1, w, first, last =>
    if first.ne last then do
      let v ← first.deref w
      let first1 ← first.incr w
      let rest ← traverse fuel w first1 last
      pure (v :: rest)
    else pure []

/-- The values met when iterating the list from `begin()` to `end()`. -/
def to_list {α : Type} (w : World α) (this : Nat) : Except (Fault α) (List α) := do
  let first ← cbegin w this
  traverse (w.heap.length + 1) w first cend

/-- Advance an iterator `k` times with `operator++`. -/
def advance {α : Type} (w : World α) : Nat → BasicIterator → Except (Fault α) BasicIterator
  | 0, it => pure it
  | k + 1, it => do
    let it1 ← it.incr w
    advance w k it1

/-! ## Relational operators -/

/-- The algorithm `std::equal(first1, last1, first2)` of the standard library:
`for (; first1 != last1; ++first1, ++first2) if (!(*first1 == *first2)) return false;
return true;`. -/
def std_equal {α : Type} [BEq α] : Nat → World α → ConstIterator → ConstIterator →
    ConstIterator → Except (Fault α) Bool
  | 0, _, _, _, _ => .error .out_of_fuel
  | fuel + 1, w, first1, last1, first2 =>
    if first1.ne last1 then do
      let a ← first1.deref w
      let b ← first2.deref w
      if !(a == b) then pure false
      else do
        let n1 ← first1.incr w
        let n2 ← first2.incr w
        std_equal fuel w n1 last1 n2
    else pure true

/-- The algorithm `std::lexicographical_compare(first1, last1, first2, last2)`
of the standard library:
`for (; first1 != last1 && first2 != last2; ++first1, ++first2) {
if (*first1 < *first2) return true; if (*first2 < *first1) return false; }
return first1 == last1 && first2 != last2;`. -/
def std_lexicographical_compare {α : Type} (lt : α → α → Bool) : Nat → World α →
    ConstIterator → ConstIterator → ConstIterator → ConstIterator → Except (Fault α) Bool
  | 0, _, _, _, _, _ => .error .out_of_fuel
  | fuel + 1, w, first1, last1, first2, last2 =>
    if first1.ne last1 && first2.ne last2 then do
      let a ← first1.deref w
      let b ← first2.deref w
      if lt a b then pure true
      else if lt b a then pure false
      else do
        let n1 ← first1.incr w
        let n2 ← first2.incr w
        std_lexicographical_compare lt fuel w n1 last1 n2 last2
    else pure (first1.eq last1 && first2.ne last2)

/-- The free `operator==` of two lists. -/
def operator_eq {α : Type} [BEq α] (w : World α) (lhs rhs : Nat) : Except (Fault α) Bool := do
  if lhs = rhs then pure true
  else do
    let s1 ← GetSize w lhs
    let s2 ← GetSize w rhs
    if s1 ≠ s2 then pure false
    else do
      let b1 ← cbegin w lhs
      let b2 ← cbegin w rhs
      std_equal (w.heap.length + 1) w b1 cend b2

/-- The free `operator!=` of two lists. -/
def operator_ne {α : Type} [BEq α] (w : World α) (lhs rhs : Nat) : Except (Fault α) Bool := do
  let r ← operator_eq w lhs rhs
  pure (!r)

/-- The free `operator<` of two lists. -/
def operator_lt {α : Type} (lt : α → α → Bool) (w : World α) (lhs rhs : Nat) :
    Except (Fault α) Bool := do
  let b1 ← cbegin w lhs
  let b2 ← cbegin w rhs
  std_lexicographical_compare lt (w.heap.length + 1) w b1 cend b2 cend

/-- The free `operator<=` of two lists. -/
def operator_le {α : Type} (lt : α → α → Bool) (w : World α) (lhs rhs : Nat) :
    Except (Fault α) Bool := do
  let r ← operator_lt lt w rhs lhs
  pure (!r)

/-- The free `operator>` of two lists. -/
def operator_gt {α : Type} (lt : α → α → Bool) (w : World α) (lhs rhs : Nat) :
    Except (Fault α) Bool :=
  operator_lt lt w rhs lhs

/-- The free `operator>=` of two lists. -/
def operator_ge {α : Type} (lt : α → α → Bool) (w : World α) (lhs rhs : Nat) :
    Except (Fault α) Bool := do
  let r ← operator_lt lt w lhs rhs
  pure (!r)

/-! ## Abstraction: the chain of nodes owned by a list -/

/-- Following the `next_node` links from `p` one passes exactly the live nodes
`cells` (address and value of each, in order) and arrives at `q`. -/
def Seg {α : Type} (h : List (Option (Node α))) : Ptr → List (Nat × α) → Ptr → Prop
  | p, [], q => p = q
  | p, c :: cells, q => p = .cell c.1 ∧ ∃ r, h[c.1]? = some (some ⟨c.2, r⟩) ∧ Seg h r cells q

/-- The size invariant of the list object `l`: the chain that starts at the
sentinel's `next_node` consists of the live nodes `cells`, ends in null, and
`size_`, a value of type `size_t`, is the number of these nodes. -/
def Owns {α : Type} (w : World α) (l : Nat) (cells : List (Nat × α)) : Prop :=
  ∃ o, w.objs[l]? = some o ∧ Seg w.heap o.head_.next_node cells .null ∧
    o.size_ = cells.length ∧ o.size_ ≤ SIZE_MAX

/-- The allocator never hands out more nodes than `size_t` can count. -/
def Bounded {α : Type} (w : World α) : Prop :=
  w.heap.length ≤ w.limit ∧ w.limit ≤ SIZE_MAX

/-- The invariant of a world: every list object satisfies the size invariant
and no node belongs to the chains of two list objects. -/
def Inv {α : Type} (w : World α) : Prop :=
  Bounded w ∧ (∀ l, l < w.objs.length → ∃ cells, Owns w l cells) ∧
    (∀ l1 l2 cs1 cs2, l1 ≠ l2 → Owns w l1 cs1 → Owns w l2 cs2 →
      ∀ c1 ∈ cs1, ∀ c2 ∈ cs2, c1.1 ≠ c2.1)

/-- What a call on the list `this`, whose nodes are `cells`, leaves alone:
the allocator limit, the number of list objects, every other list object, and
every node that was allocated before the call and is not one of `cells`. -/
def Frame {α : Type} (w w2 : World α) (this : Nat) (cells : List (Nat × α)) : Prop :=
  w2.limit = w.limit ∧ w2.objs.length = w.objs.length ∧ w.heap.length ≤ w2.heap.length ∧
    (∀ l, l ≠ this → w2.objs[l]? = w.objs[l]?) ∧
    (∀ a, a < w.heap.length → (∀ c ∈ cells, c.1 ≠ a) → w2.heap[a]? = w.heap[a]?)

/-- The `k`-th position of a list with nodes `cells`: the sentinel for `k = 0`,
the `k`-th element node for `1 ≤ k ≤ cells.length`, the end position beyond. -/
def pos_at {α : Type} (this : Nat) (cells : List (Nat × α)) : Nat → BasicIterator
  | 0 => before_begin this
  | k + 1 =>
    match cells[k]? with
    | some c => ⟨.cell c.1⟩
    | none => end_

/-! ## Sequences of public operations -/

/-- A call of a public operation.  Positions are given by the number of
`operator++` steps from `before_begin()` of the list itself. -/
inductive Op (α : Type) where
  | construct_default
  | construct_values (values : List α)
  | construct_copy (other : Nat)
  | assign (this rhs : Nat)
  | swap (this other : Nat)
  | PushFront (this : Nat) (value : α)
  | PopFront (this : Nat)
  | InsertAfter (this k : Nat) (value : α)
  | EraseAfter (this k : Nat)
  | Clear (this : Nat)
  deriving Repr

/-- Run one call.  The operands of a copy construction and of a copy assignment
are list objects that exist when the call is made. -/
def exec {α : Type} [Inhabited α] (w : World α) : Op α → Except (Fault α) (World α)
  | .construct_default => pure (construct_default w).1
  | .construct_values values => do
    let (w1, _) ← construct_values w values
    pure w1
  | .construct_copy other => do
    let _ ← w.obj other
    let (w1, _) ← construct_copy w other
    pure w1
  | .assign this rhs => do
    let _ ← w.obj this
    let _ ← w.obj rhs
    assign w this rhs
  | .swap this other => swap w this other
  | .PushFront this value => PushFront w this value
  | .PopFront this => PopFront w this
  | .InsertAfter this k value => do
    let pos ← advance w k (before_begin this)
    let (w1, _) ← InsertAfter w this pos value
    pure w1
  | .EraseAfter this k => do
    let pos ← advance w k (before_begin this)
    let (w1, _) ← EraseAfter w this pos
    pure w1
  | .Clear this => Clear w this

/-- The worlds a program can be in: it starts with no list object and nothing
allocated, and goes on after every call that returns and after every call that
throws `std::bad_alloc`. -/
inductive Reachable {α : Type} [Inhabited α] : World α → Prop where
  | init (limit : Nat) (h : limit ≤ SIZE_MAX) : Reachable ⟨[], limit, []⟩
  | step {w w1 : World α} (op : Op α) : Reachable w → exec w op = .ok w1 → Reachable w1
  | thrown {w w1 : World α} (op : Op α) :
    Reachable w → exec w op = .error (.bad_alloc w1) → Reachable w1

/-- Run a sequence of calls, stopping at the first that does not return. -/
def run {α : Type} [Inhabited α] : World α → List (Op α) → Except (Fault α) (World α)
  | w, [] => pure w
  | w, op :: ops => do
    let w1 ← exec w op
    run w1 ops

/-- Whether a call is one of the four element operations on the list `this`. -/
def Op.on {α : Type} (this : Nat) : Op α → Bool
  | .PushFront l _ => decide (l = this)
  | .PopFront l => decide (l = this)
  | .InsertAfter l _ _ => decide (l = this)
  | .EraseAfter l _ => decide (l = this)
  | _ => false

/-- Whether a call inserts an element. -/
def Op.inserts {α : Type} : Op α → Bool
  | .PushFront _ _ => true
  | .InsertAfter _ _ _ => true
  | _ => false

/-- Whether a call erases an element. -/
def Op.erases {α : Type} : Op α → Bool
  | .PopFront _ => true
  | .EraseAfter _ _ => true
  | _ => false

/-- The order of the values implied by an element operation: what it does to
the sequence of values of the list. -/
def Op.implied {α : Type} (xs : List α) : Op α → List α
  | .PushFront _ v => v :: xs
  | .PopFront _ => xs.drop 1
  | .InsertAfter _ k v => xs.take k ++ v :: xs.drop k
  | .EraseAfter _ k => xs.eraseIdx k
  | _ => xs

/-- Whether a call is one of the mutations `PushFront`, `PopFront`,
`InsertAfter`, `EraseAfter`, `Clear` of the list `this`. -/
def Op.mutation {α : Type} (this : Nat) : Op α → Bool
  | .PushFront l _ => decide (l = this)
  | .PopFront l => decide (l = this)
  | .InsertAfter l _ _ => decide (l = this)
  | .EraseAfter l _ => decide (l = this)
  | .Clear l => decide (l = this)
  | _ => false

/-! ## Comparison of sequences, as the specification words it -/

/-- Equality of two sequences of values as the specification words it: same
length and pairwise-equal values in order. -/
def seq_equal {α : Type} [BEq α] : List α → List α → Bool
  | [], [] => true
  | a :: as, b :: bs => (a == b) && seq_equal as bs
  | _, _ => false

/-- Lexicographic comparison of two sequences of values as the specification
words it: the first difference wins, and the shorter sequence is less when it
is a prefix of the other. -/
def seq_less {α : Type} (lt : α → α → Bool) : List α → List α → Bool
  | [], [] => false
  | [], _ :: _ => true
  | _ :: _, [] => false
  | a :: as, b :: bs => if lt a b then true else if lt b a then false else seq_less lt as bs

/-! ## A concrete world -/

/-- A world with a single list object holding the values `5, 6`, and room for
one more node. -/
def ex_world : World Nat :=
  ⟨[some ⟨5, .cell 1⟩, some ⟨6, .null⟩], 3, [⟨⟨0, .cell 0⟩, 2⟩]⟩

/-- The nodes of the list of `ex_world`. -/
def ex_cells : List (Nat × Nat) := [(0, 5), (1, 6)]

/-- The start of the scenario of the specification: a world with room for
eight nodes in which `SingleLinkedList<int> list;` has just run. -/
def scenario_start : World Nat := (construct_default ⟨[], 8, []⟩).1

/-- The calls of the scenario of the specification: `PushFront(3)`,
`PushFront(2)`, `PushFront(1)`, `InsertAfter(begin(), 10)`,
`EraseAfter(begin())`, `PopFront()`, `PopFront()`. -/
def scenario_ops : List (Op Nat) :=
  [.PushFront 0 3, .PushFront 0 2, .PushFront 0 1, .InsertAfter 0 1 10, .EraseAfter 0 1,
    .PopFront 0, .PopFront 0]

/-- The world at the end of the scenario. -/
def scenario_final : World Nat :=
  ⟨[some ⟨3, .null⟩, none, none, none], 8, [⟨⟨0, .cell 0⟩, 1⟩]⟩

/-- The values and the size of the list `this` after the calls `ops`. -/
def observe {α : Type} [Inhabited α] (w : World α) (ops : List (Op α)) (this : Nat) :
    Except (Fault α) (List α × Nat) := do
  let w1 ← run w ops
  let xs ← to_list w1 this
  let n ← GetSize w1 this
  pure (xs, n)

/-- The calls that build `ex_lists`: five constructions from sequences. -/
def ex_lists_ops : List (Op Nat) :=
  [.construct_values [1, 2, 3], .construct_values [1, 2, 3], .construct_values [1, 2],
    .construct_values [1, 3], .construct_values [1, 2, 9]]

/-- A world with the five lists `{1,2,3}`, `{1,2,3}`, `{1,2}`, `{1,3}`, `{1,2,9}` and
room for three more nodes. -/
def ex_lists : World Nat :=
  ⟨[some ⟨1, .cell 1⟩, some ⟨2, .cell 2⟩, some ⟨3, .null⟩,
    some ⟨1, .cell 4⟩, some ⟨2, .cell 5⟩, some ⟨3, .null⟩,
    some ⟨1, .cell 7⟩, some ⟨2, .null⟩,
    some ⟨1, .cell 9⟩, some ⟨3, .null⟩,
    some ⟨1, .cell 11⟩, some ⟨2, .cell 12⟩, some ⟨9, .null⟩],
   16,
   [⟨⟨0, .cell 0⟩, 3⟩, ⟨⟨0, .cell 3⟩, 3⟩, ⟨⟨0, .cell 6⟩, 2⟩, ⟨⟨0, .cell 8⟩, 2⟩,
    ⟨⟨0, .cell 10⟩, 3⟩]⟩

/-- An element type whose `==` is not reflexive, as a floating-point type with
its NaN: `nan == nan` is false. -/
inductive Flt where
  | nan
  | num (n : Nat)
  deriving Repr

instance : BEq Flt where
  beq a b :=
    match a, b with
    | .num m, .num n => m == n
    | _, _ => false

/-- A world with a single list object that holds the one value `nan`. -/
def ex_nan : World Flt :=
  ⟨[some ⟨.nan, .null⟩], 2, [⟨⟨.num 0, .cell 0⟩, 1⟩]⟩

/-- The `<` of the element type `Flt`: the order of the numbers; `nan` is
neither less nor greater than anything, as a floating-point NaN. -/
def Flt.lt : Flt → Flt → Bool
  | .num m, .num n => decide (m < n)
  | _, _ => false

/-- A world with the two lists `{nan, 1}` and `{0, 2}`. -/
def ex_nan_lists : World Flt :=
  ⟨[some ⟨.nan, .cell 1⟩, some ⟨.num 1, .null⟩, some ⟨.num 0, .cell 3⟩, some ⟨.num 2, .null⟩],
   4,
   [⟨⟨.num 0, .cell 0⟩, 2⟩, ⟨⟨.num 0, .cell 2⟩, 2⟩]⟩

/-- The world `ex_lists` after the copy assignment of its list `{1,2,3}` with
index 0 to its list `{1,2}` with index 2. -/
def ex_copied : World Nat :=
  ⟨[some ⟨1, .cell 1⟩, some ⟨2, .cell 2⟩, some ⟨3, .null⟩,
    some ⟨1, .cell 4⟩, some ⟨2, .cell 5⟩, some ⟨3, .null⟩,
    none, none,
    some ⟨1, .cell 9⟩, some ⟨3, .null⟩,
    some ⟨1, .cell 11⟩, some ⟨2, .cell 12⟩, some ⟨9, .null⟩,
    some ⟨1, .cell 14⟩, some ⟨2, .cell 15⟩, some ⟨3, .null⟩],
   16,
   [⟨⟨0, .cell 0⟩, 3⟩, ⟨⟨0, .cell 3⟩, 3⟩, ⟨⟨0, .cell 13⟩, 3⟩, ⟨⟨0, .cell 8⟩, 2⟩,
    ⟨⟨0, .cell 10⟩, 3⟩]⟩

/-- The world `ex_copied` after `PopFront()` and `Clear()` on the list with
index 0. -/
def ex_mutated : World Nat :=
  ⟨[none, none, none,
    some ⟨1, .cell 4⟩, some ⟨2, .cell 5⟩, some ⟨3, .null⟩,
    none, none,
    some ⟨1, .cell 9⟩, some ⟨3, .null⟩,
    some ⟨1, .cell 11⟩, some ⟨2, .cell 12⟩, some ⟨9, .null⟩,
    some ⟨1, .cell 14⟩, some ⟨2, .cell 15⟩, some ⟨3, .null⟩],
   16,
   [⟨⟨0, .null⟩, 0⟩, ⟨⟨0, .cell 3⟩, 3⟩, ⟨⟨0, .cell 13⟩, 3⟩, ⟨⟨0, .cell 8⟩, 2⟩,
    ⟨⟨0, .cell 10⟩, 3⟩]⟩

/-! ## Chains: basic facts -/

theorem Seg_cons_iff {α : Type} (h : List (Option (Node α))) (p q : Ptr) (c : Nat × α)
    (cs : List (Nat × α)) :
    Seg h p (c :: cs) q ↔
      p = .cell c.1 ∧ ∃ r, h[c.1]? = some (some ⟨c.2, r⟩) ∧ Seg h r cs q :=
  Iff.rfl

theorem Seg_append {α : Type} (h : List (Option (Node α))) (l1 l2 : List (Nat × α)) (p r : Ptr) :
    Seg h p (l1 ++ l2) r ↔ ∃ q, Seg h p l1 q ∧ Seg h q l2 r := by
  induction l1 generalizing p with
  | nil =>
    constructor
    · intro hs
      exact ⟨p, rfl, hs⟩
    · rintro ⟨q, hq, hs⟩
      have : p = q := hq
      subst this
      exact hs
  | cons c l1 ih =>
    constructor
    · rintro ⟨hp, r1, hr1, hs⟩
      obtain ⟨q, h1, h2⟩ := (ih r1).1 hs
      exact ⟨q, ⟨hp, r1, hr1, h1⟩, h2⟩
    · rintro ⟨q, ⟨hp, r1, hr1, h1⟩, h2⟩
      exact ⟨hp, r1, hr1, (ih r1).2 ⟨q, h1, h2⟩⟩

theorem Seg_live {α : Type} {h : List (Option (Node α))} {p q : Ptr} {cs : List (Nat × α)}
    (hs : Seg h p cs q) : ∀ c ∈ cs, ∃ r, h[c.1]? = some (some ⟨c.2, r⟩) := by
  induction cs generalizing p with
  | nil => intro c hc; cases hc
  | cons c0 cs ih =>
    obtain ⟨_, r, hr, hrest⟩ := hs
    intro c hc
    rcases List.mem_cons.1 hc with rfl | hc
    · exact ⟨r, hr⟩
    · exact ih hrest c hc

theorem Seg_lt {α : Type} {h : List (Option (Node α))} {p q : Ptr} {cs : List (Nat × α)}
    (hs : Seg h p cs q) : ∀ c ∈ cs, c.1 < h.length := by
  intro c hc
  obtain ⟨r, hr⟩ := Seg_live hs c hc
  by_contra hge
  rw [List.getElem?_eq_none (by omega)] at hr
  cases hr

theorem Seg_unique {α : Type} {h : List (Option (Node α))} {p : Ptr} {cs cs2 : List (Nat × α)}
    (h1 : Seg h p cs .null) (h2 : Seg h p cs2 .null) : cs = cs2 := by
  induction cs generalizing p cs2 with
  | nil =>
    have hp : p = .null := h1
    cases cs2 with
    | nil => rfl
    | cons c cs2 =>
      obtain ⟨hc, _⟩ := h2
      rw [hp] at hc
      cases hc
  | cons c cs ih =>
    obtain ⟨hp, r, hr, hrest⟩ := h1
    cases cs2 with
    | nil =>
      have hp2 : p = .null := h2
      rw [hp2] at hp
      cases hp
    | cons c2 cs2 =>
      obtain ⟨hp2, r2, hr2, hrest2⟩ := h2
      rw [hp] at hp2
      have h1eq : c.1 = c2.1 := by injection hp2
      rw [← h1eq, hr] at hr2
      have hn : (⟨c.2, r⟩ : Node α) = ⟨c2.2, r2⟩ := by
        injection hr2 with hr2
        injection hr2
      have h2eq : c.2 = c2.2 := by injection hn
      have hreq : r = r2 := by injection hn
      subst hreq
      have hc : c = c2 := Prod.ext h1eq h2eq
      rw [hc, ih hrest hrest2]

theorem Seg_nodup {α : Type} {h : List (Option (Node α))} {p : Ptr} {cs : List (Nat × α)}
    (hs : Seg h p cs .null) : (cs.map Prod.fst).Nodup := by
  induction cs generalizing p with
  | nil => simp
  | cons c cs ih =>
    obtain ⟨_, r, hr, hrest⟩ := hs
    rw [List.map_cons, List.nodup_cons]
    refine ⟨?_, ih hrest⟩
    intro hmem
    obtain ⟨c1, hc1, hfst⟩ := List.mem_map.1 hmem
    obtain ⟨l1, l2, hsplit⟩ := List.append_of_mem hc1
    rw [hsplit] at hrest
    obtain ⟨q, _, hq, r1, hr1, hl2⟩ := (Seg_append h l1 (c1 :: l2) r .null).1 hrest
    rw [hfst, hr] at hr1
    have hn : (⟨c.2, r⟩ : Node α) = ⟨c1.2, r1⟩ := by
      injection hr1 with hr1
      injection hr1
    have hreq : r = r1 := by injection hn
    subst hreq
    have hrest2 : Seg h r (l1 ++ c1 :: l2) .null :=
      (Seg_append h l1 (c1 :: l2) r .null).2 ⟨q, ‹_›, hq, r, by rw [hfst, hr]; exact hr1, hl2⟩
    have := congrArg List.length (Seg_unique hl2 hrest2)
    simp at this
    omega

theorem nodup_length_le (as : List Nat) (n : Nat) (hnd : as.Nodup) (hlt : ∀ a ∈ as, a < n) :
    as.length ≤ n := by
  have hsub : as.toFinset ⊆ Finset.range n := by
    intro a ha
    rw [List.mem_toFinset] at ha
    exact Finset.mem_range.2 (hlt a ha)
  have hcard := Finset.card_le_card hsub
  rw [List.toFinset_card_of_nodup hnd, Finset.card_range] at hcard
  exact hcard

theorem Seg_length_le {α : Type} {h : List (Option (Node α))} {p : Ptr} {cs : List (Nat × α)}
    (hs : Seg h p cs .null) : cs.length ≤ h.length := by
  have := nodup_length_le (cs.map Prod.fst) h.length (Seg_nodup hs) (by
    intro a ha
    obtain ⟨c, hc, rfl⟩ := List.mem_map.1 ha
    exact Seg_lt hs c hc)
  simpa using this

theorem Seg_heap_append {α : Type} {h : List (Option (Node α))} {p q : Ptr}
    {cs : List (Nat × α)} (ex : List (Option (Node α))) (hs : Seg h p cs q) :
    Seg (h ++ ex) p cs q := by
  induction cs generalizing p with
  | nil => exact hs
  | cons c cs ih =>
    obtain ⟨hp, r, hr, hrest⟩ := hs
    refine ⟨hp, r, ?_, ih hrest⟩
    have hlt : c.1 < h.length := by
      by_contra hge
      rw [List.getElem?_eq_none (by omega)] at hr
      cases hr
    rw [List.getElem?_append_left hlt]
    exact hr

theorem Seg_heap_set {α : Type} {h : List (Option (Node α))} {p q : Ptr}
    {cs : List (Nat × α)} (a : Nat) (x : Option (Node α)) (hne : ∀ c ∈ cs, c.1 ≠ a)
    (hs : Seg h p cs q) : Seg (h.set a x) p cs q := by
  induction cs generalizing p with
  | nil => exact hs
  | cons c cs ih =>
    obtain ⟨hp, r, hr, hrest⟩ := hs
    refine ⟨hp, r, ?_, ih (fun c1 hc1 => hne c1 (List.mem_cons_of_mem _ hc1)) hrest⟩
    rw [List.getElem?_set_ne (Ne.symm (hne c (List.mem_cons_self _ _)))]
    exact hr

/-! ## Reading through positions -/

theorem load_cell {α : Type} {w : World α} {a : Nat} {n : Node α}
    (h : w.heap[a]? = some (some n)) : w.load (.cell a) = .ok n := by
  simp [World.load, h]

theorem load_head {α : Type} {w : World α} {l : Nat} {o : SingleLinkedList α}
    (h : w.objs[l]? = some o) : w.load (.head l) = .ok o.head_ := by
  simp [World.load, h]

theorem obj_some {α : Type} {w : World α} {l : Nat} {o : SingleLinkedList α}
    (h : w.objs[l]? = some o) : w.obj l = .ok o := by
  simp [World.obj, h]

theorem incr_of_load {α : Type} {w : World α} {p : Ptr} {n : Node α} (hp : p ≠ .null)
    (h : w.load p = .ok n) : BasicIterator.incr w ⟨p⟩ = .ok ⟨n.next_node⟩ := by
  simp [BasicIterator.incr, assert, hp, h, bind, Except.bind, pure, Except.pure]

theorem deref_of_load {α : Type} {w : World α} {p : Ptr} {n : Node α} (hp : p ≠ .null)
    (h : w.load p = .ok n) : BasicIterator.deref w ⟨p⟩ = .ok n.value := by
  simp [BasicIterator.deref, assert, hp, h, bind, Except.bind, pure, Except.pure]

theorem incr_null {α : Type} (w : World α) :
    BasicIterator.incr w ⟨.null⟩ = .error .assertion := by
  simp [BasicIterator.incr, assert, bind, Except.bind]

theorem deref_null {α : Type} (w : World α) :
    (BasicIterator.deref w ⟨.null⟩ : Except (Fault α) α) = .error .assertion := by
  simp [BasicIterator.deref, assert, bind, Except.bind]

theorem traverse_Seg {α : Type} (w : World α) (cs : List (Nat × α)) (p : Ptr) (fuel : Nat)
    (hs : Seg w.heap p cs .null) (hf : cs.length < fuel) :
    traverse fuel w ⟨p⟩ cend = .ok (cs.map Prod.snd) := by
  induction cs generalizing p fuel with
  | nil =>
    have hp : p = .null := hs
    subst hp
    cases fuel with
    | zero => simp at hf
    | succ fuel => simp [traverse, BasicIterator.ne, BasicIterator.eq, cend, pure, Except.pure]
  | cons c cs ih =>
    obtain ⟨hp, r, hr, hrest⟩ := hs
    subst hp
    cases fuel with
    | zero => simp at hf
    | succ fuel =>
      have hl := load_cell (w := w) hr
      have hne : Ptr.cell c.1 ≠ .null := by simp
      have h1 := incr_of_load hne hl
      have h2 := deref_of_load hne hl
      have h3 := ih r fuel hrest (by simpa using hf)
      simp only [cend] at h3
      simp [traverse, BasicIterator.ne, BasicIterator.eq, cend, h1, h2, h3, bind, Except.bind,
        pure, Except.pure]

theorem to_list_of_Owns {α : Type} {w : World α} {l : Nat} {cells : List (Nat × α)}
    (h : Owns w l cells) : to_list w l = .ok (cells.map Prod.snd) := by
  obtain ⟨o, ho, hs, _, _⟩ := h
  have := traverse_Seg w cells _ (w.heap.length + 1) hs (by have := Seg_length_le hs; omega)
  simp [to_list, cbegin, obj_some ho, this, bind, Except.bind, pure, Except.pure]

theorem GetSize_of_Owns {α : Type} {w : World α} {l : Nat} {cells : List (Nat × α)}
    (h : Owns w l cells) : GetSize w l = .ok cells.length := by
  obtain ⟨o, ho, _, hsz, _⟩ := h
  simp [GetSize, obj_some ho, hsz, bind, Except.bind, pure, Except.pure]

theorem Seg_congr {α : Type} {h h2 : List (Option (Node α))} {p q : Ptr}
    {cs : List (Nat × α)} (hag : ∀ c ∈ cs, h2[c.1]? = h[c.1]?) (hs : Seg h p cs q) :
    Seg h2 p cs q := by
  induction cs generalizing p with
  | nil => exact hs
  | cons c cs ih =>
    obtain ⟨hp, r, hr, hrest⟩ := hs
    refine ⟨hp, r, ?_, ih (fun c1 hc1 => hag c1 (List.mem_cons_of_mem _ hc1)) hrest⟩
    rw [hag c (List.mem_cons_self _ _)]
    exact hr

theorem Owns_unique {α : Type} {w : World α} {l : Nat} {cs cs2 : List (Nat × α)}
    (h1 : Owns w l cs) (h2 : Owns w l cs2) : cs = cs2 := by
  obtain ⟨o, ho, hs, _, _⟩ := h1
  obtain ⟨o2, ho2, hs2, _, _⟩ := h2
  rw [ho] at ho2
  injection ho2 with ho2
  subst ho2
  exact Seg_unique hs hs2

theorem Owns_frame {α : Type} {w w2 : World α} {l : Nat} {cs : List (Nat × α)}
    (h : Owns w l cs) (hobj : w2.objs[l]? = w.objs[l]?)
    (hheap : ∀ c ∈ cs, w2.heap[c.1]? = w.heap[c.1]?) : Owns w2 l cs := by
  obtain ⟨o, ho, hs, hsz, hmx⟩ := h
  exact ⟨o, by rw [hobj, ho], Seg_congr hheap hs, hsz, hmx⟩

/-! ## InsertAfter and PushFront -/

theorem InsertAfter_cell_eq {α : Type} {w : World α} {this a : Nat} {n : Node α}
    {o : SingleLinkedList α} (v : α) (ha : w.heap[a]? = some (some n))
    (ho : w.objs[this]? = some o) (hlim : w.heap.length < w.limit) :
    InsertAfter w this ⟨.cell a⟩ v =
      .ok (World.mk ((w.heap ++ [some (Node.mk v n.next_node)]).set a
              (some (Node.mk n.value (.cell w.heap.length))))
            w.limit (w.objs.set this ⟨o.head_, (o.size_ + 1) % 2 ^ 64⟩),
           BasicIterator.mk (.cell w.heap.length)) := by
  have hlt : a < w.heap.length := by
    by_contra hge
    rw [List.getElem?_eq_none (by omega)] at ha
    cases ha
  simp [InsertAfter, assert, World.load, World.new_Node, World.store_next, World.incr_size,
    World.obj, World.set_obj, ha, ho, hlim, hlt, List.getElem?_append_left, bind, Except.bind,
    pure, Except.pure]

theorem InsertAfter_head_eq {α : Type} {w : World α} {this : Nat}
    {o : SingleLinkedList α} (v : α)
    (ho : w.objs[this]? = some o) (hlim : w.heap.length < w.limit) :
    InsertAfter w this ⟨.head this⟩ v =
      .ok (World.mk (w.heap ++ [some (Node.mk v o.head_.next_node)]) w.limit
            (w.objs.set this ⟨⟨o.head_.value, .cell w.heap.length⟩, (o.size_ + 1) % 2 ^ 64⟩),
           BasicIterator.mk (.cell w.heap.length)) := by
  have hlt : this < w.objs.length := by
    by_contra hge
    rw [List.getElem?_eq_none (by omega)] at ho
    cases ho
  simp [InsertAfter, assert, World.load, World.new_Node, World.store_next, World.incr_size,
    World.obj, World.set_obj, ho, hlim, hlt, bind, Except.bind, pure, Except.pure]

theorem getElem?_lt {β : Type} {l : List β} {i : Nat} {x : β} (h : l[i]? = some x) :
    i < l.length := by
  by_contra hge
  rw [List.getElem?_eq_none (by omega)] at h
  cases h

theorem size_incr {α : Type} {w : World α} {p : Ptr} {cells : List (Nat × α)}
    (hb : Bounded w) (hlim : w.heap.length < w.limit) (hs : Seg w.heap p cells .null) :
    cells.length + 1 < 2 ^ 64 := by
  have h1 := Seg_length_le hs
  obtain ⟨_, h2⟩ := hb
  unfold SIZE_MAX at h2
  omega

theorem Seg_insert_cell {α : Type} {h : List (Option (Node α))} {p : Ptr}
    {l1 l2 : List (Nat × α)} {c : Nat × α} (v : α) (hs : Seg h p (l1 ++ c :: l2) .null) :
    ∃ r, h[c.1]? = some (some ⟨c.2, r⟩) ∧
      Seg ((h ++ [some (Node.mk v r)]).set c.1 (some (Node.mk c.2 (.cell h.length)))) p
        (l1 ++ c :: (h.length, v) :: l2) .null := by
  have hnd := Seg_nodup hs
  have hlt := Seg_lt hs
  obtain ⟨q, h1, hq, r, hr, h2⟩ := (Seg_append h l1 (c :: l2) p .null).1 hs
  refine ⟨r, hr, ?_⟩
  have hc : c.1 < h.length := hlt c (by simp)
  rw [List.map_append, List.map_cons, List.nodup_append] at hnd
  obtain ⟨_, hnd2, hdis⟩ := hnd
  rw [List.nodup_cons] at hnd2
  have hne1 : ∀ c1 ∈ l1, c1.1 ≠ c.1 := by
    intro c1 hc1 heq
    exact hdis (List.mem_map_of_mem Prod.fst hc1) (by rw [heq]; simp)
  have hne2 : ∀ c1 ∈ l2, c1.1 ≠ c.1 := by
    intro c1 hc1 heq
    exact hnd2.1 (by rw [← heq]; exact List.mem_map_of_mem Prod.fst hc1)
  rw [Seg_append]
  refine ⟨q, Seg_heap_set _ _ hne1 (Seg_heap_append _ h1), hq, .cell h.length, ?_, rfl, r, ?_,
    Seg_heap_set _ _ hne2 (Seg_heap_append _ h2)⟩
  · rw [List.getElem?_set_self (by simp; omega)]
  · show ((h ++ [some (Node.mk v r)]).set c.1 _)[h.length]? = _
    rw [List.getElem?_set_ne (by omega), List.getElem?_concat_length]

theorem InsertAfter_spec {α : Type} {w : World α} {this : Nat} {cells : List (Nat × α)}
    (k : Nat) (v : α) (hown : Owns w this cells) (hb : Bounded w)
    (hlim : w.heap.length < w.limit) (hk : k ≤ cells.length) :
    ∃ w2, InsertAfter w this (pos_at this cells k) v = .ok (w2, ⟨.cell w.heap.length⟩) ∧
      Owns w2 this (cells.take k ++ (w.heap.length, v) :: cells.drop k) ∧
      Frame w w2 this cells ∧ w2.heap.length = w.heap.length + 1 := by
  obtain ⟨o, ho, hs, hsz, _⟩ := hown
  have hthis := getElem?_lt ho
  have hsize := size_incr hb hlim hs
  cases k with
  | zero =>
    refine ⟨_, InsertAfter_head_eq v ho hlim,
      ⟨⟨⟨o.head_.value, .cell w.heap.length⟩, (o.size_ + 1) % 2 ^ 64⟩, ?_,
        ⟨rfl, o.head_.next_node, ?_, ?_⟩, ?_, ?_⟩,
      ⟨rfl, ?_, ?_, ?_, ?_⟩, ?_⟩
    · simp [List.getElem?_set_self hthis]
    · simp
    · simpa using Seg_heap_append _ hs
    · simp [hsz]
      omega
    · simp [hsz, SIZE_MAX]
      omega
    · simp
    · simp
    · intro l hl
      simp [List.getElem?_set_ne (Ne.symm hl)]
    · intro a ha _
      simp [List.getElem?_append_left ha]
    · simp
  | succ j =>
    have hj : j < cells.length := hk
    have hsplit : cells = cells.take j ++ cells[j] :: cells.drop (j + 1) := by
      rw [← List.drop_eq_getElem_cons hj, List.take_append_drop]
    have hs2 := hs
    rw [hsplit] at hs2
    obtain ⟨r, hr, hseg⟩ := Seg_insert_cell v hs2
    have hpos : pos_at this cells (j + 1) = ⟨.cell cells[j].1⟩ := by
      simp [pos_at, List.getElem?_eq_getElem hj]
    have hc : cells[j].1 < w.heap.length := getElem?_lt hr
    rw [hpos]
    refine ⟨_, InsertAfter_cell_eq v hr ho hlim,
      ⟨⟨o.head_, (o.size_ + 1) % 2 ^ 64⟩, ?_, ?_, ?_, ?_⟩, ⟨rfl, ?_, ?_, ?_, ?_⟩, ?_⟩
    · simp [List.getElem?_set_self hthis]
    · have htake : cells.take (j + 1) = cells.take j ++ [cells[j]] := by
        rw [List.take_succ, List.getElem?_eq_getElem hj]
        rfl
      rw [htake, List.append_assoc]
      simpa using hseg
    · simp [hsz]
      omega
    · simp [hsz, SIZE_MAX]
      omega
    · simp
    · simp
    · intro l hl
      simp [List.getElem?_set_ne (Ne.symm hl)]
    · intro a ha hne
      have : cells[j].1 ≠ a := hne _ (List.getElem_mem hj)
      simp [List.getElem?_set_ne this, List.getElem?_append_left ha]
    · simp

/-! ## Positions of a list -/

theorem Seg_start {α : Type} {h : List (Option (Node α))} {p : Ptr} {cs : List (Nat × α)}
    (l : Nat) (hs : Seg h p cs .null) : p = (pos_at l cs 1).node_ := by
  cases cs with
  | nil =>
    have hp : p = .null := hs
    simp [pos_at, end_, hp]
  | cons c cs =>
    obtain ⟨hp, _⟩ := hs
    simp [pos_at, hp]

theorem pos_at_drop {α : Type} (l : Nat) (cells : List (Nat × α)) (j i : Nat) :
    pos_at l (cells.drop j) (i + 1) = pos_at l cells (j + i + 1) := by
  simp [pos_at, List.getElem?_drop]

theorem pos_at_succ {α : Type} (l : Nat) (cells : List (Nat × α)) (j : Nat)
    (hj : j < cells.length) : pos_at l cells (j + 1) = ⟨.cell cells[j].1⟩ := by
  simp [pos_at, List.getElem?_eq_getElem hj]

theorem pos_at_end {α : Type} (l : Nat) (cells : List (Nat × α)) (j : Nat)
    (hj : cells.length ≤ j) : pos_at l cells (j + 1) = end_ := by
  simp [pos_at, List.getElem?_eq_none hj]

theorem Seg_at {α : Type} {h : List (Option (Node α))} {p : Ptr} {cells : List (Nat × α)}
    (hs : Seg h p cells .null) (j : Nat) (hj : j < cells.length) :
    ∃ r, h[cells[j].1]? = some (some ⟨cells[j].2, r⟩) ∧
      Seg h r (cells.drop (j + 1)) .null := by
  have hsplit : cells = cells.take j ++ cells[j] :: cells.drop (j + 1) := by
    rw [← List.drop_eq_getElem_cons hj, List.take_append_drop]
  rw [hsplit] at hs
  obtain ⟨q, _, _, r, hr, h2⟩ := (Seg_append h _ _ p .null).1 hs
  exact ⟨r, hr, h2⟩

theorem load_pos_at {α : Type} {w : World α} {l : Nat} {cells : List (Nat × α)}
    (hown : Owns w l cells) (k : Nat) (hk : k ≤ cells.length) :
    ∃ n, w.load (pos_at l cells k).node_ = .ok n ∧
      n.next_node = (pos_at l cells (k + 1)).node_ ∧
      (pos_at l cells k).node_ ≠ .null ∧
      (∀ j (hj : j < cells.length), k = j + 1 → n.value = cells[j].2) := by
  obtain ⟨o, ho, hs, _, _⟩ := hown
  cases k with
  | zero =>
    refine ⟨o.head_, load_head ho, Seg_start l hs, by simp [pos_at, before_begin], ?_⟩
    intro j _ hj0
    omega
  | succ j =>
    have hj : j < cells.length := hk
    obtain ⟨r, hr, hrest⟩ := Seg_at hs j hj
    rw [pos_at_succ l cells j hj]
    refine ⟨_, load_cell hr, ?_, by simp, ?_⟩
    · have := Seg_start l hrest
      rw [pos_at_drop] at this
      simpa using this
    · intro j2 hj2 heq
      have : j = j2 := by omega
      subst this
      rfl

theorem incr_pos_at {α : Type} {w : World α} {l : Nat} {cells : List (Nat × α)}
    (hown : Owns w l cells) (k : Nat) (hk : k ≤ cells.length) :
    BasicIterator.incr w (pos_at l cells k) = .ok (pos_at l cells (k + 1)) := by
  obtain ⟨n, hn, hnext, hne, _⟩ := load_pos_at hown k hk
  have := incr_of_load hne hn
  rw [hnext] at this
  exact this

theorem deref_pos_at {α : Type} {w : World α} {l : Nat} {cells : List (Nat × α)}
    (hown : Owns w l cells) (j : Nat) (hj : j < cells.length) :
    BasicIterator.deref w (pos_at l cells (j + 1)) = .ok cells[j].2 := by
  obtain ⟨n, hn, _, hne, hval⟩ := load_pos_at hown (j + 1) hj
  have := deref_of_load hne hn
  rw [hval j hj rfl] at this
  exact this

theorem advance_pos_at {α : Type} {w : World α} {l : Nat} {cells : List (Nat × α)}
    (hown : Owns w l cells) (i k : Nat) (hk : i + k ≤ cells.length + 1) :
    advance w k (pos_at l cells i) = .ok (pos_at l cells (i + k)) := by
  induction k generalizing i with
  | zero => simp [advance, pure, Except.pure]
  | succ k ih =>
    have h1 := incr_pos_at hown i (by omega)
    have h2 := ih (i + 1) (by omega)
    simp only [advance, h1, bind, Except.bind]
    rw [h2]
    congr 2
    omega

/-! ## EraseAfter and PopFront -/

theorem EraseAfter_cell_eq {α : Type} {w : World α} {this a t : Nat} {n tn : Node α}
    {o : SingleLinkedList α} (ha : w.heap[a]? = some (some n)) (hn : n.next_node = .cell t)
    (ht : w.heap[t]? = some (some tn)) (hat : a ≠ t)
    (ho : w.objs[this]? = some o) (hsz : 0 < o.size_) :
    EraseAfter w this ⟨.cell a⟩ =
      .ok (World.mk ((w.heap.set a (some (Node.mk n.value tn.next_node))).set t none)
            w.limit (w.objs.set this ⟨o.head_, (o.size_ + (2 ^ 64 - 1)) % 2 ^ 64⟩),
           BasicIterator.mk tn.next_node) := by
  have hlt : a < w.heap.length := getElem?_lt ha
  have hlt2 : t < w.heap.length := getElem?_lt ht
  have ht2 : w.heap[t] = some tn := by
    rw [List.getElem?_eq_getElem hlt2] at ht
    injection ht
  simp [EraseAfter, assert, World.load, World.store_next, World.delete_Node, World.decr_size,
    World.obj, World.set_obj, ha, hn, ht, ht2, ho, hsz, hlt, hlt2, hat, Ne.symm hat,
    List.getElem?_set_ne, bind, Except.bind, pure, Except.pure]

theorem EraseAfter_head_eq {α : Type} {w : World α} {this t : Nat} {tn : Node α}
    {o : SingleLinkedList α} (ho : w.objs[this]? = some o) (hn : o.head_.next_node = .cell t)
    (ht : w.heap[t]? = some (some tn)) (hsz : 0 < o.size_) :
    EraseAfter w this ⟨.head this⟩ =
      .ok (World.mk (w.heap.set t none) w.limit
            (w.objs.set this ⟨⟨o.head_.value, tn.next_node⟩, (o.size_ + (2 ^ 64 - 1)) % 2 ^ 64⟩),
           BasicIterator.mk tn.next_node) := by
  have hlt : this < w.objs.length := getElem?_lt ho
  have hlt2 : t < w.heap.length := getElem?_lt ht
  simp [EraseAfter, assert, World.load, World.store_next, World.delete_Node, World.decr_size,
    World.obj, World.set_obj, hn, ht, ho, hsz, hlt, hlt2, bind, Except.bind, pure, Except.pure]

theorem PopFront_eq {α : Type} {w : World α} {this t : Nat} {tn : Node α}
    {o : SingleLinkedList α} (ho : w.objs[this]? = some o) (hn : o.head_.next_node = .cell t)
    (ht : w.heap[t]? = some (some tn)) (hsz : 0 < o.size_) :
    PopFront w this =
      .ok (World.mk (w.heap.set t none) w.limit
            (w.objs.set this
              ⟨⟨o.head_.value, tn.next_node⟩, (o.size_ + (2 ^ 64 - 1)) % 2 ^ 64⟩)) := by
  have hlt : this < w.objs.length := getElem?_lt ho
  have hlt2 : t < w.heap.length := getElem?_lt ht
  have hne : o.size_ ≠ 0 := by omega
  simp [PopFront, IsEmpty, assert, World.load, World.store_next, World.delete_Node,
    World.decr_size, World.obj, World.set_obj, hn, ht, ho, hne, hlt, hlt2, bind, Except.bind,
    pure, Except.pure]

theorem Seg_erase_head {α : Type} {h : List (Option (Node α))} {p : Ptr}
    {l2 : List (Nat × α)} {t : Nat × α} (hs : Seg h p (t :: l2) .null) :
    ∃ r, p = .cell t.1 ∧ h[t.1]? = some (some ⟨t.2, r⟩) ∧ Seg (h.set t.1 none) r l2 .null := by
  have hnd := Seg_nodup hs
  obtain ⟨hp, r, hr, h2⟩ := hs
  rw [List.map_cons, List.nodup_cons] at hnd
  refine ⟨r, hp, hr, Seg_heap_set _ _ ?_ h2⟩
  intro c1 hc1 heq
  exact hnd.1 (by rw [← heq]; exact List.mem_map_of_mem Prod.fst hc1)

theorem Seg_erase_cell {α : Type} {h : List (Option (Node α))} {p : Ptr}
    {l1 l2 : List (Nat × α)} {c t : Nat × α} (hs : Seg h p (l1 ++ c :: t :: l2) .null) :
    ∃ r, h[c.1]? = some (some ⟨c.2, .cell t.1⟩) ∧ h[t.1]? = some (some ⟨t.2, r⟩) ∧
      c.1 ≠ t.1 ∧ Seg h r l2 .null ∧
      Seg ((h.set c.1 (some (Node.mk c.2 r))).set t.1 none) p (l1 ++ c :: l2) .null := by
  have hnd := Seg_nodup hs
  have hlt := Seg_lt hs
  obtain ⟨q, h1, hq, r0, hr0, ht0, r, hr, h2⟩ := (Seg_append h l1 (c :: t :: l2) p .null).1 hs
  subst ht0
  have hc : c.1 < h.length := hlt c (by simp)
  rw [List.map_append, List.map_cons, List.map_cons, List.nodup_append] at hnd
  obtain ⟨_, hnd2, hdis⟩ := hnd
  rw [List.nodup_cons, List.nodup_cons] at hnd2
  have hct : c.1 ≠ t.1 := by
    intro heq
    exact hnd2.1 (by rw [heq]; simp)
  have hne1 : ∀ c1 ∈ l1, c1.1 ≠ c.1 := by
    intro c1 hc1 heq
    exact hdis (List.mem_map_of_mem Prod.fst hc1) (by rw [heq]; simp)
  have hne1t : ∀ c1 ∈ l1, c1.1 ≠ t.1 := by
    intro c1 hc1 heq
    exact hdis (List.mem_map_of_mem Prod.fst hc1) (by rw [heq]; simp)
  have hne2 : ∀ c1 ∈ l2, c1.1 ≠ c.1 := by
    intro c1 hc1 heq
    exact hnd2.1 (by rw [← heq]; exact List.mem_cons_of_mem _ (List.mem_map_of_mem Prod.fst hc1))
  have hne2t : ∀ c1 ∈ l2, c1.1 ≠ t.1 := by
    intro c1 hc1 heq
    exact hnd2.2.1 (by rw [← heq]; exact List.mem_map_of_mem Prod.fst hc1)
  refine ⟨r, hr0, hr, hct, h2, ?_⟩
  rw [Seg_append]
  refine ⟨q, Seg_heap_set _ _ hne1t (Seg_heap_set _ _ hne1 h1), hq, r, ?_,
    Seg_heap_set _ _ hne2t (Seg_heap_set _ _ hne2 h2)⟩
  rw [List.getElem?_set_ne (Ne.symm hct), List.getElem?_set_self hc]

theorem size_decr {n : Nat} (h1 : 0 < n) (h2 : n ≤ SIZE_MAX) :
    (n + (2 ^ 64 - 1)) % 2 ^ 64 = n - 1 := by
  unfold SIZE_MAX at h2
  omega

theorem EraseAfter_spec {α : Type} {w : World α} {this : Nat} {cells : List (Nat × α)}
    (k : Nat) (hown : Owns w this cells) (hk : k < cells.length) :
    ∃ w2, EraseAfter w this (pos_at this cells k) = .ok (w2, pos_at this cells (k + 2)) ∧
      Owns w2 this (cells.eraseIdx k) ∧
      Frame w w2 this cells ∧ w2.heap.length = w.heap.length := by
  obtain ⟨o, ho, hs, hsz, hmx⟩ := hown
  have hthis := getElem?_lt ho
  have hpos : 0 < o.size_ := by omega
  have hdec := size_decr hpos hmx
  cases k with
  | zero =>
    have hsplit : cells = cells[0] :: cells.drop 1 := by
      rw [← List.drop_eq_getElem_cons hk, List.drop_zero]
    have hs2 := hs
    rw [hsplit] at hs2
    obtain ⟨r, hp, hr, hrest⟩ := Seg_erase_head hs2
    have hret : pos_at this cells (0 + 2) = ⟨r⟩ := by
      have := Seg_start this hrest
      rw [pos_at_drop] at this
      rw [this]
    rw [hret]
    refine ⟨_, EraseAfter_head_eq ho hp hr hpos,
      ⟨⟨⟨o.head_.value, r⟩, (o.size_ + (2 ^ 64 - 1)) % 2 ^ 64⟩, ?_, ?_, ?_, ?_⟩,
      ⟨rfl, ?_, ?_, ?_, ?_⟩, ?_⟩
    · simp [List.getElem?_set_self hthis]
    · rw [List.eraseIdx_zero, ← List.drop_one]
      simpa using hrest
    · rw [List.length_eraseIdx_of_lt hk]
      simp only [hdec]
      omega
    · show (o.size_ + (2 ^ 64 - 1)) % 2 ^ 64 ≤ SIZE_MAX
      rw [hdec]
      omega
    · simp
    · simp
    · intro l hl
      simp [List.getElem?_set_ne (Ne.symm hl)]
    · intro a _ hne
      have : cells[0].1 ≠ a := hne _ (List.getElem_mem hk)
      simp [List.getElem?_set_ne this]
    · simp
  | succ j =>
    have hj : j < cells.length := by omega
    have hsplit : cells = cells.take j ++ cells[j] :: cells[j + 1] :: cells.drop (j + 2) := by
      rw [← List.drop_eq_getElem_cons hk, ← List.drop_eq_getElem_cons hj,
        List.take_append_drop]
    have hs2 := hs
    rw [hsplit] at hs2
    obtain ⟨r, hc, ht, hct, hrest, hseg⟩ := Seg_erase_cell hs2
    have hret : pos_at this cells (j + 1 + 2) = ⟨r⟩ := by
      have := Seg_start this hrest
      rw [pos_at_drop] at this
      rw [this]
    rw [hret, pos_at_succ this cells j hj]
    refine ⟨_, EraseAfter_cell_eq hc rfl ht hct ho hpos,
      ⟨⟨o.head_, (o.size_ + (2 ^ 64 - 1)) % 2 ^ 64⟩, ?_, ?_, ?_, ?_⟩,
      ⟨rfl, ?_, ?_, ?_, ?_⟩, ?_⟩
    · simp [List.getElem?_set_self hthis]
    · have htake : cells.take (j + 1) = cells.take j ++ [cells[j]] := by
        rw [List.take_succ, List.getElem?_eq_getElem hj]
        rfl
      rw [List.eraseIdx_eq_take_drop_succ, htake, List.append_assoc]
      simpa using hseg
    · rw [List.length_eraseIdx_of_lt hk]
      simp only [hdec]
      omega
    · show (o.size_ + (2 ^ 64 - 1)) % 2 ^ 64 ≤ SIZE_MAX
      rw [hdec]
      omega
    · simp
    · simp
    · intro l hl
      simp [List.getElem?_set_ne (Ne.symm hl)]
    · intro a _ hne
      have h1 : cells[j].1 ≠ a := hne _ (List.getElem_mem hj)
      have h2 : cells[j + 1].1 ≠ a := hne _ (List.getElem_mem hk)
      simp [List.getElem?_set_ne h1, List.getElem?_set_ne h2]
    · simp

theorem pos_at_eraseIdx_le {α : Type} (l : Nat) (cells : List (Nat × α)) (k i : Nat)
    (hi : i ≤ k) : pos_at l (cells.eraseIdx k) i = pos_at l cells i := by
  cases i with
  | zero => rfl
  | succ i => simp [pos_at, List.getElem?_eraseIdx_of_lt cells k i (by omega)]

theorem pos_at_eraseIdx_gt {α : Type} (l : Nat) (cells : List (Nat × α)) (k i : Nat)
    (hi : k < i) : pos_at l (cells.eraseIdx k) i = pos_at l cells (i + 1) := by
  cases i with
  | zero => omega
  | succ i => simp [pos_at, List.getElem?_eraseIdx_of_ge cells k i (by omega)]

theorem pos_at_insert_le {α : Type} (l : Nat) (cells : List (Nat × α)) (x : Nat × α)
    (k i : Nat) (hi : i ≤ k) (hlen : k ≤ cells.length) :
    pos_at l (cells.take k ++ x :: cells.drop k) i = pos_at l cells i := by
  cases i with
  | zero => rfl
  | succ i =>
    have h1 : i < (cells.take k).length := by simp; omega
    simp [pos_at, List.getElem?_append_left h1, List.getElem?_take_of_lt (show i < k by omega)]

theorem pos_at_insert_new {α : Type} (l : Nat) (cells : List (Nat × α)) (x : Nat × α)
    (k : Nat) (hk : k ≤ cells.length) :
    pos_at l (cells.take k ++ x :: cells.drop k) (k + 1) = ⟨.cell x.1⟩ := by
  have h1 : (cells.take k).length = k := by simp; omega
  have h2 : (cells.take k ++ x :: cells.drop k)[k]? = some x := by
    rw [List.getElem?_append_right (by omega), h1]
    simp
  simp [pos_at, h2]

theorem map_snd_eraseIdx {α : Type} (cells : List (Nat × α)) (k : Nat) :
    (cells.eraseIdx k).map Prod.snd = (cells.map Prod.snd).eraseIdx k := by
  rw [List.eraseIdx_eq_take_drop_succ, List.eraseIdx_eq_take_drop_succ]
  simp

theorem PushFront_eq_InsertAfter {α : Type} (w : World α) (this : Nat) (v : α) :
    PushFront w this v = (InsertAfter w this (before_begin this) v).map Prod.fst := by
  cases ho : w.objs[this]? with
  | none =>
    simp [PushFront, InsertAfter, before_begin, assert, World.obj, World.load, ho, bind,
      Except.bind, Except.map]
  | some o =>
    have hlt : this < w.objs.length := getElem?_lt ho
    by_cases hlim : w.heap.length < w.limit
    · rw [before_begin, InsertAfter_head_eq v ho hlim]
      simp [PushFront, World.obj, World.new_Node, World.store_next, World.incr_size,
        World.set_obj, ho, hlim, hlt, bind, Except.bind, pure, Except.pure, Except.map]
    · simp [PushFront, InsertAfter, before_begin, assert, World.obj, World.load,
        World.new_Node, ho, hlim, bind, Except.bind, Except.map]

theorem Owns_nil_head {α : Type} {w : World α} {this : Nat} (h : Owns w this []) :
    ∃ o, w.objs[this]? = some o ∧ o.head_.next_node = .null ∧ o.size_ = 0 := by
  obtain ⟨o, ho, hs, hsz, _⟩ := h
  exact ⟨o, ho, hs, hsz⟩

theorem PopFront_nil {α : Type} {w : World α} {this : Nat} (h : Owns w this []) :
    PopFront w this = .error .assertion := by
  obtain ⟨o, ho, _, hsz⟩ := Owns_nil_head h
  simp [PopFront, IsEmpty, assert, World.obj, ho, hsz, bind, Except.bind, pure, Except.pure]

theorem EraseAfter_last {α : Type} {w : World α} {this : Nat} {cells : List (Nat × α)}
    (hown : Owns w this cells) :
    EraseAfter w this (pos_at this cells cells.length) = .error .assertion := by
  obtain ⟨n, hn, hnext, hne, _⟩ := load_pos_at hown cells.length (Nat.le_refl _)
  rw [pos_at_end this cells cells.length (Nat.le_refl _)] at hnext
  have hnull : n.next_node = .null := hnext
  simp [EraseAfter, assert, hne, hn, hnull, bind, Except.bind]

theorem EraseAfter_end {α : Type} (w : World α) (this : Nat) :
    EraseAfter w this end_ = .error .assertion := by
  simp [EraseAfter, end_, assert, bind, Except.bind]

theorem PopFront_eq_EraseAfter {α : Type} {w : World α} {this : Nat} {cells : List (Nat × α)}
    (hown : Owns w this cells) :
    PopFront w this = (EraseAfter w this (before_begin this)).map Prod.fst := by
  cases cells with
  | nil =>
    have h1 := EraseAfter_last hown
    have h0 : pos_at this ([] : List (Nat × α)) 0 = before_begin this := rfl
    simp only [List.length_nil, h0] at h1
    rw [PopFront_nil hown, h1]
    rfl
  | cons t l2 =>
    obtain ⟨o, ho, hs, hsz, _⟩ := hown
    obtain ⟨r, hp, hr, _⟩ := Seg_erase_head hs
    have hpos : 0 < o.size_ := by simp [hsz]
    rw [PopFront_eq ho hp hr hpos, before_begin, EraseAfter_head_eq ho hp hr hpos]
    rfl

/-! ## Calls with a position given by its index -/

theorem advance_end {α : Type} (w : World α) (m : Nat) :
    advance w m end_ = .ok end_ ∨ advance w m end_ = .error .assertion := by
  cases m with
  | zero => exact Or.inl rfl
  | succ m =>
    right
    simp [advance, end_, incr_null, bind, Except.bind]

theorem advance_add {α : Type} (w : World α) (a b : Nat) (it : BasicIterator) :
    advance w (a + b) it = advance w a it >>= advance w b := by
  induction a generalizing it with
  | zero => simp [advance, bind, Except.bind, pure, Except.pure]
  | succ a ih =>
    have h : a + 1 + b = (a + b) + 1 := by omega
    rw [h]
    simp only [advance, bind, Except.bind]
    cases BasicIterator.incr w it with
    | error e => rfl
    | ok it1 =>
      have := ih it1
      simp only [bind, Except.bind] at this
      exact this

theorem advance_beyond {α : Type} {w : World α} {l : Nat} {cells : List (Nat × α)}
    (hown : Owns w l cells) (k : Nat) (hk : cells.length < k) :
    advance w k (before_begin l) = .ok end_ ∨
      advance w k (before_begin l) = .error .assertion := by
  obtain ⟨m, rfl⟩ : ∃ m, k = (cells.length + 1) + m := ⟨k - (cells.length + 1), by omega⟩
  have h1 := advance_pos_at hown 0 (cells.length + 1) (by omega)
  have h0 : pos_at l cells 0 = before_begin l := rfl
  rw [h0, Nat.zero_add, pos_at_end l cells cells.length (Nat.le_refl _)] at h1
  rw [advance_add, h1]
  exact advance_end w m

theorem InsertAfter_end {α : Type} (w : World α) (this : Nat) (v : α) :
    InsertAfter w this end_ v = .error .assertion := by
  simp [InsertAfter, end_, assert, bind, Except.bind]

theorem InsertAfter_bad_alloc {α : Type} {w : World α} {this : Nat} {cells : List (Nat × α)}
    (k : Nat) (v : α) (hown : Owns w this cells) (hk : k ≤ cells.length)
    (hlim : ¬ w.heap.length < w.limit) :
    InsertAfter w this (pos_at this cells k) v = .error (.bad_alloc w) := by
  obtain ⟨n, hn, _, hne, _⟩ := load_pos_at hown k hk
  simp [InsertAfter, assert, hne, hn, World.new_Node, hlim, bind, Except.bind]

theorem Bounded_of_Frame {α : Type} {w w2 : World α} {this : Nat} {cells : List (Nat × α)}
    (hb : Bounded w) (hf : Frame w w2 this cells) (hlen : w2.heap.length ≤ w.limit) :
    Bounded w2 := by
  obtain ⟨hl, _⟩ := hf
  obtain ⟨_, h2⟩ := hb
  exact ⟨by rw [hl]; exact hlen, by rw [hl]; exact h2⟩

/-- What `exec` of `InsertAfter` at the `k`-th position does to a list that
satisfies the size invariant. -/
theorem exec_InsertAfter {α : Type} [Inhabited α] {w : World α} {this : Nat}
    {cells : List (Nat × α)} (k : Nat) (v : α) (hown : Owns w this cells) (hb : Bounded w) :
    (k ≤ cells.length ∧ w.heap.length < w.limit ∧
      ∃ w1, exec w (.InsertAfter this k v) = .ok w1 ∧
        Owns w1 this (cells.take k ++ (w.heap.length, v) :: cells.drop k) ∧
        Frame w w1 this cells ∧ w1.heap.length = w.heap.length + 1) ∨
    (k ≤ cells.length ∧ ¬ w.heap.length < w.limit ∧
      exec w (.InsertAfter this k v) = .error (.bad_alloc w)) ∨
    (cells.length < k ∧ exec w (.InsertAfter this k v) = .error .assertion) := by
  have h0 : pos_at this cells 0 = before_begin this := rfl
  by_cases hk : k ≤ cells.length
  · have hadv := advance_pos_at hown 0 k (by omega)
    rw [h0, Nat.zero_add] at hadv
    by_cases hlim : w.heap.length < w.limit
    · left
      obtain ⟨w1, he, hown1, hf, hlen⟩ := InsertAfter_spec k v hown hb hlim hk
      refine ⟨hk, hlim, w1, ?_, hown1, hf, hlen⟩
      simp [exec, hadv, he, bind, Except.bind, pure, Except.pure]
    · right
      left
      refine ⟨hk, hlim, ?_⟩
      simp [exec, hadv, InsertAfter_bad_alloc k v hown hk hlim, bind, Except.bind]
  · right
    right
    refine ⟨by omega, ?_⟩
    rcases advance_beyond hown k (by omega) with h | h
    · simp [exec, h, InsertAfter_end, bind, Except.bind]
    · simp [exec, h, bind, Except.bind]

/-- What `exec` of `EraseAfter` at the `k`-th position does to a list that
satisfies the size invariant. -/
theorem exec_EraseAfter {α : Type} [Inhabited α] {w : World α} {this : Nat}
    {cells : List (Nat × α)} (k : Nat) (hown : Owns w this cells) :
    (k < cells.length ∧
      ∃ w1, exec w (.EraseAfter this k) = .ok w1 ∧ Owns w1 this (cells.eraseIdx k) ∧
        Frame w w1 this cells ∧ w1.heap.length = w.heap.length) ∨
    (cells.length ≤ k ∧ exec w (.EraseAfter this k) = .error .assertion) := by
  have h0 : pos_at this cells 0 = before_begin this := rfl
  by_cases hk : k < cells.length
  · left
    have hadv := advance_pos_at hown 0 k (by omega)
    rw [h0, Nat.zero_add] at hadv
    obtain ⟨w1, he, hown1, hf, hlen⟩ := EraseAfter_spec k hown hk
    refine ⟨hk, w1, ?_, hown1, hf, hlen⟩
    simp [exec, hadv, he, bind, Except.bind, pure, Except.pure]
  · right
    refine ⟨by omega, ?_⟩
    rcases Nat.eq_or_lt_of_le (show cells.length ≤ k by omega) with heq | hgt
    · have hadv := advance_pos_at hown 0 k (by omega)
      rw [h0, Nat.zero_add] at hadv
      have hl := EraseAfter_last hown
      rw [heq] at hl
      simp [exec, hadv, hl, bind, Except.bind]
    · rcases advance_beyond hown k hgt with h | h
      · simp [exec, h, EraseAfter_end, bind, Except.bind]
      · simp [exec, h, bind, Except.bind]

theorem exec_PushFront {α : Type} [Inhabited α] (w : World α) (this : Nat) (v : α) :
    exec w (.PushFront this v) = exec w (.InsertAfter this 0 v) := by
  simp only [exec, advance, PushFront_eq_InsertAfter, bind, Except.bind, pure, Except.pure,
    Except.map]

theorem exec_PopFront {α : Type} [Inhabited α] {w : World α} {this : Nat}
    {cells : List (Nat × α)} (hown : Owns w this cells) :
    exec w (.PopFront this) = exec w (.EraseAfter this 0) := by
  simp only [exec, advance, PopFront_eq_EraseAfter hown, bind, Except.bind, pure, Except.pure,
    Except.map]

/-- An element operation on the list `this` that returns keeps the size
invariant and changes the values as the operation implies. -/
theorem exec_element_op {α : Type} [Inhabited α] {w w1 : World α} {this : Nat}
    {cells : List (Nat × α)} (op : Op α) (hown : Owns w this cells) (hb : Bounded w)
    (hon : op.on this = true) (hex : exec w op = .ok w1) :
    ∃ cells1, Owns w1 this cells1 ∧ Bounded w1 ∧
      cells1.map Prod.snd = op.implied (cells.map Prod.snd) ∧
      cells1.length + (if op.erases then 1 else 0) =
        cells.length + (if op.inserts then 1 else 0) ∧
      Frame w w1 this cells ∧ (∀ c ∈ cells1, c ∈ cells ∨ w.heap.length ≤ c.1) := by
  have hins : ∀ k v, exec w (.InsertAfter this k v) = .ok w1 →
      ∃ cells1, Owns w1 this cells1 ∧ Bounded w1 ∧
        cells1.map Prod.snd = (cells.map Prod.snd).take k ++ v :: (cells.map Prod.snd).drop k ∧
        cells1.length = cells.length + 1 ∧
        Frame w w1 this cells ∧ (∀ c ∈ cells1, c ∈ cells ∨ w.heap.length ≤ c.1) := by
    intro k v hex
    rcases exec_InsertAfter k v hown hb with ⟨hk, hlim, w2, he, hown2, hf, hlen⟩ | ⟨_, _, he⟩ |
      ⟨_, he⟩
    · rw [he] at hex
      injection hex with hex
      subst hex
      refine ⟨_, hown2, Bounded_of_Frame hb hf (by omega), by simp, by simp; omega, hf, ?_⟩
      intro c hc
      rcases List.mem_append.1 hc with h | h
      · exact Or.inl (List.mem_of_mem_take h)
      · rcases List.mem_cons.1 h with h | h
        · right
          rw [h]
        · exact Or.inl (List.mem_of_mem_drop h)
    · rw [he] at hex
      cases hex
    · rw [he] at hex
      cases hex
  have hers : ∀ k, exec w (.EraseAfter this k) = .ok w1 →
      ∃ cells1, Owns w1 this cells1 ∧ Bounded w1 ∧
        cells1.map Prod.snd = (cells.map Prod.snd).eraseIdx k ∧
        cells1.length + 1 = cells.length ∧
        Frame w w1 this cells ∧ (∀ c ∈ cells1, c ∈ cells ∨ w.heap.length ≤ c.1) := by
    intro k hex
    rcases exec_EraseAfter k hown with ⟨hk, w2, he, hown2, hf, hlen⟩ | ⟨_, he⟩
    · rw [he] at hex
      injection hex with hex
      subst hex
      refine ⟨_, hown2, Bounded_of_Frame hb hf (by have := hb.1; omega),
        map_snd_eraseIdx cells k, by rw [List.length_eraseIdx_of_lt hk]; omega, hf, ?_⟩
      intro c hc
      exact Or.inl (List.mem_of_mem_eraseIdx hc)
    · rw [he] at hex
      cases hex
  cases op with
  | PushFront l v =>
    have hl : l = this := by simpa [Op.on] using hon
    subst hl
    rw [exec_PushFront] at hex
    obtain ⟨cells1, h1, h2, h3, h4, h5⟩ := hins 0 v hex
    exact ⟨cells1, h1, h2, by simpa [Op.implied] using h3, by simpa [Op.erases, Op.inserts] using h4,
      h5⟩
  | PopFront l =>
    have hl : l = this := by simpa [Op.on] using hon
    subst hl
    rw [exec_PopFront hown] at hex
    obtain ⟨cells1, h1, h2, h3, h4, h5⟩ := hers 0 hex
    exact ⟨cells1, h1, h2, by simpa [Op.implied] using h3, by simpa [Op.erases, Op.inserts] using h4,
      h5⟩
  | InsertAfter l k v =>
    have hl : l = this := by simpa [Op.on] using hon
    subst hl
    obtain ⟨cells1, h1, h2, h3, h4, h5⟩ := hins k v hex
    exact ⟨cells1, h1, h2, by simpa [Op.implied] using h3, by simpa [Op.erases, Op.inserts] using h4,
      h5⟩
  | EraseAfter l k =>
    have hl : l = this := by simpa [Op.on] using hon
    subst hl
    obtain ⟨cells1, h1, h2, h3, h4, h5⟩ := hers k hex
    exact ⟨cells1, h1, h2, by simpa [Op.implied] using h3, by simpa [Op.erases, Op.inserts] using h4,
      h5⟩
  | construct_default => simp [Op.on] at hon
  | construct_values _ => simp [Op.on] at hon
  | construct_copy _ => simp [Op.on] at hon
  | assign _ _ => simp [Op.on] at hon
  | swap _ _ => simp [Op.on] at hon
  | Clear _ => simp [Op.on] at hon

/-- A sequence of element operations on the list `this` that all return keeps
the size invariant; the values are those implied by the operations and the
number of nodes is the old number plus the inserts minus the erases. -/
theorem run_element_ops {α : Type} [Inhabited α] (ops : List (Op α)) {w w1 : World α}
    {this : Nat} {cells : List (Nat × α)} (hown : Owns w this cells) (hb : Bounded w)
    (hon : ∀ op ∈ ops, op.on this = true) (hrun : run w ops = .ok w1) :
    ∃ cells1, Owns w1 this cells1 ∧ Bounded w1 ∧
      cells1.map Prod.snd = ops.foldl Op.implied (cells.map Prod.snd) ∧
      cells1.length + ops.countP Op.erases = cells.length + ops.countP Op.inserts := by
  induction ops generalizing w cells with
  | nil =>
    simp only [run, pure, Except.pure] at hrun
    injection hrun with hrun
    subst hrun
    exact ⟨cells, hown, hb, rfl, by simp⟩
  | cons op ops ih =>
    simp only [run, bind, Except.bind] at hrun
    cases hex : exec w op with
    | error e =>
      rw [hex] at hrun
      cases hrun
    | ok w2 =>
      rw [hex] at hrun
      obtain ⟨cells2, hown2, hb2, hmap2, hlen2, _⟩ :=
        exec_element_op op hown hb (hon op (List.mem_cons_self _ _)) hex
      obtain ⟨cells1, hown1, hb1, hmap1, hlen1⟩ :=
        ih hown2 hb2 (fun o ho => hon o (List.mem_cons_of_mem _ ho)) hrun
      refine ⟨cells1, hown1, hb1, ?_, ?_⟩
      · rw [hmap1, hmap2]
        rfl
      · rw [List.countP_cons, List.countP_cons]
        omega

/-! ## Clear -/

theorem Clear_loop_step {α : Type} {w : World α} {l t : Nat} {tn : Node α}
    {o : SingleLinkedList α} (ho : w.objs[l]? = some o) (hn : o.head_.next_node = .cell t)
    (ht : w.heap[t]? = some (some tn)) (fuel : Nat) :
    Clear.loop l (fuel + 1) w =
      Clear.loop l fuel (World.mk (w.heap.set t none) w.limit
        (w.objs.set l ⟨⟨o.head_.value, tn.next_node⟩, o.size_⟩)) := by
  simp [Clear.loop, World.obj, World.load, World.delete_Node, World.store_next, World.set_obj,
    ho, hn, ht, bind, Except.bind]

theorem Clear_loop_done {α : Type} {w : World α} {l : Nat}
    {o : SingleLinkedList α} (ho : w.objs[l]? = some o) (hn : o.head_.next_node = .null)
    (fuel : Nat) : Clear.loop l (fuel + 1) w = .ok w := by
  simp [Clear.loop, World.obj, ho, hn, bind, Except.bind, pure, Except.pure]

theorem Clear_loop_spec {α : Type} (l : Nat) (cells : List (Nat × α)) :
    ∀ (w : World α) (o : SingleLinkedList α) (fuel : Nat), w.objs[l]? = some o →
      Seg w.heap o.head_.next_node cells .null → cells.length < fuel →
      ∃ w2, Clear.loop l fuel w = .ok w2 ∧ w2.limit = w.limit ∧
        w2.heap.length = w.heap.length ∧ w2.objs.length = w.objs.length ∧
        w2.objs[l]? = some ⟨⟨o.head_.value, .null⟩, o.size_⟩ ∧
        (∀ l2, l2 ≠ l → w2.objs[l2]? = w.objs[l2]?) ∧
        (∀ a, (∀ c ∈ cells, c.1 ≠ a) → w2.heap[a]? = w.heap[a]?) ∧
        (∀ c ∈ cells, w2.heap[c.1]? = some none) := by
  induction cells with
  | nil =>
    intro w o fuel ho hs hf
    have hnull : o.head_.next_node = .null := hs
    obtain ⟨fuel, rfl⟩ : ∃ f, fuel = f + 1 := ⟨fuel - 1, by simp at hf; omega⟩
    refine ⟨w, Clear_loop_done ho hnull fuel, rfl, rfl, rfl, ?_, fun _ _ => rfl, fun _ _ => rfl,
      fun c hc => by cases hc⟩
    rw [ho, ← hnull]
  | cons t rest ih =>
    intro w o fuel ho hs hf
    obtain ⟨fuel, rfl⟩ : ∃ f, fuel = f + 1 := ⟨fuel - 1, by simp at hf; omega⟩
    have hnd := Seg_nodup hs
    obtain ⟨r, hp, hr, hrest⟩ := Seg_erase_head hs
    have hthis := getElem?_lt ho
    have htl := getElem?_lt hr
    rw [Clear_loop_step ho hp hr fuel]
    obtain ⟨w2, he, h1, h2, h3, h4, h5, h6, h7⟩ :=
      ih (World.mk (w.heap.set t.1 none) w.limit (w.objs.set l ⟨⟨o.head_.value, r⟩, o.size_⟩))
        ⟨⟨o.head_.value, r⟩, o.size_⟩ fuel (by simp [List.getElem?_set_self hthis]) hrest
        (by simpa using hf)
    refine ⟨w2, he, h1, by simpa using h2, by simpa using h3, h4, ?_, ?_, ?_⟩
    · intro l2 hl2
      rw [h5 l2 hl2]
      simp [List.getElem?_set_ne (Ne.symm hl2)]
    · intro a ha
      rw [h6 a (fun c hc => ha c (List.mem_cons_of_mem _ hc))]
      have : t.1 ≠ a := ha t (List.mem_cons_self _ _)
      simp [List.getElem?_set_ne this]
    · intro c hc
      rcases List.mem_cons.1 hc with rfl | hc
      · rw [List.map_cons, List.nodup_cons] at hnd
        have hne : ∀ c2 ∈ rest, c2.1 ≠ c.1 := by
          intro c2 hc2 heq
          exact hnd.1 (by rw [← heq]; exact List.mem_map_of_mem Prod.fst hc2)
        rw [h6 c.1 hne]
        simp [List.getElem?_set_self htl]
      · exact h7 c hc

theorem Clear_spec {α : Type} {w : World α} {l : Nat} {cells : List (Nat × α)}
    (hown : Owns w l cells) :
    ∃ w2, Clear w l = .ok w2 ∧ Owns w2 l [] ∧ Frame w w2 l cells ∧
      w2.heap.length = w.heap.length ∧ (∀ c ∈ cells, w2.heap[c.1]? = some none) := by
  obtain ⟨o, ho, hs, _, _⟩ := hown
  obtain ⟨w1, he, h1, h2, h3, h4, h5, h6, h7⟩ :=
    Clear_loop_spec l cells w o (w.heap.length + 1) ho hs (by have := Seg_length_le hs; omega)
  have hl1 : l < w1.objs.length := getElem?_lt h4
  refine ⟨World.mk w1.heap w1.limit (w1.objs.set l ⟨⟨o.head_.value, .null⟩, 0⟩), ?_,
    ⟨⟨⟨o.head_.value, .null⟩, 0⟩, ?_, rfl, rfl, by simp⟩, ⟨h1, ?_, ?_, ?_, ?_⟩, h2, h7⟩
  · simp [Clear, he, World.obj, World.set_obj, h4, bind, Except.bind, pure, Except.pure]
  · simp [List.getElem?_set_self hl1]
  · simpa using h3
  · simp [h2]
  · intro l2 hl2
    simp [List.getElem?_set_ne (Ne.symm hl2), h5 l2 hl2]
  · intro a _ hne
    exact h6 a hne

/-! ## swap -/

theorem swap_eq {α : Type} {w : World α} {a b : Nat} {oa ob : SingleLinkedList α}
    (ha : w.objs[a]? = some oa) (hb : w.objs[b]? = some ob) :
    swap w a b =
      .ok (World.mk w.heap w.limit
        ((w.objs.set a ⟨⟨oa.head_.value, ob.head_.next_node⟩, ob.size_⟩).set b
          ⟨⟨ob.head_.value, oa.head_.next_node⟩, oa.size_⟩)) := by
  have hla : a < w.objs.length := getElem?_lt ha
  have hlb : b < w.objs.length := getElem?_lt hb
  by_cases hab : a = b
  · subst hab
    rw [ha] at hb
    injection hb with hb
    subst hb
    simp [swap, World.obj, World.set_obj, ha, hla, bind, Except.bind, pure, Except.pure]
  · simp [swap, World.obj, World.set_obj, ha, hb, hla, hlb, hab, Ne.symm hab,
      List.getElem?_set_ne, bind, Except.bind, pure, Except.pure]
    apply List.ext_getElem?
    intro i
    simp only [List.getElem?_set, List.length_set]
    split_ifs <;> simp_all

theorem swap_spec {α : Type} {w : World α} {a b : Nat} {csa csb : List (Nat × α)}
    (hoa : Owns w a csa) (hob : Owns w b csb) :
    ∃ w2, swap w a b = .ok w2 ∧ Owns w2 a csb ∧ Owns w2 b csa ∧ w2.heap = w.heap ∧
      w2.limit = w.limit ∧ w2.objs.length = w.objs.length ∧
      (∀ l, l ≠ a → l ≠ b → w2.objs[l]? = w.objs[l]?) := by
  obtain ⟨oa, ha, hsa, hza, hma⟩ := hoa
  obtain ⟨ob, hb, hsb, hzb, hmb⟩ := hob
  have hla : a < w.objs.length := getElem?_lt ha
  have hlb : b < w.objs.length := getElem?_lt hb
  refine ⟨_, swap_eq ha hb, ?_, ?_, rfl, rfl, by simp, ?_⟩
  · by_cases hab : a = b
    · subst hab
      rw [ha] at hb
      injection hb with hb
      subst hb
      exact ⟨⟨⟨oa.head_.value, oa.head_.next_node⟩, oa.size_⟩,
        by simp [List.getElem?_set_self hla], hsb, hzb, hmb⟩
    · exact ⟨⟨⟨oa.head_.value, ob.head_.next_node⟩, ob.size_⟩,
        by simp [List.getElem?_set_ne (Ne.symm hab), List.getElem?_set_self hla], hsb, hzb, hmb⟩
  · exact ⟨⟨⟨ob.head_.value, oa.head_.next_node⟩, oa.size_⟩,
      List.getElem?_set_self (by simpa using hlb), hsa, hza, hma⟩
  · intro l h1 h2
    simp [List.getElem?_set_ne (Ne.symm h1), List.getElem?_set_ne (Ne.symm h2)]

/-! ## InitFromRange -/

theorem Frame_trans {α : Type} {w w1 w2 : World α} {this : Nat} {cells cells1 : List (Nat × α)}
    (h1 : Frame w w1 this cells) (h2 : Frame w1 w2 this cells1)
    (hsub : ∀ c ∈ cells1, (∃ c0 ∈ cells, c0.1 = c.1) ∨ w.heap.length ≤ c.1) :
    Frame w w2 this cells := by
  obtain ⟨a1, a2, a3, a4, a5⟩ := h1
  obtain ⟨b1, b2, b3, b4, b5⟩ := h2
  refine ⟨by rw [b1, a1], by rw [b2, a2], by omega, ?_, ?_⟩
  · intro l hl
    rw [b4 l hl, a4 l hl]
  · intro a ha hne
    rw [b5 a (by omega) ?_, a5 a ha hne]
    intro c hc heq
    rcases hsub c hc with ⟨c0, hc0, h0⟩ | hge
    · exact hne c0 hc0 (by rw [h0, heq])
    · omega

theorem InitFromRange_loop_step {α σ : Type} (I : InputIt α σ) (last : σ) {w : World α}
    {temp : Nat} {cells : List (Nat × α)} (fuel : Nat) (first first1 : σ) (v : α)
    (hown : Owns w temp cells) (hne : I.ne first last = true)
    (hread : I.read_incr w first = .ok (v, first1)) :
    (∀ w3, InsertAfter w temp (pos_at temp cells cells.length) v =
        .ok (w3, ⟨.cell w.heap.length⟩) →
      InitFromRange.loop I last temp (fuel + 1) w (pos_at temp cells cells.length).node_ first =
        InitFromRange.loop I last temp fuel w3 (.cell w.heap.length) first1) ∧
    (¬ w.heap.length < w.limit →
      InitFromRange.loop I last temp (fuel + 1) w (pos_at temp cells cells.length).node_ first =
        .error (.bad_alloc w)) := by
  obtain ⟨n, hn, hnext, hnn, _⟩ := load_pos_at hown cells.length (Nat.le_refl _)
  rw [pos_at_end temp cells cells.length (Nat.le_refl _)] at hnext
  have hnull : n.next_node = .null := hnext
  obtain ⟨o, ho, hs, _, _⟩ := hown
  have hthis := getElem?_lt ho
  constructor
  · intro w3 hins
    by_cases hlim : w.heap.length < w.limit
    · cases hlen : cells.length with
      | zero =>
        rw [hlen] at hins hn
        have h0 : pos_at temp cells 0 = ⟨.head temp⟩ := rfl
        rw [h0] at hins hn ⊢
        rw [InsertAfter_head_eq v ho hlim] at hins
        injection hins with hins
        injection hins with hw3 _
        subst hw3
        rw [load_head ho] at hn
        injection hn with hn
        subst hn
        simp [InitFromRange.loop, hne, hread, World.new_Node, hlim, World.store_next,
          World.load, World.incr_size, World.obj, World.set_obj, ho, hthis, hnull, bind,
          Except.bind, pure, Except.pure]
      | succ j =>
        have hj : j < cells.length := by omega
        rw [hlen] at hins hn
        rw [pos_at_succ temp cells j hj] at hins hn ⊢
        obtain ⟨r, hr, _⟩ := Seg_at hs j hj
        have hc := getElem?_lt hr
        rw [load_cell hr] at hn
        injection hn with hn
        subst hn
        have hrn : r = .null := hnull
        subst hrn
        rw [InsertAfter_cell_eq v hr ho hlim] at hins
        injection hins with hins
        injection hins with hw3 _
        subst hw3
        simp [InitFromRange.loop, hne, hread, World.new_Node, hlim, World.store_next,
          World.load, World.incr_size, World.obj, World.set_obj, ho, hr, hc,
          List.getElem?_append_left, bind, Except.bind, pure, Except.pure]
    · have := InsertAfter_bad_alloc cells.length v ⟨o, ho, hs, ‹_›, ‹_›⟩ (Nat.le_refl _) hlim
      rw [this] at hins
      cases hins
  · intro hlim
    simp [InitFromRange.loop, hne, hread, World.new_Node, hlim, bind, Except.bind]

theorem Frame_refl {α : Type} (w : World α) (this : Nat) (cells : List (Nat × α)) :
    Frame w w this cells :=
  ⟨rfl, rfl, Nat.le_refl _, fun _ _ => rfl, fun _ _ _ => rfl⟩

/-- The loop of `InitFromRange` over a range that yields the values `vs`,
appending to the list `temp`: it ends with all of `vs` appended, or with
`std::bad_alloc` after a part of `vs` has been appended and the allocator is
exhausted.  `R w first vs` says that reading from `first` up to `last` in the
world `w` yields `vs`; it may depend only on the nodes below `base`. -/
theorem InitFromRange_loop_spec {α σ : Type} (I : InputIt α σ) (last : σ) (temp base : Nat)
    (R : World α → σ → List α → Prop)
    (hnil : ∀ w first, R w first [] → I.ne first last = false)
    (hcons : ∀ w first v vs, R w first (v :: vs) →
      I.ne first last = true ∧ ∃ first1, I.read_incr w first = .ok (v, first1) ∧ R w first1 vs)
    (hstable : ∀ w w2 first vs, R w first vs →
      (∀ a, a < base → w2.heap[a]? = w.heap[a]?) → R w2 first vs)
    (vs : List α) :
    ∀ (w : World α) (cells : List (Nat × α)) (first : σ) (fuel : Nat),
      R w first vs → Owns w temp cells → Bounded w → base ≤ w.heap.length →
      (∀ c ∈ cells, base ≤ c.1) → min vs.length (w.limit - w.heap.length) < fuel →
      ∃ w2 news, Owns w2 temp (cells ++ news) ∧ Bounded w2 ∧ Frame w w2 temp cells ∧
        w2.heap.length = w.heap.length + news.length ∧
        (∀ c ∈ news, w.heap.length ≤ c.1) ∧
        ((InitFromRange.loop I last temp fuel w (pos_at temp cells cells.length).node_ first =
              .ok w2 ∧ news.map Prod.snd = vs) ∨
          (InitFromRange.loop I last temp fuel w (pos_at temp cells cells.length).node_ first =
              .error (.bad_alloc w2) ∧ news.length < vs.length ∧
            w2.heap.length = w2.limit)) := by
  induction vs with
  | nil =>
    intro w cells first fuel hR hown hb _ _ hf
    obtain ⟨f, rfl⟩ : ∃ f, fuel = f + 1 := ⟨fuel - 1, by simp at hf; omega⟩
    refine ⟨w, [], by simpa using hown, hb, Frame_refl w temp cells, by simp, by simp,
      Or.inl ⟨?_, rfl⟩⟩
    simp [InitFromRange.loop, hnil w first hR, pure, Except.pure]
  | cons v vs ih =>
    intro w cells first fuel hR hown hb hbase hcells hf
    obtain ⟨hne, first1, hread, hR1⟩ := hcons w first v vs hR
    obtain ⟨f, rfl⟩ : ∃ f, fuel = f + 1 := ⟨fuel - 1, by omega⟩
    have hstep := InitFromRange_loop_step I last f first first1 v hown hne hread
    by_cases hlim : w.heap.length < w.limit
    · obtain ⟨w3, hins, hown3, hf3, hlen3⟩ :=
        InsertAfter_spec cells.length v hown hb hlim (Nat.le_refl _)
      rw [List.take_length, List.drop_length] at hown3
      have hb3 : Bounded w3 := Bounded_of_Frame hb hf3 (by omega)
      have hR3 : R w3 first1 vs :=
        hstable w w3 first1 vs hR1 (fun a ha => hf3.2.2.2.2 a (by omega)
          (fun c hc => by have := hcells c hc; omega))
      have hl3 : w3.limit = w.limit := hf3.1
      have hcells3 : ∀ c ∈ cells ++ [(w.heap.length, v)], base ≤ c.1 := by
        intro c hc
        rcases List.mem_append.1 hc with h | h
        · exact hcells c h
        · simp at h
          rw [h]
          exact hbase
      obtain ⟨w2, news, hown2, hb2, hf2, hlen2, hfresh2, hres⟩ :=
        ih w3 (cells ++ [(w.heap.length, v)]) first1 f hR3 hown3 hb3 (by omega) hcells3
          (by rw [hl3, hlen3]; simp at hf; omega)
      have hpos : pos_at temp (cells ++ [(w.heap.length, v)])
          (cells ++ [(w.heap.length, v)]).length = ⟨.cell w.heap.length⟩ := by
        have h1 : (cells ++ [(w.heap.length, v)]).length = cells.length + 1 := by simp
        have h2 : (cells ++ [(w.heap.length, v)])[cells.length]? = some (w.heap.length, v) := by
          simp
        rw [h1]
        simp [pos_at, h2]
      rw [hpos] at hres
      refine ⟨w2, (w.heap.length, v) :: news, by simpa using hown2, hb2, ?_, ?_, ?_, ?_⟩
      · refine Frame_trans hf3 hf2 ?_
        intro c hc
        rcases List.mem_append.1 hc with h | h
        · exact Or.inl ⟨c, h, rfl⟩
        · simp at h
          right
          rw [h]
      · rw [hlen2, hlen3]
        simp
        omega
      · intro c hc
        rcases List.mem_cons.1 hc with h | h
        · rw [h]
        · have := hfresh2 c h
          omega
      · rw [hstep.1 w3 hins]
        rcases hres with ⟨h1, h2⟩ | ⟨h1, h2, h3⟩
        · exact Or.inl ⟨h1, by simp [h2]⟩
        · exact Or.inr ⟨h1, by simp; omega, h3⟩
    · refine ⟨w, [], by simpa using hown, hb, Frame_refl w temp cells, by simp, by simp,
        Or.inr ⟨hstep.2 hlim, by simp, ?_⟩⟩
      have := hb.1
      omega

theorem destroy_top_spec {α : Type} {w : World α} {n : Nat} {cells : List (Nat × α)}
    (hn : w.objs.length = n + 1) (hown : Owns w n cells) :
    ∃ w2, destroy_top w = .ok w2 ∧ w2.limit = w.limit ∧ w2.heap.length = w.heap.length ∧
      w2.objs.length = n ∧ (∀ l, l < n → w2.objs[l]? = w.objs[l]?) ∧
      (∀ a, (∀ c ∈ cells, c.1 ≠ a) → w2.heap[a]? = w.heap[a]?) ∧
      (∀ c ∈ cells, w2.heap[c.1]? = some none) := by
  obtain ⟨w1, he, _, ⟨h1, h2, _, h4, h5⟩, h6, h7⟩ := Clear_spec hown
  refine ⟨{ w1 with objs := w1.objs.dropLast }, ?_, h1, h6, ?_, ?_, ?_, h7⟩
  · simp [destroy_top, hn, he, bind, Except.bind, pure, Except.pure]
  · simp [h2, hn]
  · intro l hl
    simp only [List.getElem?_dropLast, h2, hn]
    rw [if_pos (by omega), h4 l (by omega)]
  · intro a hne
    by_cases ha : a < w.heap.length
    · exact h5 a ha hne
    · have h8 : ({ w1 with objs := w1.objs.dropLast } : World α).heap.length = w.heap.length := h6
      rw [List.getElem?_eq_none (by omega), List.getElem?_eq_none (by omega)]

theorem Owns_push {α : Type} [Inhabited α] {w : World α} {l : Nat} {cells : List (Nat × α)}
    (h : Owns w l cells) : Owns (construct_default w).1 l cells := by
  refine Owns_frame h ?_ (fun _ _ => rfl)
  obtain ⟨o, ho, _⟩ := h
  simp [construct_default, List.getElem?_append_left (getElem?_lt ho)]

theorem Owns_push_new {α : Type} [Inhabited α] (w : World α) :
    Owns (construct_default w).1 w.objs.length [] :=
  ⟨⟨⟨default, .null⟩, 0⟩, by simp [construct_default], rfl, rfl, by simp⟩

/-- `InitFromRange` over a range that yields the values `vs`, called on a list
`this` with nodes `cells`: it returns with `this` holding fresh nodes with the
values `vs`, the old nodes deleted and nothing else changed; or it throws
`std::bad_alloc` with every list object and every old node unchanged. -/
theorem InitFromRange_spec {α σ : Type} [Inhabited α] (I : InputIt α σ) (last : σ)
    (R : World α → σ → List α → Prop) (w : World α) (this : Nat) (cells : List (Nat × α))
    (hnil : ∀ w first, R w first [] → I.ne first last = false)
    (hcons : ∀ w first v vs, R w first (v :: vs) →
      I.ne first last = true ∧ ∃ first1, I.read_incr w first = .ok (v, first1) ∧ R w first1 vs)
    (hstable : ∀ w1 w2 first vs, R w1 first vs →
      (∀ a, a < w.heap.length → w2.heap[a]? = w1.heap[a]?) → R w2 first vs)
    (first : σ) (vs : List α) (hR : R w first vs) (hown : Owns w this cells) (hb : Bounded w) :
    (∃ w2 news, InitFromRange I w this first last = .ok w2 ∧ Owns w2 this news ∧
      news.map Prod.snd = vs ∧ Bounded w2 ∧ Frame w w2 this cells ∧
      (∀ c ∈ news, w.heap.length ≤ c.1) ∧ (∀ c ∈ cells, w2.heap[c.1]? = some none)) ∨
    (∃ w2, InitFromRange I w this first last = .error (.bad_alloc w2) ∧ w2.objs = w.objs ∧
      w2.limit = w.limit ∧ w.heap.length ≤ w2.heap.length ∧ w2.heap.length = w2.limit ∧
      (∀ a, a < w.heap.length → w2.heap[a]? = w.heap[a]?) ∧
      w.limit < w.heap.length + vs.length) := by
  have hthis : this < w.objs.length := by
    obtain ⟨o, ho, _⟩ := hown
    exact getElem?_lt ho
  have hcl : ∀ c ∈ cells, c.1 < w.heap.length := by
    obtain ⟨o, _, hs, _⟩ := hown
    exact Seg_lt hs
  have hR0 : R (construct_default w).1 first vs := hstable w _ first vs hR (fun _ _ => rfl)
  have hb0 : Bounded (construct_default w).1 := hb
  obtain ⟨w1, news, hown1, hb1, hf1, hlen1, hfresh1, hres⟩ :=
    InitFromRange_loop_spec I last w.objs.length w.heap.length R hnil hcons hstable vs
      (construct_default w).1 [] first (w.limit - w.heap.length + 1) hR0 (Owns_push_new w) hb0
      (Nat.le_refl _) (fun c hc => by cases hc)
      (by show min vs.length (w.limit - w.heap.length) < _; omega)
  rw [List.nil_append] at hown1
  obtain ⟨g1, g2, g3, g4, g5⟩ := hf1
  have hlen0 : (construct_default w).1.objs.length = w.objs.length + 1 := by
    simp [construct_default]
  have hheap0 : (construct_default w).1.heap = w.heap := rfl
  rw [hheap0] at hlen1 g5 hfresh1
  have hobj1 : ∀ l, l < w.objs.length → w1.objs[l]? = w.objs[l]? := by
    intro l hl
    rw [g4 l (by omega)]
    simp [construct_default, List.getElem?_append_left hl]
  have hheap1 : ∀ a, a < w.heap.length → w1.heap[a]? = w.heap[a]? := by
    intro a ha
    exact g5 a ha (fun c hc => by cases hc)
  have hthis1 : Owns w1 this cells :=
    Owns_frame hown (hobj1 this hthis) (fun c hc => hheap1 c.1 (hcl c hc))
  have hpos0 : (pos_at w.objs.length ([] : List (Nat × α)) ([] : List (Nat × α)).length).node_ =
      .head w.objs.length := rfl
  rw [hpos0] at hres
  rcases hres with ⟨hloop, hmap⟩ | ⟨hloop, hlt, hfull⟩
  · left
    obtain ⟨w2, hswap, hs1, hs2, hs3, hs4, hs5, hs6⟩ := swap_spec hthis1 hown1
    obtain ⟨w3, hd, d1, d2, d3, d4, d5, d6⟩ :=
      destroy_top_spec (n := w.objs.length) (by rw [hs5, g2, hlen0]) hs2
    have hne : ∀ c ∈ news, ∀ c0 ∈ cells, c0.1 ≠ c.1 := by
      intro c hc c0 hc0
      have := hfresh1 c hc
      have := hcl c0 hc0
      omega
    refine ⟨w3, news, ?_, ?_, hmap, ?_, ⟨?_, ?_, ?_, ?_, ?_⟩, hfresh1, d6⟩
    · simp only [InitFromRange, construct_default] at hloop ⊢
      rw [hloop]
      simp [hswap, hd, bind, Except.bind]
    · exact Owns_frame hs1 (d4 this hthis) (fun c hc => d5 c.1 (hne c hc))
    · refine ⟨?_, ?_⟩
      · rw [d1, hs4, d2, hs3]
        exact hb1.1
      · rw [d1, hs4]
        exact hb1.2
    · rw [d1, hs4, g1]
      rfl
    · exact d3
    · rw [d2, hs3, hlen1]
      omega
    · intro l hl
      by_cases hlt : l < w.objs.length
      · rw [d4 l hlt, hs6 l hl (by omega), hobj1 l hlt]
      · rw [List.getElem?_eq_none (by omega), List.getElem?_eq_none (by omega)]
    · intro a ha hne2
      rw [d5 a hne2, hs3, hheap1 a ha]
  · right
    obtain ⟨w3, hd, d1, d2, d3, d4, d5, d6⟩ :=
      destroy_top_spec (n := w.objs.length) (by rw [g2, hlen0]) hown1
    refine ⟨w3, ?_, ?_, ?_, ?_, ?_, ?_, ?_⟩
    · simp only [InitFromRange, construct_default] at hloop ⊢
      rw [hloop]
      simp [unwind_top, hd]
    · apply List.ext_getElem?
      intro l
      by_cases hlt : l < w.objs.length
      · rw [d4 l hlt, hobj1 l hlt]
      · rw [List.getElem?_eq_none (by omega), List.getElem?_eq_none (by omega)]
    · rw [d1, g1]
      rfl
    · rw [d2, hlen1]
      omega
    · rw [d2, d1]
      exact hfull
    · intro a ha
      rw [d5 a (fun c hc => by have := hfresh1 c hc; omega), hheap1 a ha]
    · have h1 : w1.limit = w.limit := g1
      have h2 : news.length < vs.length := hlt
      omega

/-! ## Constructors -/

theorem World_ext {α : Type} {w w2 : World α} (h1 : w2.heap = w.heap) (h2 : w2.limit = w.limit)
    (h3 : w2.objs = w.objs) : w2 = w := by
  cases w
  cases w2
  simp only at h1 h2 h3
  subst h1 h2 h3
  rfl

/-- Destroying a list object on top of the stack that owns no node only
releases the storage of the object. -/
theorem destroy_top_empty {α : Type} (w1 : World α) (objs : List (SingleLinkedList α))
    (v : α) (h : w1.objs = objs ++ [⟨⟨v, .null⟩, 0⟩]) :
    destroy_top w1 = .ok { w1 with objs := objs } := by
  have hlen : w1.objs.length = objs.length + 1 := by rw [h]; simp
  have hown : Owns w1 objs.length [] :=
    ⟨⟨⟨v, .null⟩, 0⟩, by rw [h]; simp, rfl, rfl, by simp⟩
  obtain ⟨w2, hd, d1, _, d3, d4, d5, _⟩ := destroy_top_spec hlen hown
  rw [hd]
  congr 1
  apply World_ext
  · apply List.ext_getElem?
    intro a
    exact d5 a (fun c hc => by cases hc)
  · exact d1
  · apply List.ext_getElem?
    intro l
    by_cases hl : l < objs.length
    · rw [d4 l hl, h, List.getElem?_append_left hl]
    · rw [List.getElem?_eq_none (by omega), List.getElem?_eq_none (by simp only []; omega)]

/-- The constructor from a sequence of values: it returns with a new list
object that holds fresh nodes with these values, every other list object and
every old node unchanged; or it throws `std::bad_alloc` with every list object
and every old node unchanged. -/
theorem construct_values_spec {α : Type} [Inhabited α] (w : World α) (values : List α)
    (hb : Bounded w) :
    (∃ w2 news, construct_values w values = .ok (w2, w.objs.length) ∧
      Owns w2 w.objs.length news ∧ news.map Prod.snd = values ∧ Bounded w2 ∧
      Frame (construct_default w).1 w2 w.objs.length [] ∧
      (∀ c ∈ news, w.heap.length ≤ c.1)) ∨
    (∃ w2, construct_values w values = .error (.bad_alloc w2) ∧ w2.objs = w.objs ∧
      w2.limit = w.limit ∧ w.heap.length ≤ w2.heap.length ∧ w2.heap.length = w2.limit ∧
      (∀ a, a < w.heap.length → w2.heap[a]? = w.heap[a]?) ∧
      w.limit < w.heap.length + values.length) := by
  have hspec := InitFromRange_spec (InputIt.of_values values) values.length
    (fun _ i vs => i + vs.length = values.length ∧ vs = values.drop i)
    (construct_default w).1 w.objs.length []
    (by
      intro _ i h
      simp only [List.length_nil, Nat.add_zero] at h
      simp [InputIt.of_values, h.1])
    (by
      intro _ i v vs h
      obtain ⟨h1, h2⟩ := h
      have hi : i < values.length := by simp at h1; omega
      rw [List.drop_eq_getElem_cons hi] at h2
      injection h2 with h3 h4
      refine ⟨by simp [InputIt.of_values]; omega, i + 1, ?_, by simp at h1; omega, h4⟩
      simp [InputIt.of_values, List.getElem?_eq_getElem hi, h3])
    (fun _ _ _ _ h _ => h) 0 values ⟨by simp, by simp⟩ (Owns_push_new w) hb
  rcases hspec with ⟨w2, news, he, hown2, hmap, hb2, hf, hfresh, _⟩ | ⟨w2, he, h1, h2, h3, h4, h5, h6⟩
  · left
    refine ⟨w2, news, ?_, hown2, hmap, hb2, hf, hfresh⟩
    simp only [construct_values, construct_default] at he ⊢
    rw [he]
  · right
    have hd := destroy_top_empty w2 w.objs default h1
    refine ⟨{ w2 with objs := w.objs }, ?_, rfl, h2, h3, h4, h5, h6⟩
    simp only [construct_values, construct_default] at he ⊢
    rw [he]
    simp [unwind_top, hd]

/-- The copy constructor: it returns with a new list object that holds fresh
nodes with the values of `other`, every other list object and every old node
unchanged; or it throws `std::bad_alloc` with every list object and every old
node unchanged. -/
theorem construct_copy_spec {α : Type} [Inhabited α] {w : World α} {other : Nat}
    {cs : List (Nat × α)} (hother : Owns w other cs) (hb : Bounded w) :
    (∃ w2 news, construct_copy w other = .ok (w2, w.objs.length) ∧
      Owns w2 w.objs.length news ∧ news.map Prod.snd = cs.map Prod.snd ∧ Bounded w2 ∧
      Frame (construct_default w).1 w2 w.objs.length [] ∧
      (∀ c ∈ news, w.heap.length ≤ c.1)) ∨
    (∃ w2, construct_copy w other = .error (.bad_alloc w2) ∧ w2.objs = w.objs ∧
      w2.limit = w.limit ∧ w.heap.length ≤ w2.heap.length ∧ w2.heap.length = w2.limit ∧
      (∀ a, a < w.heap.length → w2.heap[a]? = w.heap[a]?) ∧
      w.limit < w.heap.length + cs.length) := by
  obtain ⟨o, ho, hs, _, _⟩ := Owns_push (w := w) hother
  have hlt := Seg_lt hs
  have hspec := InitFromRange_spec (InputIt.of_list (α := α)) cend
    (fun w1 it vs => ∃ cs1 : List (Nat × α), Seg w1.heap it.node_ cs1 .null ∧
      vs = cs1.map Prod.snd ∧ ∀ c ∈ cs1, c.1 < w.heap.length)
    (construct_default w).1 w.objs.length []
    (by
      rintro w1 it ⟨cs1, h1, h2, _⟩
      have hnil : cs1 = [] := by
        cases cs1 with
        | nil => rfl
        | cons c cs1 => simp at h2
      subst hnil
      have hp : it.node_ = .null := h1
      simp [InputIt.of_list, BasicIterator.ne, BasicIterator.eq, cend, hp])
    (by
      rintro w1 it v vs ⟨cs1, h1, h2, h3⟩
      cases cs1 with
      | nil => simp at h2
      | cons c cs1 =>
        obtain ⟨hp, r, hr, hrest⟩ := h1
        simp only [List.map_cons] at h2
        injection h2 with h4 h5
        have hit : it = ⟨.cell c.1⟩ := by
          cases it
          simp only at hp
          rw [hp]
        subst hit
        have hl := load_cell (w := w1) hr
        have hne : Ptr.cell c.1 ≠ .null := by simp
        refine ⟨by simp [InputIt.of_list, BasicIterator.ne, BasicIterator.eq, cend], ⟨r⟩, ?_,
          cs1, hrest, h5, fun c1 hc1 => h3 c1 (List.mem_cons_of_mem _ hc1)⟩
        simp [InputIt.of_list, BasicIterator.post_incr, incr_of_load hne hl,
          deref_of_load hne hl, h4, bind, Except.bind, pure, Except.pure])
    (by
      rintro w1 w2 it vs ⟨cs1, h1, h2, h3⟩ hag
      exact ⟨cs1, Seg_congr (fun c hc => hag c.1 (h3 c hc)) h1, h2, h3⟩)
    ⟨o.head_.next_node⟩ (cs.map Prod.snd) ⟨cs, hs, rfl, hlt⟩ (Owns_push_new w) hb
  have hcb : cbegin (construct_default w).1 other = .ok ⟨o.head_.next_node⟩ := by
    simp [cbegin, obj_some ho, bind, Except.bind, pure, Except.pure]
  rcases hspec with ⟨w2, news, he, hown2, hmap, hb2, hf, hfresh, _⟩ | ⟨w2, he, h1, h2, h3, h4, h5, h6⟩
  · left
    refine ⟨w2, news, ?_, hown2, hmap, hb2, hf, hfresh⟩
    simp only [construct_copy, hcb, bind, Except.bind]
    simp only [construct_default] at he ⊢
    rw [he]
  · right
    have hd := destroy_top_empty w2 w.objs default h1
    refine ⟨{ w2 with objs := w.objs }, ?_, rfl, h2, h3, h4, h5, by simpa using h6⟩
    simp only [construct_copy, hcb, bind, Except.bind]
    simp only [construct_default] at he ⊢
    rw [he]
    simp [unwind_top, hd]

/-! ## Copy assignment -/

/-- The tail of copy assignment and of `InitFromRange`: swap the list `this`
with the list on top of the object stack, then destroy the latter. -/
theorem swap_destroy_spec {α : Type} {w1 : World α} {this n : Nat}
    {cells news : List (Nat × α)} (hn : w1.objs.length = n + 1) (hthis : this < n)
    (hown : Owns w1 this cells) (htop : Owns w1 n news)
    (hdis : ∀ c ∈ news, ∀ c0 ∈ cells, c0.1 ≠ c.1) :
    ∃ w3, (swap w1 this n >>= destroy_top) = .ok w3 ∧ Owns w3 this news ∧
      w3.limit = w1.limit ∧ w3.heap.length = w1.heap.length ∧ w3.objs.length = n ∧
      (∀ l, l < n → l ≠ this → w3.objs[l]? = w1.objs[l]?) ∧
      (∀ a, (∀ c ∈ cells, c.1 ≠ a) → w3.heap[a]? = w1.heap[a]?) ∧
      (∀ c ∈ cells, w3.heap[c.1]? = some none) := by
  obtain ⟨w2, hswap, hs1, hs2, hs3, hs4, hs5, hs6⟩ := swap_spec hown htop
  obtain ⟨w3, hd, d1, d2, d3, d4, d5, d6⟩ :=
    destroy_top_spec (n := n) (by rw [hs5, hn]) hs2
  refine ⟨w3, ?_, ?_, by rw [d1, hs4], by rw [d2, hs3], d3, ?_, ?_, d6⟩
  · simp [hswap, hd, bind, Except.bind]
  · exact Owns_frame hs1 (d4 this hthis) (fun c hc => d5 c.1 (hdis c hc))
  · intro l hl hne
    rw [d4 l hl, hs6 l hne (by omega)]
  · intro a ha
    rw [d5 a ha, hs3]

/-- Copy assignment `this = rhs`: it returns with `this` holding nodes with the
values of `rhs` (fresh ones, unless it is a self-assignment) and nothing else
changed; or it throws `std::bad_alloc` with every list object and every old
node unchanged. -/
theorem assign_spec {α : Type} [Inhabited α] {w : World α} {this rhs : Nat}
    {cells cs : List (Nat × α)} (hown : Owns w this cells) (hrhs : Owns w rhs cs)
    (hb : Bounded w) :
    (∃ w2 news, assign w this rhs = .ok w2 ∧ Owns w2 this news ∧
      news.map Prod.snd = cs.map Prod.snd ∧ Bounded w2 ∧ Frame w w2 this cells ∧
      (∀ c ∈ news, (∃ c0 ∈ cells, c0.1 = c.1) ∨ w.heap.length ≤ c.1)) ∨
    (∃ w2, assign w this rhs = .error (.bad_alloc w2) ∧ w2.objs = w.objs ∧
      w2.limit = w.limit ∧ w.heap.length ≤ w2.heap.length ∧ w2.heap.length = w2.limit ∧
      (∀ a, a < w.heap.length → w2.heap[a]? = w.heap[a]?) ∧
      w.limit < w.heap.length + cs.length) := by
  by_cases hsame : this = rhs
  · subst hsame
    have := Owns_unique hown hrhs
    subst this
    left
    refine ⟨w, cells, by simp [assign, pure, Except.pure], hown, rfl, hb, Frame_refl w _ cells,
      fun c hc => Or.inl ⟨c, hc, rfl⟩⟩
  · have hthis : this < w.objs.length := by
      obtain ⟨o, ho, _⟩ := hown
      exact getElem?_lt ho
    have hcl : ∀ c ∈ cells, c.1 < w.heap.length := by
      obtain ⟨o, _, hs, _⟩ := hown
      exact Seg_lt hs
    rcases construct_copy_spec hrhs hb with
      ⟨w1, news, he, hown1, hmap, hb1, ⟨g1, g2, g3, g4, g5⟩, hfresh⟩ | ⟨w2, he, h1, h2, h3, h4, h5, h6⟩
    · left
      have hlen0 : (construct_default w).1.objs.length = w.objs.length + 1 := by
        simp [construct_default]
      have hheap0 : (construct_default w).1.heap = w.heap := rfl
      rw [hheap0] at g3 g5
      have hobj1 : ∀ l, l < w.objs.length → w1.objs[l]? = w.objs[l]? := by
        intro l hl
        rw [g4 l (by omega)]
        simp [construct_default, List.getElem?_append_left hl]
      have hheap1 : ∀ a, a < w.heap.length → w1.heap[a]? = w.heap[a]? := by
        intro a ha
        exact g5 a ha (fun c hc => by cases hc)
      have hthis1 : Owns w1 this cells :=
        Owns_frame hown (hobj1 this hthis) (fun c hc => hheap1 c.1 (hcl c hc))
      have hdis : ∀ c ∈ news, ∀ c0 ∈ cells, c0.1 ≠ c.1 := by
        intro c hc c0 hc0
        have := hfresh c hc
        have := hcl c0 hc0
        omega
      obtain ⟨w3, hsd, hown3, e1, e2, e3, e4, e5, _⟩ :=
        swap_destroy_spec (n := w.objs.length) (by rw [g2, hlen0]) hthis hthis1 hown1 hdis
      refine ⟨w3, news, ?_, hown3, hmap, ?_, ⟨?_, e3, ?_, ?_, ?_⟩,
        fun c hc => Or.inr (hfresh c hc)⟩
      · simp only [assign, if_pos hsame, he]
        exact hsd
      · refine ⟨?_, ?_⟩
        · rw [e1, e2]
          exact hb1.1
        · rw [e1]
          exact hb1.2
      · rw [e1, g1]
        rfl
      · rw [e2]
        exact g3
      · intro l hl
        by_cases hlt : l < w.objs.length
        · rw [e4 l hlt hl, hobj1 l hlt]
        · rw [List.getElem?_eq_none (by omega), List.getElem?_eq_none (by omega)]
      · intro a ha hne
        rw [e5 a hne, hheap1 a ha]
    · right
      refine ⟨w2, ?_, h1, h2, h3, h4, h5, h6⟩
      simp only [assign, if_pos hsame, he]

/-! ## The invariant of a world is preserved -/

theorem Owns_lt {α : Type} {w : World α} {l : Nat} {cs : List (Nat × α)} (h : Owns w l cs) :
    ∀ c ∈ cs, c.1 < w.heap.length := by
  obtain ⟨o, _, hs, _⟩ := h
  exact Seg_lt hs

theorem Owns_range {α : Type} {w : World α} {l : Nat} {cs : List (Nat × α)} (h : Owns w l cs) :
    l < w.objs.length := by
  obtain ⟨o, ho, _⟩ := h
  exact getElem?_lt ho

/-- A call that changes only the list `this`, whose new nodes are old nodes of
`this` or fresh ones, preserves the invariant of the world. -/
theorem Inv_step {α : Type} {w w2 : World α} {this : Nat} {cells cells2 : List (Nat × α)}
    (hinv : Inv w) (hown : Owns w this cells) (hown2 : Owns w2 this cells2)
    (hf : Frame w w2 this cells)
    (hfresh : ∀ c ∈ cells2, (∃ c0 ∈ cells, c0.1 = c.1) ∨ w.heap.length ≤ c.1)
    (hb2 : Bounded w2) : Inv w2 := by
  obtain ⟨_, hall, hdis⟩ := hinv
  obtain ⟨_, f2, _, f4, f5⟩ := hf
  have keep : ∀ l cs, l ≠ this → Owns w l cs → Owns w2 l cs := by
    intro l cs hl ho
    refine Owns_frame ho (f4 l hl) (fun c hc => f5 c.1 (Owns_lt ho c hc) ?_)
    intro c0 hc0
    exact hdis this l cells cs (Ne.symm hl) hown ho c0 hc0 c hc
  have back : ∀ l cs, l ≠ this → Owns w2 l cs → Owns w l cs := by
    intro l cs hl ho
    have hlt : l < w.objs.length := by
      rw [← f2]
      exact Owns_range ho
    obtain ⟨cs0, h0⟩ := hall l hlt
    rw [Owns_unique ho (keep l cs0 hl h0)]
    exact h0
  have hmix : ∀ l2 cs2, l2 ≠ this → Owns w2 l2 cs2 →
      ∀ c1 ∈ cells2, ∀ c2 ∈ cs2, c1.1 ≠ c2.1 := by
    intro l2 cs2 hl2 h2 c1 hc1 c2 hc2
    have ho2 := back l2 cs2 hl2 h2
    rcases hfresh c1 hc1 with ⟨c0, hc0, h0⟩ | hge
    · rw [← h0]
      exact hdis this l2 cells cs2 (Ne.symm hl2) hown ho2 c0 hc0 c2 hc2
    · have := Owns_lt ho2 c2 hc2
      omega
  refine ⟨hb2, ?_, ?_⟩
  · intro l hl
    by_cases hlt : l = this
    · subst hlt
      exact ⟨cells2, hown2⟩
    · obtain ⟨cs, hcs⟩ := hall l (by rw [← f2]; exact hl)
      exact ⟨cs, keep l cs hlt hcs⟩
  · intro l1 l2 cs1 cs2 hne h1 h2 c1 hc1 c2 hc2
    by_cases h1t : l1 = this
    · subst h1t
      rw [Owns_unique h1 hown2] at hc1
      exact hmix l2 cs2 (Ne.symm hne) h2 c1 hc1 c2 hc2
    · by_cases h2t : l2 = this
      · subst h2t
        rw [Owns_unique h2 hown2] at hc2
        exact Ne.symm (hmix l1 cs1 h1t h1 c2 hc2 c1 hc1)
      · exact hdis l1 l2 cs1 cs2 hne (back l1 cs1 h1t h1) (back l2 cs2 h2t h2) c1 hc1 c2 hc2

/-- A world that has the same list objects and the same old nodes satisfies the
invariant as well. -/
theorem Inv_of_agree {α : Type} {w w2 : World α} (hinv : Inv w) (hobjs : w2.objs = w.objs)
    (hlim : w2.limit = w.limit) (hlen : w2.heap.length ≤ w2.limit)
    (hheap : ∀ a, a < w.heap.length → w2.heap[a]? = w.heap[a]?) : Inv w2 := by
  obtain ⟨hb, hall, hdis⟩ := hinv
  have keep : ∀ l cs, Owns w l cs → Owns w2 l cs := by
    intro l cs ho
    exact Owns_frame ho (by rw [hobjs]) (fun c hc => hheap c.1 (Owns_lt ho c hc))
  have back : ∀ l cs, Owns w2 l cs → Owns w l cs := by
    intro l cs ho
    have hlt : l < w.objs.length := by
      rw [← hobjs]
      exact Owns_range ho
    obtain ⟨cs0, h0⟩ := hall l hlt
    rw [Owns_unique ho (keep l cs0 h0)]
    exact h0
  refine ⟨⟨hlen, by rw [hlim]; exact hb.2⟩, ?_, ?_⟩
  · intro l hl
    obtain ⟨cs, hcs⟩ := hall l (by rw [← hobjs]; exact hl)
    exact ⟨cs, keep l cs hcs⟩
  · intro l1 l2 cs1 cs2 hne h1 h2
    exact hdis l1 l2 cs1 cs2 hne (back l1 cs1 h1) (back l2 cs2 h2)

/-- The default constructor preserves the invariant of the world. -/
theorem Inv_push {α : Type} [Inhabited α] {w : World α} (hinv : Inv w) :
    Inv (construct_default w).1 := by
  obtain ⟨hb, hall, hdis⟩ := hinv
  have hlen : (construct_default w).1.objs.length = w.objs.length + 1 := by
    simp [construct_default]
  have back : ∀ l cs, l < w.objs.length → Owns (construct_default w).1 l cs → Owns w l cs := by
    intro l cs hl ho
    obtain ⟨cs0, h0⟩ := hall l hl
    rw [Owns_unique ho (Owns_push h0)]
    exact h0
  have hnew : ∀ l cs, ¬ l < w.objs.length → Owns (construct_default w).1 l cs → cs = [] := by
    intro l cs hl ho
    have h1 := Owns_range ho
    have : l = w.objs.length := by omega
    subst this
    exact Owns_unique ho (Owns_push_new w)
  refine ⟨hb, ?_, ?_⟩
  · intro l hl
    by_cases hlt : l < w.objs.length
    · obtain ⟨cs, hcs⟩ := hall l hlt
      exact ⟨cs, Owns_push hcs⟩
    · have : l = w.objs.length := by omega
      subst this
      exact ⟨[], Owns_push_new w⟩
  · intro l1 l2 cs1 cs2 hne h1 h2 c1 hc1 c2 hc2
    by_cases hl1 : l1 < w.objs.length
    · by_cases hl2 : l2 < w.objs.length
      · exact hdis l1 l2 cs1 cs2 hne (back l1 cs1 hl1 h1) (back l2 cs2 hl2 h2) c1 hc1 c2 hc2
      · rw [hnew l2 cs2 hl2 h2] at hc2
        cases hc2
    · rw [hnew l1 cs1 hl1 h1] at hc1
      cases hc1

/-- The member `swap` preserves the invariant of the world. -/
theorem Inv_swap {α : Type} {w w2 : World α} {a b : Nat} (hinv : Inv w)
    (h : swap w a b = .ok w2) : Inv w2 := by
  obtain ⟨hb, hall, hdis⟩ := hinv
  have hra : a < w.objs.length := by
    by_contra hge
    simp [swap, World.obj, List.getElem?_eq_none (show w.objs.length ≤ a by omega), bind,
      Except.bind] at h
  have hrb : b < w.objs.length := by
    by_contra hge
    obtain ⟨csa, _, hoa, _⟩ := hall a hra
    simp [swap, World.obj, hoa, List.getElem?_eq_none (show w.objs.length ≤ b by omega), bind,
      Except.bind] at h
  obtain ⟨csa, hoa⟩ := hall a hra
  obtain ⟨csb, hob⟩ := hall b hrb
  obtain ⟨w3, hs, s1, s2, s3, s4, s5, s6⟩ := swap_spec hoa hob
  rw [hs] at h
  injection h with h
  subst h
  have src : ∀ l cs, Owns w3 l cs → ∃ l0, Owns w l0 cs ∧ ((l0 = l ∧ l ≠ a ∧ l ≠ b) ∨
      (l0 = a ∧ l = b) ∨ (l0 = b ∧ l = a)) := by
    intro l cs ho
    by_cases hla : l = a
    · subst hla
      rw [Owns_unique ho s1]
      exact ⟨b, hob, Or.inr (Or.inr ⟨rfl, rfl⟩)⟩
    · by_cases hlb : l = b
      · subst hlb
        rw [Owns_unique ho s2]
        exact ⟨a, hoa, Or.inr (Or.inl ⟨rfl, rfl⟩)⟩
      · have hlt : l < w.objs.length := by
          rw [← s5]
          exact Owns_range ho
        obtain ⟨cs0, h0⟩ := hall l hlt
        have h3 : Owns w3 l cs0 := Owns_frame h0 (s6 l hla hlb) (fun _ _ => by rw [s3])
        rw [Owns_unique ho h3]
        exact ⟨l, h0, Or.inl ⟨rfl, hla, hlb⟩⟩
  refine ⟨⟨by rw [s3, s4]; exact hb.1, by rw [s4]; exact hb.2⟩, ?_, ?_⟩
  · intro l hl
    by_cases hla : l = a
    · subst hla
      exact ⟨csb, s1⟩
    · by_cases hlb : l = b
      · subst hlb
        exact ⟨csa, s2⟩
      · obtain ⟨cs0, h0⟩ := hall l (by rw [← s5]; exact hl)
        exact ⟨cs0, Owns_frame h0 (s6 l hla hlb) (fun _ _ => by rw [s3])⟩
  · intro l1 l2 cs1 cs2 hne h1 h2
    obtain ⟨m1, hm1, hc1⟩ := src l1 cs1 h1
    obtain ⟨m2, hm2, hc2⟩ := src l2 cs2 h2
    refine hdis m1 m2 cs1 cs2 ?_ hm1 hm2
    rcases hc1 with h | h | h <;> rcases hc2 with g | g | g <;> omega

theorem exec_InsertAfter_none {α : Type} [Inhabited α] {w : World α} {this : Nat} (k : Nat)
    (v : α) (hnone : w.objs[this]? = none) :
    exec w (.InsertAfter this k v) = .error .invalid_access := by
  cases k with
  | zero =>
    simp [exec, advance, InsertAfter, before_begin, assert, World.load, hnone, bind,
      Except.bind, pure, Except.pure]
  | succ k =>
    simp [exec, advance, BasicIterator.incr, before_begin, assert, World.load, hnone, bind,
      Except.bind]

theorem exec_EraseAfter_none {α : Type} [Inhabited α] {w : World α} {this : Nat} (k : Nat)
    (hnone : w.objs[this]? = none) :
    exec w (.EraseAfter this k) = .error .invalid_access := by
  cases k with
  | zero =>
    simp [exec, advance, EraseAfter, before_begin, assert, World.load, hnone, bind,
      Except.bind, pure, Except.pure]
  | succ k =>
    simp [exec, advance, BasicIterator.incr, before_begin, assert, World.load, hnone, bind,
      Except.bind]

theorem exec_PopFront_none {α : Type} [Inhabited α] {w : World α} {this : Nat}
    (hnone : w.objs[this]? = none) :
    exec w (.PopFront this) = .error .invalid_access := by
  simp [exec, PopFront, IsEmpty, World.obj, hnone, bind, Except.bind]

theorem exec_Clear_none {α : Type} [Inhabited α] {w : World α} {this : Nat}
    (hnone : w.objs[this]? = none) :
    exec w (.Clear this) = .error .invalid_access := by
  simp [exec, Clear, Clear.loop, World.obj, hnone, bind, Except.bind]

theorem swap_none {α : Type} {w : World α} {a b : Nat}
    (hnone : w.objs[a]? = none ∨ w.objs[b]? = none) :
    swap w a b = .error .invalid_access := by
  cases ha : w.objs[a]? with
  | none => simp [swap, World.obj, ha, bind, Except.bind]
  | some oa =>
    rcases hnone with h | h
    · rw [ha] at h
      cases h
    · simp [swap, World.obj, ha, h, bind, Except.bind]

/-- Every call that returns, and every call that throws `std::bad_alloc`,
leaves a world that satisfies the invariant. -/
theorem exec_Inv {α : Type} [Inhabited α] {w w1 : World α} (op : Op α) (hinv : Inv w)
    (h : exec w op = .ok w1 ∨ exec w op = .error (.bad_alloc w1)) : Inv w1 := by
  have hb := hinv.1
  have hall := hinv.2.1
  have hobj : ∀ l, (w.objs[l]? = none) ∨ ∃ cs, Owns w l cs := by
    intro l
    by_cases hl : l < w.objs.length
    · exact Or.inr (hall l hl)
    · exact Or.inl (List.getElem?_eq_none (by omega))
  -- the four element operations, through `InsertAfter` and `EraseAfter`
  have hins : ∀ this k v, (exec w (.InsertAfter this k v) = .ok w1 ∨
      exec w (.InsertAfter this k v) = .error (.bad_alloc w1)) → Inv w1 := by
    intro this k v h
    rcases hobj this with hnone | ⟨cells, hown⟩
    · rw [exec_InsertAfter_none k v hnone] at h
      rcases h with h | h <;> cases h
    · rcases exec_InsertAfter k v hown hb with ⟨hk, hlim, w2, he, hown2, hf, hlen⟩ |
        ⟨_, _, he⟩ | ⟨_, he⟩
      · rw [he] at h
        rcases h with h | h
        · injection h with h
          subst h
          refine Inv_step hinv hown hown2 hf ?_ (Bounded_of_Frame hb hf (by omega))
          intro c hc
          rcases List.mem_append.1 hc with h | h
          · exact Or.inl ⟨c, List.mem_of_mem_take h, rfl⟩
          · rcases List.mem_cons.1 h with h | h
            · right
              rw [h]
            · exact Or.inl ⟨c, List.mem_of_mem_drop h, rfl⟩
        · cases h
      · rw [he] at h
        rcases h with h | h
        · cases h
        · injection h with h
          injection h with h
          subst h
          exact hinv
      · rw [he] at h
        rcases h with h | h <;> cases h
  have hers : ∀ this k, (exec w (.EraseAfter this k) = .ok w1 ∨
      exec w (.EraseAfter this k) = .error (.bad_alloc w1)) → Inv w1 := by
    intro this k h
    rcases hobj this with hnone | ⟨cells, hown⟩
    · rw [exec_EraseAfter_none k hnone] at h
      rcases h with h | h <;> cases h
    · rcases exec_EraseAfter k hown with ⟨hk, w2, he, hown2, hf, hlen⟩ | ⟨_, he⟩
      · rw [he] at h
        rcases h with h | h
        · injection h with h
          subst h
          refine Inv_step hinv hown hown2 hf ?_ (Bounded_of_Frame hb hf (by have := hb.1; omega))
          intro c hc
          exact Or.inl ⟨c, List.mem_of_mem_eraseIdx hc, rfl⟩
        · cases h
      · rw [he] at h
        rcases h with h | h <;> cases h
  cases op with
  | construct_default =>
    simp only [exec, pure, Except.pure] at h
    rcases h with h | h
    · injection h with h
      subst h
      exact Inv_push hinv
    · cases h
  | construct_values values =>
    rcases construct_values_spec w values hb with ⟨w2, news, he, hown2, _, hb2, hf, hfresh⟩ |
      ⟨w2, he, h1, h2, h3, h4, h5, _⟩
    · simp only [exec, he, bind, Except.bind, pure, Except.pure] at h
      rcases h with h | h
      · injection h with h
        subst h
        exact Inv_step (Inv_push hinv) (Owns_push_new w) hown2 hf
          (fun c hc => Or.inr (hfresh c hc)) hb2
      · cases h
    · simp only [exec, he, bind, Except.bind] at h
      rcases h with h | h
      · cases h
      · injection h with h
        injection h with h
        subst h
        exact Inv_of_agree hinv h1 h2 (by omega) h5
  | construct_copy other =>
    rcases hobj other with hnone | ⟨cs, hother⟩
    · simp only [exec, World.obj, hnone, bind, Except.bind] at h
      rcases h with h | h <;> cases h
    · obtain ⟨o, ho, _⟩ := hother
      rcases construct_copy_spec ⟨o, ho, ‹_›⟩ hb with ⟨w2, news, he, hown2, _, hb2, hf, hfresh⟩ |
        ⟨w2, he, h1, h2, h3, h4, h5, _⟩
      · simp only [exec, obj_some ho, he, bind, Except.bind, pure, Except.pure] at h
        rcases h with h | h
        · injection h with h
          subst h
          exact Inv_step (Inv_push hinv) (Owns_push_new w) hown2 hf
            (fun c hc => Or.inr (hfresh c hc)) hb2
        · cases h
      · simp only [exec, obj_some ho, he, bind, Except.bind] at h
        rcases h with h | h
        · cases h
        · injection h with h
          injection h with h
          subst h
          exact Inv_of_agree hinv h1 h2 (by omega) h5
  | assign this rhs =>
    rcases hobj this with hnone | ⟨cells, hown⟩
    · simp only [exec, World.obj, hnone, bind, Except.bind] at h
      rcases h with h | h <;> cases h
    · rcases hobj rhs with hnone | ⟨cs, hrhs⟩
      · obtain ⟨o, ho, _⟩ := hown
        simp only [exec, World.obj, ho, hnone, bind, Except.bind] at h
        rcases h with h | h <;> cases h
      · obtain ⟨o, ho, hrest⟩ := hown
        obtain ⟨o2, ho2, hrest2⟩ := hrhs
        rcases assign_spec ⟨o, ho, hrest⟩ ⟨o2, ho2, hrest2⟩ hb with
          ⟨w2, news, he, hown2, _, hb2, hf, hfresh⟩ | ⟨w2, he, h1, h2, h3, h4, h5, _⟩
        · simp only [exec, obj_some ho, obj_some ho2, he, bind, Except.bind] at h
          rcases h with h | h
          · injection h with h
            subst h
            exact Inv_step hinv ⟨o, ho, hrest⟩ hown2 hf hfresh hb2
          · cases h
        · simp only [exec, obj_some ho, obj_some ho2, he, bind, Except.bind] at h
          rcases h with h | h
          · cases h
          · injection h with h
            injection h with h
            subst h
            exact Inv_of_agree hinv h1 h2 (by omega) h5
  | swap this other =>
    simp only [exec] at h
    rcases h with h | h
    · exact Inv_swap hinv h
    · rcases hobj this with hnone | ⟨csa, hoa⟩
      · rw [swap_none (Or.inl hnone)] at h
        cases h
      · rcases hobj other with hnone | ⟨csb, hob⟩
        · rw [swap_none (Or.inr hnone)] at h
          cases h
        · obtain ⟨w3, hs, _⟩ := swap_spec hoa hob
          rw [hs] at h
          cases h
  | PushFront this v =>
    rw [exec_PushFront] at h
    exact hins this 0 v h
  | PopFront this =>
    rcases hobj this with hnone | ⟨cells, hown⟩
    · rw [exec_PopFront_none hnone] at h
      rcases h with h | h <;> cases h
    · rw [exec_PopFront hown] at h
      exact hers this 0 h
  | InsertAfter this k v => exact hins this k v h
  | EraseAfter this k => exact hers this k h
  | Clear this =>
    rcases hobj this with hnone | ⟨cells, hown⟩
    · rw [exec_Clear_none hnone] at h
      rcases h with h | h <;> cases h
    · obtain ⟨w2, he, hown2, hf, hlen, _⟩ := Clear_spec hown
      simp only [exec, he] at h
      rcases h with h | h
      · injection h with h
        subst h
        exact Inv_step hinv hown hown2 hf (fun c hc => by cases hc)
          (Bounded_of_Frame hb hf (by have := hb.1; omega))
      · cases h

theorem Inv_of_Reachable {α : Type} [Inhabited α] {w : World α} (h : Reachable w) : Inv w := by
  induction h with
  | init limit hl =>
    refine ⟨⟨Nat.zero_le _, hl⟩, ?_, ?_⟩
    · intro l hlt
      simp at hlt
    · intro l1 l2 cs1 cs2 _ h1
      have := Owns_range h1
      simp at this
  | step op _ hex ih => exact exec_Inv op ih (Or.inl hex)
  | thrown op _ hex ih => exact exec_Inv op ih (Or.inr hex)

/-! ## The bounds of the loops are never reached -/

theorem countP_set_none {α : Type} (h : List (Option (Node α))) (a : Nat) (n : Node α)
    (ha : h[a]? = some (some n)) :
    (h.set a none).countP Option.isSome + 1 = h.countP Option.isSome := by
  induction h generalizing a with
  | nil => simp at ha
  | cons x h ih =>
    cases a with
    | zero =>
      simp at ha
      subst ha
      simp [List.countP_cons]
    | succ a =>
      simp at ha
      have := ih a ha
      simp only [List.set_cons_succ, List.countP_cons]
      omega

theorem countP_le_length {α : Type} (h : List (Option (Node α))) :
    h.countP Option.isSome ≤ h.length :=
  List.countP_le_length _

/-- The loop of `Clear` ends before its bound of iterations is reached, in
every world: each iteration that goes on has deleted a live node. -/
theorem Clear_loop_fuel {α : Type} (this : Nat) (fuel : Nat) :
    ∀ w : World α, w.heap.countP Option.isSome < fuel →
      Clear.loop this fuel w ≠ .error .out_of_fuel := by
  induction fuel with
  | zero =>
    intro w h
    omega
  | succ f ih =>
    intro w h
    cases ho : w.objs[this]? with
    | none => simp [Clear.loop, World.obj, ho, bind, Except.bind]
    | some o =>
      have hthis := getElem?_lt ho
      cases hn : o.head_.next_node with
      | null => simp [Clear.loop, World.obj, ho, hn, bind, Except.bind, pure, Except.pure]
      | head l =>
        cases hl : w.objs[l]? <;>
          simp [Clear.loop, World.obj, World.load, World.delete_Node, ho, hn, hl, bind,
            Except.bind]
      | cell a =>
        cases ha : w.heap[a]? with
        | none =>
          simp [Clear.loop, World.obj, World.load, World.delete_Node, ho, hn, ha, bind,
            Except.bind]
        | some x =>
          cases x with
          | none =>
            simp [Clear.loop, World.obj, World.load, World.delete_Node, ho, hn, ha, bind,
              Except.bind]
          | some n =>
            have hstep := Clear_loop_step ho hn ha f
            rw [hstep]
            apply ih
            have := countP_set_none w.heap a n ha
            show (w.heap.set a none).countP Option.isSome < f
            omega

/-- `Clear` never stops for lack of loop iterations. -/
theorem Clear_fuel {α : Type} (w : World α) (this : Nat) :
    Clear w this ≠ .error .out_of_fuel := by
  have h := Clear_loop_fuel this (w.heap.length + 1) w (by
    have := countP_le_length w.heap
    omega)
  cases hl : Clear.loop this (w.heap.length + 1) w with
  | error e =>
    rw [hl] at h
    simp only [Clear, hl, bind, Except.bind]
    exact h
  | ok w1 =>
    cases ho : w1.objs[this]? <;>
      simp [Clear, hl, World.obj, ho, bind, Except.bind, pure, Except.pure]

theorem load_fuel {α : Type} (w : World α) (p : Ptr) : w.load p ≠ .error .out_of_fuel := by
  cases p with
  | null => simp [World.load]
  | head l => cases h : w.objs[l]? <;> simp [World.load, h]
  | cell a =>
    cases h : w.heap[a]? with
    | none => simp [World.load, h]
    | some x => cases x <;> simp [World.load, h]

theorem store_next_fuel {α : Type} (w : World α) (p q : Ptr) :
    w.store_next p q ≠ .error .out_of_fuel ∧
      ∀ w2, w.store_next p q = .ok w2 → w2.heap.length = w.heap.length ∧ w2.limit = w.limit := by
  cases p with
  | null => simp [World.store_next]
  | head l =>
    cases h : w.objs[l]? with
    | none => simp [World.store_next, h]
    | some o =>
      simp only [World.store_next, h, World.set_obj]
      refine ⟨by simp, ?_⟩
      intro w2 h2
      injection h2 with h2
      subst h2
      exact ⟨rfl, rfl⟩
  | cell a =>
    cases h : w.heap[a]? with
    | none => simp [World.store_next, h]
    | some x =>
      cases x with
      | none => simp [World.store_next, h]
      | some n =>
        simp only [World.store_next, h]
        refine ⟨by simp, ?_⟩
        intro w2 h2
        injection h2 with h2
        subst h2
        exact ⟨by simp, rfl⟩

theorem incr_size_fuel {α : Type} (w : World α) (l : Nat) :
    w.incr_size l ≠ .error .out_of_fuel ∧
      ∀ w2, w.incr_size l = .ok w2 → w2.heap.length = w.heap.length ∧ w2.limit = w.limit := by
  cases h : w.objs[l]? with
  | none => simp [World.incr_size, World.obj, h, bind, Except.bind]
  | some o =>
    simp only [World.incr_size, World.obj, h, World.set_obj, bind, Except.bind, pure,
      Except.pure]
    refine ⟨by simp, ?_⟩
    intro w2 h2
    injection h2 with h2
    subst h2
    exact ⟨rfl, rfl⟩

/-- The loop of `InitFromRange` ends before its bound of iterations is reached,
in every world and for every range whose reads end: each iteration that goes on
has taken a node from the allocator. -/
theorem InitFromRange_loop_fuel {α σ : Type} (I : InputIt α σ) (last : σ) (temp : Nat)
    (hI : ∀ w first, I.read_incr w first ≠ .error .out_of_fuel) (fuel : Nat) :
    ∀ (w : World α) (hold : Ptr) (first : σ), w.limit - w.heap.length < fuel →
      InitFromRange.loop I last temp fuel w hold first ≠ .error .out_of_fuel := by
  induction fuel with
  | zero =>
    intro w hold first h
    omega
  | succ f ih =>
    intro w hold first h
    simp only [InitFromRange.loop]
    split
    · cases hr : I.read_incr w first with
      | error e =>
        have := hI w first
        rw [hr] at this
        simp only [bind, Except.bind]
        intro hc
        injection hc with hc
        subst hc
        exact this rfl
      | ok x =>
        obtain ⟨v, first1⟩ := x
        by_cases hlim : w.heap.length < w.limit
        · simp only [World.new_Node, if_pos hlim, bind, Except.bind]
          have hs := store_next_fuel
            (World.mk (w.heap ++ [some (Node.mk v .null)]) w.limit w.objs) hold
            (.cell w.heap.length)
          cases h2 : World.store_next
              (World.mk (w.heap ++ [some (Node.mk v .null)]) w.limit w.objs) hold
              (.cell w.heap.length) with
          | error e =>
            rw [h2] at hs
            exact hs.1
          | ok w2 =>
            obtain ⟨s1, s2⟩ := hs.2 w2 h2
            simp only
            cases h3 : w2.load hold with
            | error e =>
              have := load_fuel w2 hold
              rw [h3] at this
              intro hc
              injection hc with hc
              subst hc
              exact this rfl
            | ok n =>
              simp only
              have hi := incr_size_fuel w2 temp
              cases h4 : w2.incr_size temp with
              | error e =>
                rw [h4] at hi
                exact hi.1
              | ok w3 =>
                obtain ⟨i1, i2⟩ := hi.2 w3 h4
                simp only
                apply ih
                rw [i1, i2, s1, s2]
                simp
                omega
        · simp [World.new_Node, hlim, bind, Except.bind]
    · simp [pure, Except.pure]

/-! ## The world with five lists -/

theorem Reachable_run {α : Type} [Inhabited α] (ops : List (Op α)) {w w1 : World α}
    (h : Reachable w) (hrun : run w ops = .ok w1) : Reachable w1 := by
  induction ops generalizing w with
  | nil =>
    simp only [run, pure, Except.pure] at hrun
    injection hrun with hrun
    subst hrun
    exact h
  | cons op ops ih =>
    simp only [run, bind, Except.bind] at hrun
    cases hex : exec w op with
    | error e =>
      rw [hex] at hrun
      cases hrun
    | ok w2 =>
      rw [hex] at hrun
      exact ih (Reachable.step op h hex) hrun

theorem ex_lists_Reachable : Reachable ex_lists :=
  Reachable_run ex_lists_ops (Reachable.init 16 (by decide)) rfl

theorem ex_lists_Inv : Inv ex_lists :=
  Inv_of_Reachable ex_lists_Reachable

theorem ex_lists_Owns0 : Owns ex_lists 0 [(0, 1), (1, 2), (2, 3)] :=
  ⟨⟨⟨0, .cell 0⟩, 3⟩, rfl, ⟨rfl, _, rfl, rfl, _, rfl, rfl, _, rfl, rfl⟩, rfl, by decide⟩

theorem ex_lists_Owns1 : Owns ex_lists 1 [(3, 1), (4, 2), (5, 3)] :=
  ⟨⟨⟨0, .cell 3⟩, 3⟩, rfl, ⟨rfl, _, rfl, rfl, _, rfl, rfl, _, rfl, rfl⟩, rfl, by decide⟩

theorem ex_lists_Owns2 : Owns ex_lists 2 [(6, 1), (7, 2)] :=
  ⟨⟨⟨0, .cell 6⟩, 2⟩, rfl, ⟨rfl, _, rfl, rfl, _, rfl, rfl⟩, rfl, by decide⟩

theorem ex_lists_Owns3 : Owns ex_lists 3 [(8, 1), (9, 3)] :=
  ⟨⟨⟨0, .cell 8⟩, 2⟩, rfl, ⟨rfl, _, rfl, rfl, _, rfl, rfl⟩, rfl, by decide⟩

theorem ex_lists_Owns4 : Owns ex_lists 4 [(10, 1), (11, 2), (12, 9)] :=
  ⟨⟨⟨0, .cell 10⟩, 3⟩, rfl, ⟨rfl, _, rfl, rfl, _, rfl, rfl, _, rfl, rfl⟩, rfl, by decide⟩

/-! ## Clear on an empty list, failures of InsertAfter, insert then erase -/

theorem set_same {β : Type} {l : List β} {i : Nat} {x : β} (h : l[i]? = some x) :
    l.set i x = l := by
  apply List.ext_getElem?
  intro j
  by_cases hij : i = j
  · subst hij
    rw [List.getElem?_set_self (getElem?_lt h), h]
  · rw [List.getElem?_set_ne hij]

theorem Clear_empty {α : Type} {w : World α} {this : Nat} (hown : Owns w this []) :
    Clear w this = .ok w := by
  obtain ⟨o, ho, hnull, hsz⟩ := Owns_nil_head hown
  have hobj : w.objs.set this { o with size_ := 0 } = w.objs := by
    have : ({ o with size_ := 0 } : SingleLinkedList α) = o := by
      cases o
      simp only at hsz
      subst hsz
      rfl
    rw [this]
    exact set_same ho
  simp only [Clear, Clear_loop_done ho hnull, World.obj, ho, World.set_obj, hobj, bind,
    Except.bind, pure, Except.pure]

theorem load_not_bad_alloc {α : Type} (w w2 : World α) (p : Ptr) :
    w.load p ≠ .error (.bad_alloc w2) := by
  cases p with
  | null => simp [World.load]
  | head l => cases h : w.objs[l]? <;> simp [World.load, h]
  | cell a =>
    cases h : w.heap[a]? with
    | none => simp [World.load, h]
    | some x => cases x <;> simp [World.load, h]

theorem store_next_not_bad_alloc {α : Type} (w w2 : World α) (p q : Ptr) :
    w.store_next p q ≠ .error (.bad_alloc w2) := by
  cases p with
  | null => simp [World.store_next]
  | head l => cases h : w.objs[l]? <;> simp [World.store_next, h]
  | cell a =>
    cases h : w.heap[a]? with
    | none => simp [World.store_next, h]
    | some x => cases x <;> simp [World.store_next, h]

theorem incr_size_not_bad_alloc {α : Type} (w w2 : World α) (l : Nat) :
    w.incr_size l ≠ .error (.bad_alloc w2) := by
  cases h : w.objs[l]? <;>
    simp [World.incr_size, World.obj, h, bind, Except.bind, pure, Except.pure]

/-- When `InsertAfter` throws `std::bad_alloc`, the world in which the exception
leaves the call is the world in which the call was made. -/
theorem InsertAfter_throw_same {α : Type} (w w2 : World α) (this : Nat) (pos : ConstIterator)
    (v : α) (h : InsertAfter w this pos v = .error (.bad_alloc w2)) : w2 = w := by
  simp only [InsertAfter, bind, Except.bind] at h
  by_cases hp : pos.node_ = .null
  · simp [assert, hp] at h
  · simp only [assert, hp, ne_eq, not_false_eq_true, decide_True, if_true] at h
    cases hl : w.load pos.node_ with
    | error e =>
      rw [hl] at h
      simp only at h
      injection h with h
      subst h
      exact absurd hl (load_not_bad_alloc w w2 pos.node_)
    | ok n =>
      rw [hl] at h
      simp only at h
      by_cases hlim : w.heap.length < w.limit
      · simp only [World.new_Node, if_pos hlim] at h
        cases hs : World.store_next
            (World.mk (w.heap ++ [some (Node.mk v n.next_node)]) w.limit w.objs) pos.node_
            (.cell w.heap.length) with
        | error e =>
          rw [hs] at h
          simp only at h
          injection h with h
          subst h
          exact absurd hs (store_next_not_bad_alloc _ w2 _ _)
        | ok w3 =>
          rw [hs] at h
          simp only at h
          cases hi : w3.incr_size this with
          | error e =>
            rw [hi] at h
            simp only at h
            injection h with h
            subst h
            exact absurd hi (incr_size_not_bad_alloc _ w2 _)
          | ok w4 =>
            rw [hi] at h
            simp only at h
            cases hl2 : w4.load pos.node_ with
            | error e =>
              rw [hl2] at h
              simp only at h
              injection h with h
              subst h
              exact absurd hl2 (load_not_bad_alloc _ w2 _)
            | ok n2 =>
              rw [hl2] at h
              simp [pure, Except.pure] at h
      · simp only [World.new_Node, if_neg hlim] at h
        injection h with h
        injection h with h
        exact h.symm

theorem eraseIdx_insert {β : Type} (l : List β) (k : Nat) (x : β) (hk : k ≤ l.length) :
    (l.take k ++ x :: l.drop k).eraseIdx k = l := by
  have h1 : (l.take k).length = k := by simp; omega
  rw [List.eraseIdx_append_of_length_le (by omega), h1, Nat.sub_self]
  simp

theorem pos_at_insert_gt {α : Type} (l : Nat) (cells : List (Nat × α)) (x : Nat × α)
    (k i : Nat) (hi : k < i) (hk : k ≤ cells.length) :
    pos_at l (cells.take k ++ x :: cells.drop k) (i + 1) = pos_at l cells i := by
  have h1 : (cells.take k).length = k := by simp; omega
  cases i with
  | zero => omega
  | succ j =>
    have h2 : (cells.take k ++ x :: cells.drop k)[j + 1]? = cells[j]? := by
      rw [List.getElem?_append_right (by omega), h1]
      have : j + 1 - k = (j - k) + 1 := by omega
      rw [this, List.getElem?_cons_succ, List.getElem?_drop]
      congr 1
      omega
    simp [pos_at, h2]

/-- Swapping twice gives back the very same world. -/
theorem swap_swap {α : Type} {w : World α} {a b : Nat} {oa ob : SingleLinkedList α}
    (ha : w.objs[a]? = some oa) (hb : w.objs[b]? = some ob) :
    ∃ w1, swap w a b = .ok w1 ∧ swap w1 a b = .ok w := by
  have hla : a < w.objs.length := getElem?_lt ha
  have hlb : b < w.objs.length := getElem?_lt hb
  refine ⟨_, swap_eq ha hb, ?_⟩
  by_cases hab : a = b
  · subst hab
    rw [ha] at hb
    injection hb with hb
    subst hb
    have h1 : (World.mk w.heap w.limit
        ((w.objs.set a ⟨⟨oa.head_.value, oa.head_.next_node⟩, oa.size_⟩).set a
          ⟨⟨oa.head_.value, oa.head_.next_node⟩, oa.size_⟩)).objs[a]? = some oa := by
      simp [List.getElem?_set_self hla]
    rw [swap_eq h1 h1]
    congr 1
    refine World_ext ?_ ?_ ?_
    · rfl
    · rfl
    · simp only [List.set_set]
      exact set_same ha
  · have h1 : (World.mk w.heap w.limit
        ((w.objs.set a ⟨⟨oa.head_.value, ob.head_.next_node⟩, ob.size_⟩).set b
          ⟨⟨ob.head_.value, oa.head_.next_node⟩, oa.size_⟩)).objs[a]? =
        some ⟨⟨oa.head_.value, ob.head_.next_node⟩, ob.size_⟩ := by
      simp [List.getElem?_set_ne (Ne.symm hab), List.getElem?_set_self hla]
    have h2 : (World.mk w.heap w.limit
        ((w.objs.set a ⟨⟨oa.head_.value, ob.head_.next_node⟩, ob.size_⟩).set b
          ⟨⟨ob.head_.value, oa.head_.next_node⟩, oa.size_⟩)).objs[b]? =
        some ⟨⟨ob.head_.value, oa.head_.next_node⟩, oa.size_⟩ :=
      List.getElem?_set_self (by simpa using hlb)
    rw [swap_eq h1 h2]
    congr 1
    refine World_ext ?_ ?_ ?_
    · rfl
    · rfl
    · apply List.ext_getElem?
      intro i
      simp only [List.getElem?_set, List.length_set]
      split_ifs <;> simp_all

/-! ## Comparison of sequences: facts about the specification's definitions -/

theorem seq_equal_iff {α : Type} [BEq α] (xs ys : List α) :
    seq_equal xs ys = true ↔
      xs.length = ys.length ∧
        ∀ (i : Nat) (a b : α), xs[i]? = some a → ys[i]? = some b → (a == b) = true := by
  induction xs generalizing ys with
  | nil =>
    cases ys with
    | nil => simp [seq_equal]
    | cons b bs => simp [seq_equal]
  | cons a as ih =>
    cases ys with
    | nil => simp [seq_equal]
    | cons b bs =>
      simp only [seq_equal, Bool.and_eq_true, ih bs, List.length_cons]
      constructor
      · rintro ⟨hab, hlen, hrest⟩
        refine ⟨by omega, ?_⟩
        intro i x y hx hy
        cases i with
        | zero =>
          simp at hx hy
          subst hx hy
          exact hab
        | succ i =>
          simp at hx hy
          exact hrest i x y hx hy
      · rintro ⟨hlen, hall⟩
        refine ⟨hall 0 a b (by simp) (by simp), by omega, ?_⟩
        intro i x y hx hy
        exact hall (i + 1) x y (by simpa using hx) (by simpa using hy)

theorem seq_equal_refl {α : Type} [BEq α] (hrefl : ∀ a : α, (a == a) = true) (xs : List α) :
    seq_equal xs xs = true := by
  induction xs with
  | nil => rfl
  | cons a as ih => simp [seq_equal, hrefl a, ih]

theorem seq_less_iff {α : Type} (lt : α → α → Bool) (xs ys : List α) :
    seq_less lt xs ys = true ↔
      ∃ i, (∀ j, j < i → ∃ a b, xs[j]? = some a ∧ ys[j]? = some b ∧
              lt a b = false ∧ lt b a = false) ∧
        ((∃ a b, xs[i]? = some a ∧ ys[i]? = some b ∧ lt a b = true) ∨
          (xs.length = i ∧ i < ys.length)) := by
  induction xs generalizing ys with
  | nil =>
    cases ys with
    | nil =>
      simp only [seq_less]
      constructor
      · intro h
        cases h
      · rintro ⟨i, _, h | h⟩
        · obtain ⟨a, b, ha, _⟩ := h
          simp at ha
        · simp at h
    | cons b bs =>
      simp only [seq_less, true_iff]
      exact ⟨0, fun j hj => by omega, Or.inr ⟨rfl, by simp⟩⟩
  | cons a as ih =>
    cases ys with
    | nil =>
      simp only [seq_less]
      constructor
      · intro h
        cases h
      · rintro ⟨i, _, h | h⟩
        · obtain ⟨x, y, _, hy, _⟩ := h
          simp at hy
        · simp at h
    | cons b bs =>
      simp only [seq_less]
      by_cases hab : lt a b = true
      · simp only [hab, if_true, true_iff]
        exact ⟨0, fun j hj => by omega, Or.inl ⟨a, b, by simp, by simp, hab⟩⟩
      · have hab2 : lt a b = false := by simpa using hab
        by_cases hba : lt b a = true
        · simp only [hab2, hba, if_true]
          constructor
          · intro h
            cases h
          · rintro ⟨i, hpre, h⟩
            cases i with
            | zero =>
              rcases h with ⟨x, y, hx, hy, hlt⟩ | ⟨h1, _⟩
              · simp at hx hy
                subst hx hy
                rw [hab2] at hlt
                cases hlt
              · simp at h1
            | succ i =>
              obtain ⟨x, y, hx, hy, _, h2⟩ := hpre 0 (by omega)
              simp at hx hy
              subst hx hy
              rw [hba] at h2
              cases h2
        · have hba2 : lt b a = false := by simpa using hba
          simp only [hab2, hba2, if_false, Bool.false_eq_true, ih bs]
          constructor
          · rintro ⟨i, hpre, h⟩
            refine ⟨i + 1, ?_, ?_⟩
            · intro j hj
              cases j with
              | zero => exact ⟨a, b, by simp, by simp, hab2, hba2⟩
              | succ j =>
                obtain ⟨x, y, hx, hy, h1, h2⟩ := hpre j (by omega)
                exact ⟨x, y, by simpa using hx, by simpa using hy, h1, h2⟩
            · rcases h with ⟨x, y, hx, hy, hlt⟩ | ⟨h1, h2⟩
              · exact Or.inl ⟨x, y, by simpa using hx, by simpa using hy, hlt⟩
              · exact Or.inr ⟨by simp [h1], by simp; omega⟩
          · rintro ⟨i, hpre, h⟩
            cases i with
            | zero =>
              rcases h with ⟨x, y, hx, hy, hlt⟩ | ⟨h1, _⟩
              · simp at hx hy
                subst hx hy
                rw [hab2] at hlt
                cases hlt
              · simp at h1
            | succ i =>
              refine ⟨i, ?_, ?_⟩
              · intro j hj
                obtain ⟨x, y, hx, hy, h1, h2⟩ := hpre (j + 1) (by omega)
                exact ⟨x, y, by simpa using hx, by simpa using hy, h1, h2⟩
              · rcases h with ⟨x, y, hx, hy, hlt⟩ | ⟨h1, h2⟩
                · exact Or.inl ⟨x, y, by simpa using hx, by simpa using hy, hlt⟩
                · exact Or.inr ⟨by simp at h1; omega, by simp at h2; omega⟩

/-! ## The relational operators compute the specification's comparisons -/

theorem seq_equal_length {α : Type} [BEq α] {xs ys : List α} (h : seq_equal xs ys = true) :
    xs.length = ys.length :=
  ((seq_equal_iff xs ys).1 h).1

theorem std_equal_Seg {α : Type} [BEq α] (w : World α) (cs1 : List (Nat × α)) :
    ∀ (cs2 : List (Nat × α)) (p1 p2 : Ptr) (fuel : Nat), Seg w.heap p1 cs1 .null →
      Seg w.heap p2 cs2 .null → cs1.length = cs2.length → cs1.length < fuel →
      std_equal fuel w ⟨p1⟩ cend ⟨p2⟩ =
        .ok (seq_equal (cs1.map Prod.snd) (cs2.map Prod.snd)) := by
  induction cs1 with
  | nil =>
    intro cs2 p1 p2 fuel h1 h2 hlen hf
    have hp : p1 = .null := h1
    subst hp
    have hnil : cs2 = [] := List.length_eq_zero.1 hlen.symm
    subst hnil
    obtain ⟨f, rfl⟩ : ∃ f, fuel = f + 1 := ⟨fuel - 1, by simp at hf; omega⟩
    simp [std_equal, BasicIterator.ne, BasicIterator.eq, cend, seq_equal, pure, Except.pure]
  | cons c cs1 ih =>
    intro cs2 p1 p2 fuel h1 h2 hlen hf
    cases cs2 with
    | nil => simp at hlen
    | cons d cs2 =>
      obtain ⟨hp1, r1, hr1, hrest1⟩ := h1
      obtain ⟨hp2, r2, hr2, hrest2⟩ := h2
      subst hp1 hp2
      obtain ⟨f, rfl⟩ : ∃ f, fuel = f + 1 := ⟨fuel - 1, by omega⟩
      have hl1 := load_cell (w := w) hr1
      have hl2 := load_cell (w := w) hr2
      have hne1 : Ptr.cell c.1 ≠ .null := by simp
      have hne2 : Ptr.cell d.1 ≠ .null := by simp
      have hrec := ih cs2 r1 r2 f hrest1 hrest2 (by simpa using hlen) (by simpa using hf)
      simp only [cend] at hrec
      by_cases hcd : (c.2 == d.2) = true
      · simp [std_equal, BasicIterator.ne, BasicIterator.eq, cend, deref_of_load hne1 hl1,
          deref_of_load hne2 hl2, incr_of_load hne1 hl1, incr_of_load hne2 hl2, hcd, hrec,
          seq_equal, bind, Except.bind, pure, Except.pure]
      · simp [std_equal, BasicIterator.ne, BasicIterator.eq, cend, deref_of_load hne1 hl1,
          deref_of_load hne2 hl2, hcd, seq_equal, bind, Except.bind, pure, Except.pure]

theorem std_lexicographical_compare_Seg {α : Type} (lt : α → α → Bool) (w : World α)
    (cs1 : List (Nat × α)) :
    ∀ (cs2 : List (Nat × α)) (p1 p2 : Ptr) (fuel : Nat), Seg w.heap p1 cs1 .null →
      Seg w.heap p2 cs2 .null → cs1.length < fuel →
      std_lexicographical_compare lt fuel w ⟨p1⟩ cend ⟨p2⟩ cend =
        .ok (seq_less lt (cs1.map Prod.snd) (cs2.map Prod.snd)) := by
  induction cs1 with
  | nil =>
    intro cs2 p1 p2 fuel h1 h2 hf
    have hp : p1 = .null := h1
    subst hp
    obtain ⟨f, rfl⟩ : ∃ f, fuel = f + 1 := ⟨fuel - 1, by simp at hf; omega⟩
    cases cs2 with
    | nil =>
      have hp2 : p2 = .null := h2
      subst hp2
      simp [std_lexicographical_compare, BasicIterator.ne, BasicIterator.eq, cend, seq_less,
        pure, Except.pure]
    | cons d cs2 =>
      obtain ⟨hp2, _⟩ := h2
      subst hp2
      simp [std_lexicographical_compare, BasicIterator.ne, BasicIterator.eq, cend, seq_less,
        pure, Except.pure]
  | cons c cs1 ih =>
    intro cs2 p1 p2 fuel h1 h2 hf
    obtain ⟨hp1, r1, hr1, hrest1⟩ := h1
    subst hp1
    obtain ⟨f, rfl⟩ : ∃ f, fuel = f + 1 := ⟨fuel - 1, by omega⟩
    cases cs2 with
    | nil =>
      have hp2 : p2 = .null := h2
      subst hp2
      simp [std_lexicographical_compare, BasicIterator.ne, BasicIterator.eq, cend, seq_less,
        pure, Except.pure]
    | cons d cs2 =>
      obtain ⟨hp2, r2, hr2, hrest2⟩ := h2
      subst hp2
      have hl1 := load_cell (w := w) hr1
      have hl2 := load_cell (w := w) hr2
      have hne1 : Ptr.cell c.1 ≠ .null := by simp
      have hne2 : Ptr.cell d.1 ≠ .null := by simp
      have hrec := ih cs2 r1 r2 f hrest1 hrest2 (by simpa using hf)
      simp only [cend] at hrec
      by_cases hcd : lt c.2 d.2 = true
      · simp [std_lexicographical_compare, BasicIterator.ne, BasicIterator.eq, cend,
          deref_of_load hne1 hl1, deref_of_load hne2 hl2, hcd, seq_less, bind, Except.bind,
          pure, Except.pure]
      · by_cases hdc : lt d.2 c.2 = true
        · simp [std_lexicographical_compare, BasicIterator.ne, BasicIterator.eq, cend,
            deref_of_load hne1 hl1, deref_of_load hne2 hl2, hcd, hdc, seq_less, bind,
            Except.bind, pure, Except.pure]
        · simp [std_lexicographical_compare, BasicIterator.ne, BasicIterator.eq, cend,
            deref_of_load hne1 hl1, deref_of_load hne2 hl2, incr_of_load hne1 hl1,
            incr_of_load hne2 hl2, hcd, hdc, hrec, seq_less, bind, Except.bind, pure,
            Except.pure]

theorem cbegin_of_Owns {α : Type} {w : World α} {l : Nat} {cs : List (Nat × α)}
    (h : Owns w l cs) :
    ∃ p, cbegin w l = .ok ⟨p⟩ ∧ Seg w.heap p cs .null ∧ cs.length < w.heap.length + 1 := by
  obtain ⟨o, ho, hs, _, _⟩ := h
  refine ⟨o.head_.next_node, ?_, hs, by have := Seg_length_le hs; omega⟩
  simp [cbegin, obj_some ho, bind, Except.bind, pure, Except.pure]

/-- The free `operator<` returns the specification's lexicographic comparison
of the two sequences of values. -/
theorem operator_lt_spec {α : Type} (lt : α → α → Bool) {w : World α} {A B : Nat}
    {csA csB : List (Nat × α)} (hA : Owns w A csA) (hB : Owns w B csB) :
    operator_lt lt w A B = .ok (seq_less lt (csA.map Prod.snd) (csB.map Prod.snd)) := by
  obtain ⟨p1, hb1, hs1, hf1⟩ := cbegin_of_Owns hA
  obtain ⟨p2, hb2, hs2, _⟩ := cbegin_of_Owns hB
  have h := std_lexicographical_compare_Seg lt w csA csB p1 p2 (w.heap.length + 1) hs1 hs2 hf1
  simp only [operator_lt, hb1, hb2, bind, Except.bind]
  exact h

/-- The free `operator==` returns true for one and the same list object, and
otherwise the specification's equality of the two sequences of values. -/
theorem operator_eq_spec {α : Type} [BEq α] {w : World α} {A B : Nat}
    {csA csB : List (Nat × α)} (hA : Owns w A csA) (hB : Owns w B csB) :
    operator_eq w A B =
      .ok (decide (A = B) || seq_equal (csA.map Prod.snd) (csB.map Prod.snd)) := by
  by_cases hAB : A = B
  · simp [operator_eq, hAB, pure, Except.pure]
  · obtain ⟨p1, hb1, hs1, hf1⟩ := cbegin_of_Owns hA
    obtain ⟨p2, hb2, hs2, _⟩ := cbegin_of_Owns hB
    by_cases hlen : csA.length = csB.length
    · have h := std_equal_Seg w csA csB p1 p2 (w.heap.length + 1) hs1 hs2 hlen hf1
      simp only [operator_eq, if_neg hAB, GetSize_of_Owns hA, GetSize_of_Owns hB, hb1, hb2,
        bind, Except.bind, hlen, ne_eq, not_true_eq_false, if_false, decide_False,
        Bool.false_or, decide_eq_false hAB]
      exact h
    · have hne : seq_equal (csA.map Prod.snd) (csB.map Prod.snd) = false := by
        cases hse : seq_equal (csA.map Prod.snd) (csB.map Prod.snd) with
        | false => rfl
        | true =>
          have := seq_equal_length hse
          simp at this
          exact absurd this hlen
      simp [operator_eq, hAB, GetSize_of_Owns hA, GetSize_of_Owns hB, hlen, hne, bind,
        Except.bind, pure, Except.pure]

theorem seq_less_iff_linear {α : Type} (lt : α → α → Bool)
    (hlin : ∀ a b, (lt a b = false ∧ lt b a = false) ↔ a = b) (xs ys : List α) :
    seq_less lt xs ys = true ↔
      ∃ i, xs.take i = ys.take i ∧
        ((∃ a b, xs[i]? = some a ∧ ys[i]? = some b ∧ a ≠ b ∧ lt a b = true) ∨
          (xs.length = i ∧ i < ys.length)) := by
  rw [seq_less_iff]
  constructor
  · rintro ⟨i, hpre, h⟩
    refine ⟨i, ?_, ?_⟩
    · apply List.ext_getElem?
      intro j
      by_cases hj : j < i
      · obtain ⟨a, b, ha, hb, h1, h2⟩ := hpre j hj
        rw [List.getElem?_take_of_lt hj, List.getElem?_take_of_lt hj, ha, hb,
          (hlin a b).1 ⟨h1, h2⟩]
      · rw [List.getElem?_eq_none (by simp; omega), List.getElem?_eq_none (by simp; omega)]
    · rcases h with ⟨a, b, ha, hb, hlt⟩ | h
      · refine Or.inl ⟨a, b, ha, hb, ?_, hlt⟩
        intro hab
        have := ((hlin a b).2 hab).1
        rw [hlt] at this
        cases this
      · exact Or.inr h
  · rintro ⟨i, htake, h⟩
    have hi : i ≤ xs.length ∧ i ≤ ys.length := by
      rcases h with ⟨a, b, ha, hb, _⟩ | ⟨h1, h2⟩
      · exact ⟨Nat.le_of_lt (getElem?_lt ha), Nat.le_of_lt (getElem?_lt hb)⟩
      · omega
    refine ⟨i, ?_, ?_⟩
    · intro j hj
      have hx : j < xs.length := by omega
      have hy : j < ys.length := by omega
      have heq : xs[j]? = ys[j]? := by
        have := congrArg (fun l => l[j]?) htake
        simp only [List.getElem?_take_of_lt hj] at this
        exact this
      refine ⟨xs[j], ys[j], List.getElem?_eq_getElem hx, List.getElem?_eq_getElem hy, ?_⟩
      rw [List.getElem?_eq_getElem hx, List.getElem?_eq_getElem hy] at heq
      injection heq with heq
      exact (hlin _ _).2 heq
    · rcases h with ⟨a, b, ha, hb, _, hlt⟩ | h
      · exact Or.inl ⟨a, b, ha, hb, hlt⟩
      · exact Or.inr h

/-- Trichotomy of the specification's comparisons, for an element order that is
asymmetric and whose `==` holds exactly between elements neither of which is
less than the other. -/
theorem seq_trichotomy {α : Type} [BEq α] (lt : α → α → Bool)
    (hasym : ∀ a b, lt a b = true → lt b a = false)
    (hcons : ∀ a b : α, (a == b) = true ↔ (lt a b = false ∧ lt b a = false))
    (xs : List α) : ∀ ys : List α,
      (seq_less lt xs ys = true ∧ seq_equal xs ys = false ∧ seq_less lt ys xs = false) ∨
      (seq_less lt xs ys = false ∧ seq_equal xs ys = true ∧ seq_less lt ys xs = false) ∨
      (seq_less lt xs ys = false ∧ seq_equal xs ys = false ∧ seq_less lt ys xs = true) := by
  induction xs with
  | nil =>
    intro ys
    cases ys with
    | nil => simp [seq_less, seq_equal]
    | cons b bs => simp [seq_less, seq_equal]
  | cons a as ih =>
    intro ys
    cases ys with
    | nil => simp [seq_less, seq_equal]
    | cons b bs =>
      by_cases hab : lt a b = true
      · have hba : lt b a = false := hasym a b hab
        have heq : (a == b) = false := by
          cases h : (a == b) with
          | false => rfl
          | true =>
            have := ((hcons a b).1 h).1
            rw [hab] at this
            cases this
        simp [seq_less, seq_equal, hab, hba, heq]
      · have hab2 : lt a b = false := by simpa using hab
        by_cases hba : lt b a = true
        · have heq : (a == b) = false := by
            cases h : (a == b) with
            | false => rfl
            | true =>
              have := ((hcons a b).1 h).2
              rw [hba] at this
              cases this
          simp [seq_less, seq_equal, hab2, hba, heq]
        · have hba2 : lt b a = false := by simpa using hba
          have heq : (a == b) = true := (hcons a b).2 ⟨hab2, hba2⟩
          simp only [seq_less, seq_equal, hab2, hba2, heq, Bool.true_and, if_false,
            Bool.false_eq_true]
          exact ih bs

/-! ## Copies own their nodes alone -/

/-- A call on the list `this` leaves alone every other list whose nodes are
none of the nodes of `this`. -/
theorem Owns_of_Frame {α : Type} {w w2 : World α} {this l : Nat}
    {cells cs : List (Nat × α)} (ho : Owns w l cs) (hl : l ≠ this)
    (hdis : ∀ c ∈ cs, ∀ c0 ∈ cells, c0.1 ≠ c.1) (hf : Frame w w2 this cells) :
    Owns w2 l cs := by
  obtain ⟨_, _, _, f4, f5⟩ := hf
  exact Owns_frame ho (f4 l hl) (fun c hc => f5 c.1 (Owns_lt ho c hc) (hdis c hc))

/-- A mutation of the list `t`, whether it returns or throws `std::bad_alloc`,
changes nothing but the list `t` and nodes of its own. -/
theorem exec_mutation_frame {α : Type} [Inhabited α] {w w2 : World α} {t : Nat}
    {ct : List (Nat × α)} (op : Op α) (hown : Owns w t ct) (hb : Bounded w)
    (hop : op.mutation t = true)
    (hex : exec w op = .ok w2 ∨ exec w op = .error (.bad_alloc w2)) :
    Frame w w2 t ct := by
  have hins : ∀ k v, (exec w (.InsertAfter t k v) = .ok w2 ∨
      exec w (.InsertAfter t k v) = .error (.bad_alloc w2)) → Frame w w2 t ct := by
    intro k v h
    rcases exec_InsertAfter k v hown hb with ⟨_, _, w3, he, _, hf, _⟩ | ⟨_, _, he⟩ | ⟨_, he⟩
    · rw [he] at h
      rcases h with h | h
      · injection h with h
        subst h
        exact hf
      · cases h
    · rw [he] at h
      rcases h with h | h
      · cases h
      · injection h with h
        injection h with h
        subst h
        exact Frame_refl w t ct
    · rw [he] at h
      rcases h with h | h <;> cases h
  have hers : ∀ k, (exec w (.EraseAfter t k) = .ok w2 ∨
      exec w (.EraseAfter t k) = .error (.bad_alloc w2)) → Frame w w2 t ct := by
    intro k h
    rcases exec_EraseAfter k hown with ⟨_, w3, he, _, hf, _⟩ | ⟨_, he⟩
    · rw [he] at h
      rcases h with h | h
      · injection h with h
        subst h
        exact hf
      · cases h
    · rw [he] at h
      rcases h with h | h <;> cases h
  cases op with
  | PushFront l v =>
    have hl : l = t := by simpa [Op.mutation] using hop
    subst hl
    rw [exec_PushFront] at hex
    exact hins 0 v hex
  | PopFront l =>
    have hl : l = t := by simpa [Op.mutation] using hop
    subst hl
    rw [exec_PopFront hown] at hex
    exact hers 0 hex
  | InsertAfter l k v =>
    have hl : l = t := by simpa [Op.mutation] using hop
    subst hl
    exact hins k v hex
  | EraseAfter l k =>
    have hl : l = t := by simpa [Op.mutation] using hop
    subst hl
    exact hers k hex
  | Clear l =>
    have hl : l = t := by simpa [Op.mutation] using hop
    subst hl
    obtain ⟨w3, he, _, hf, _⟩ := Clear_spec hown
    simp only [exec, he] at hex
    rcases hex with h | h
    · injection h with h
      subst h
      exact hf
    · cases h
  | construct_default => simp [Op.mutation] at hop
  | construct_values _ => simp [Op.mutation] at hop
  | construct_copy _ => simp [Op.mutation] at hop
  | assign _ _ => simp [Op.mutation] at hop
  | swap _ _ => simp [Op.mutation] at hop

/-- A sequence of mutations of the list `t`, run until the end or until one of
them throws `std::bad_alloc`, leaves every other list with the nodes it had. -/
theorem run_mutations_frame {α : Type} [Inhabited α] (ops : List (Op α)) {w w2 : World α}
    {t o : Nat} {co : List (Nat × α)} (hinv : Inv w) (ht : t < w.objs.length)
    (ho : Owns w o co) (hto : o ≠ t) (hops : ∀ op ∈ ops, op.mutation t = true)
    (hrun : run w ops = .ok w2 ∨ run w ops = .error (.bad_alloc w2)) : Owns w2 o co := by
  induction ops generalizing w with
  | nil =>
    simp only [run, pure, Except.pure] at hrun
    rcases hrun with h | h
    · injection h with h
      subst h
      exact ho
    · cases h
  | cons op ops ih =>
    obtain ⟨ct, hct⟩ := hinv.2.1 t ht
    have hdis : ∀ c ∈ co, ∀ c0 ∈ ct, c0.1 ≠ c.1 :=
      fun c hc c0 hc0 => hinv.2.2 t o ct co (Ne.symm hto) hct ho c0 hc0 c hc
    have hm := hops op (List.mem_cons_self _ _)
    simp only [run, bind, Except.bind] at hrun
    cases hex : exec w op with
    | error e =>
      rw [hex] at hrun
      rcases hrun with h | h
      · cases h
      · injection h with h
        subst h
        exact Owns_of_Frame ho hto hdis (exec_mutation_frame op hct hinv.1 hm (Or.inr hex))
    | ok w1 =>
      rw [hex] at hrun
      have hf := exec_mutation_frame op hct hinv.1 hm (Or.inl hex)
      exact ih (exec_Inv op hinv (Or.inl hex)) (by rw [hf.2.1]; exact ht)
        (Owns_of_Frame ho hto hdis hf) (fun op2 h2 => hops op2 (List.mem_cons_of_mem _ h2)) hrun

/-- The copy constructor: it returns a new list with fresh nodes holding the
values of the source, which keeps its nodes, or it throws `std::bad_alloc`
because the allocator has fewer nodes left than the source has elements. -/
theorem copy_construct_post {α : Type} [Inhabited α] {w : World α} {A : Nat}
    {csA : List (Nat × α)} (hA : Owns w A csA) (hb : Bounded w) :
    (∃ w1 news, construct_copy w A = .ok (w1, w.objs.length) ∧ Owns w1 w.objs.length news ∧
      news.map Prod.snd = csA.map Prod.snd ∧ Owns w1 A csA ∧ Bounded w1) ∨
    (∃ w2, construct_copy w A = .error (.bad_alloc w2) ∧
      w.limit < w.heap.length + csA.length) := by
  rcases construct_copy_spec hA hb with
    ⟨w2, news, he, hown2, hmap, hb2, hf, _⟩ | ⟨w2, he, _, _, _, _, _, h6⟩
  · left
    have hne : A ≠ w.objs.length := Nat.ne_of_lt (Owns_range hA)
    exact ⟨w2, news, he, hown2, hmap,
      Owns_of_Frame (Owns_push hA) hne (fun _ _ _ h0 => by simp at h0) hf, hb2⟩
  · exact Or.inr ⟨w2, he, h6⟩

/-- Copy assignment `B = A` between two different lists: it returns with `B`
made of nodes holding the values of `A`, which keeps its nodes, or it throws
`std::bad_alloc` because the allocator has fewer nodes left than `A` has
elements. -/
theorem copy_assign_post {α : Type} [Inhabited α] {w : World α} {A B : Nat}
    {csA csB : List (Nat × α)} (hA : Owns w A csA) (hB : Owns w B csB) (hb : Bounded w)
    (hAB : A ≠ B) (hdis : ∀ c ∈ csA, ∀ c0 ∈ csB, c0.1 ≠ c.1) :
    (∃ w1 news, assign w B A = .ok w1 ∧ Owns w1 B news ∧
      news.map Prod.snd = csA.map Prod.snd ∧ Owns w1 A csA ∧ Bounded w1) ∨
    (∃ w2, assign w B A = .error (.bad_alloc w2) ∧
      w.limit < w.heap.length + csA.length) := by
  rcases assign_spec hB hA hb with
    ⟨w2, news, he, hown2, hmap, hb2, hf, _⟩ | ⟨w2, he, _, _, _, _, _, h6⟩
  · exact Or.inl ⟨w2, news, he, hown2, hmap, Owns_of_Frame hA hAB hdis hf, hb2⟩
  · exact Or.inr ⟨w2, he, h6⟩

/-- The state after a copy `B = A`, by copy assignment to an existing list `B`
or by copy construction of a new list `B`: both lists satisfy the size
invariant, `A` with the nodes it had and `B` with nodes holding the same
values. -/
theorem copy_made {α : Type} [Inhabited α] {w w1 : World α} {A B : Nat}
    {csA : List (Nat × α)} (hinv : Inv w) (hA : Owns w A csA) (hAB : A ≠ B)
    (hcopy : exec w (.assign B A) = .ok w1 ∨
      (exec w (.construct_copy A) = .ok w1 ∧ B = w.objs.length)) :
    ∃ news, Owns w1 A csA ∧ Owns w1 B news ∧ news.map Prod.snd = csA.map Prod.snd ∧
      Inv w1 := by
  obtain ⟨oa, hoa, _⟩ := id hA
  rcases hcopy with hc | ⟨hc, hB⟩
  · have hinv1 := exec_Inv _ hinv (Or.inl hc)
    cases hob : w.objs[B]? with
    | none => simp [exec, World.obj, hob, bind, Except.bind] at hc
    | some ob =>
      obtain ⟨csB, hB⟩ := hinv.2.1 B (getElem?_lt hob)
      simp only [exec, obj_some hob, obj_some hoa, bind, Except.bind] at hc
      rcases copy_assign_post hA hB hinv.1 hAB
          (fun c hc c0 hc0 => hinv.2.2 B A csB csA (Ne.symm hAB) hB hA c0 hc0 c hc) with
        ⟨w2, news, he, h1, h2, h3, _⟩ | ⟨w2, he, _⟩
      · rw [he] at hc
        injection hc with hc
        subst hc
        exact ⟨news, h3, h1, h2, hinv1⟩
      · rw [he] at hc
        cases hc
  · have hinv1 := exec_Inv _ hinv (Or.inl hc)
    subst hB
    simp only [exec, obj_some hoa, bind, Except.bind] at hc
    rcases copy_construct_post hA hinv.1 with ⟨w2, news, he, h1, h2, h3, _⟩ | ⟨w2, he, _⟩
    · rw [he] at hc
      simp only [pure, Except.pure] at hc
      injection hc with hc
      subst hc
      exact ⟨news, h3, h1, h2, hinv1⟩
    · rw [he] at hc
      cases hc

/-! ## The concrete world satisfies the invariants -/

theorem ex_world_Owns : Owns ex_world 0 ex_cells :=
  ⟨⟨⟨0, .cell 0⟩, 2⟩, rfl, ⟨rfl, .cell 1, rfl, rfl, .null, rfl, rfl⟩, rfl, by decide⟩

theorem ex_world_Bounded : Bounded ex_world :=
  ⟨by decide, by decide⟩

/-! # The claims -/

/-- C1. Size invariant.  In every world that is reachable from the start of
the program (no list object yet, nothing allocated, an allocator that hands out
at most `SIZE_MAX` nodes) by public operations (default construction, construction from a
sequence, copy construction, copy assignment, swap, PushFront, PopFront,
InsertAfter and EraseAfter with a position of the list itself, Clear), going on
after calls that return and after calls that throw `std::bad_alloc`, every
list object satisfies: the chain that starts at the sentinel's `next_node`
passes finitely many live nodes `cells`, without repetition, and ends in null;
`GetSize()` is the number of these nodes; and iterating the list terminates
with their values. -/
theorem size_invariant {α : Type} [Inhabited α] (w : World α) (hreach : Reachable w) :
    ∀ l o, w.objs[l]? = some o →
      ∃ cells, Seg w.heap o.head_.next_node cells .null ∧ (cells.map Prod.fst).Nodup ∧
        GetSize w l = .ok cells.length ∧ to_list w l = .ok (cells.map Prod.snd) := by
  intro l o ho
  obtain ⟨cells, hown⟩ := (Inv_of_Reachable hreach).2.1 l (getElem?_lt ho)
  refine ⟨cells, ?_, ?_, GetSize_of_Owns hown, to_list_of_Owns hown⟩
  · obtain ⟨o2, ho2, hs, _⟩ := hown
    rw [ho] at ho2
    injection ho2 with ho2
    subst ho2
    exact hs
  · obtain ⟨_, _, hs, _⟩ := hown
    exact Seg_nodup hs

/-- Witness of C1: the world after `SingleLinkedList<int> list;`,
`list.PushFront(5)` and a `list.PushFront(6)` that throws because the allocator
has no node left. -/
theorem size_invariant_witness :
    ∃ cells : List (Nat × Nat), Seg [some ⟨5, .null⟩] (.cell 0) cells .null ∧
      (cells.map Prod.fst).Nodup ∧
      GetSize (⟨[some ⟨5, .null⟩], 1, [⟨⟨0, .cell 0⟩, 1⟩]⟩ : World Nat) 0 = .ok cells.length ∧
      to_list (⟨[some ⟨5, .null⟩], 1, [⟨⟨0, .cell 0⟩, 1⟩]⟩ : World Nat) 0 =
        .ok (cells.map Prod.snd) :=
  have h0 : Reachable (⟨[], 1, []⟩ : World Nat) := Reachable.init 1 (by decide)
  have h1 : Reachable (⟨[], 1, [⟨⟨0, .null⟩, 0⟩]⟩ : World Nat) :=
    Reachable.step .construct_default h0 rfl
  have h2 : Reachable (⟨[some ⟨5, .null⟩], 1, [⟨⟨0, .cell 0⟩, 1⟩]⟩ : World Nat) :=
    Reachable.step (.PushFront 0 5) h1 rfl
  have h3 : Reachable (⟨[some ⟨5, .null⟩], 1, [⟨⟨0, .cell 0⟩, 1⟩]⟩ : World Nat) :=
    Reachable.thrown (.PushFront 0 6) h2 rfl
  size_invariant _ h3 0 ⟨⟨0, .cell 0⟩, 1⟩ rfl

/-- C2. InsertAfter postcondition.  Let the list `this` satisfy the size
invariant with nodes `cells`, so that its contents are `cells.map Prod.snd`, let
`pos` be its `k`-th position (`k = 0` the sentinel, `1 ≤ k ≤ size` the `k`-th
element) and let the allocator have a node left.  Then `InsertAfter(pos, v)`
returns; iterating the list afterwards yields the first `k` values, then `v`,
then the remaining values; `GetSize()` has grown by exactly one; the returned
position references a node that did not exist before, is the successor of
`pos`, and dereferences to `v`; the size invariant holds again. -/
theorem InsertAfter_postcondition {α : Type} (w : World α) (this k : Nat)
    (cells : List (Nat × α)) (v : α) (hown : Owns w this cells) (hb : Bounded w)
    (hlim : w.heap.length < w.limit) (hk : k ≤ cells.length) :
    ∃ w2 it, InsertAfter w this (pos_at this cells k) v = .ok (w2, it) ∧
      to_list w this = .ok (cells.map Prod.snd) ∧
      to_list w2 this =
        .ok ((cells.map Prod.snd).take k ++ [v] ++ (cells.map Prod.snd).drop k) ∧
      GetSize w this = .ok cells.length ∧
      GetSize w2 this = .ok (cells.length + 1) ∧
      it = ⟨.cell w.heap.length⟩ ∧ w.heap[w.heap.length]? = none ∧
      BasicIterator.incr w2 (pos_at this cells k) = .ok it ∧
      BasicIterator.deref w2 it = .ok v ∧
      Owns w2 this (cells.take k ++ (w.heap.length, v) :: cells.drop k) := by
  obtain ⟨w2, heq, hown2, _, _⟩ := InsertAfter_spec k v hown hb hlim hk
  refine ⟨w2, _, heq, to_list_of_Owns hown, ?_, GetSize_of_Owns hown, ?_, rfl, ?_, ?_, ?_,
    hown2⟩
  · rw [to_list_of_Owns hown2]
    simp
  · rw [GetSize_of_Owns hown2]
    simp
    omega
  · exact List.getElem?_eq_none (Nat.le_refl _)
  · have h1 := incr_pos_at hown2 k (by simp; omega)
    rw [pos_at_insert_le this cells _ k k (Nat.le_refl _) hk, pos_at_insert_new this cells _ k hk]
      at h1
    exact h1
  · have hlen : k < (cells.take k ++ (w.heap.length, v) :: cells.drop k).length := by
      simp
      omega
    have h1 := deref_pos_at hown2 k hlen
    rw [pos_at_insert_new this cells _ k hk] at h1
    have h2 : (cells.take k ++ (w.heap.length, v) :: cells.drop k)[k] = (w.heap.length, v) := by
      have : (cells.take k).length = k := by simp; omega
      rw [List.getElem_append_right (by omega)]
      simp [this]
    rw [h2] at h1
    exact h1

/-- Witness of C2: inserting `9` after the first element of the list `[5, 6]`
of `ex_world` gives `[5, 9, 6]` with size 3. -/
theorem InsertAfter_postcondition_witness :
    ∃ w2 it, InsertAfter ex_world 0 (pos_at 0 ex_cells 1) 9 = .ok (w2, it) ∧
      to_list ex_world 0 = .ok [5, 6] ∧
      to_list w2 0 = .ok [5, 9, 6] ∧
      GetSize ex_world 0 = .ok 2 ∧
      GetSize w2 0 = .ok 3 ∧
      it = ⟨.cell 2⟩ ∧ ex_world.heap[2]? = none ∧
      BasicIterator.incr w2 (pos_at 0 ex_cells 1) = .ok it ∧
      BasicIterator.deref w2 it = .ok 9 ∧
      Owns w2 0 [(0, 5), (2, 9), (1, 6)] :=
  InsertAfter_postcondition ex_world 0 1 ex_cells 9 ex_world_Owns ex_world_Bounded
    (by decide) (by decide)

/-- C3. EraseAfter postcondition.  Let the list `this` satisfy the size
invariant with nodes `cells` and let `pos` be its `k`-th position with
`k < size`, so that a node follows it (`k = 0` is the sentinel of a non-empty
list).  Then `EraseAfter(pos)` returns; iterating the list afterwards yields
the old values without the one that followed `pos`, the others unchanged and in
the same order; `GetSize()` has decreased by exactly one; the returned position
is what now follows `pos`, namely the old successor of the erased node, and it
is `end()` when the erased node was the last one. -/
theorem EraseAfter_postcondition {α : Type} (w : World α) (this k : Nat)
    (cells : List (Nat × α)) (hown : Owns w this cells) (hk : k < cells.length) :
    ∃ w2 it, EraseAfter w this (pos_at this cells k) = .ok (w2, it) ∧
      to_list w this = .ok (cells.map Prod.snd) ∧
      to_list w2 this = .ok ((cells.map Prod.snd).eraseIdx k) ∧
      GetSize w this = .ok cells.length ∧
      GetSize w2 this = .ok (cells.length - 1) ∧
      BasicIterator.incr w2 (pos_at this cells k) = .ok it ∧
      it = pos_at this cells (k + 2) ∧
      (k + 1 = cells.length → it = end_) ∧
      Owns w2 this (cells.eraseIdx k) := by
  obtain ⟨w2, heq, hown2, _, _⟩ := EraseAfter_spec k hown hk
  refine ⟨w2, _, heq, to_list_of_Owns hown, ?_, GetSize_of_Owns hown, ?_, ?_, rfl, ?_, hown2⟩
  · rw [to_list_of_Owns hown2, map_snd_eraseIdx]
  · rw [GetSize_of_Owns hown2, List.length_eraseIdx_of_lt hk]
  · have h1 := incr_pos_at hown2 k (by rw [List.length_eraseIdx_of_lt hk]; omega)
    rw [pos_at_eraseIdx_le this cells k k (Nat.le_refl _),
      pos_at_eraseIdx_gt this cells k (k + 1) (by omega)] at h1
    exact h1
  · intro hlast
    exact pos_at_end this cells (k + 1) (by omega)

/-- Witness of C3: erasing after the first element of the list `[5, 6]` of
`ex_world` gives `[5]` with size 1 and returns `end()`. -/
theorem EraseAfter_postcondition_witness :
    ∃ w2 it, EraseAfter ex_world 0 (pos_at 0 ex_cells 1) = .ok (w2, it) ∧
      to_list ex_world 0 = .ok [5, 6] ∧
      to_list w2 0 = .ok [5] ∧
      GetSize ex_world 0 = .ok 2 ∧
      GetSize w2 0 = .ok 1 ∧
      BasicIterator.incr w2 (pos_at 0 ex_cells 1) = .ok it ∧
      it = pos_at 0 ex_cells 3 ∧
      (1 + 1 = ex_cells.length → it = end_) ∧
      Owns w2 0 [(0, 5)] :=
  EraseAfter_postcondition ex_world 0 1 ex_cells ex_world_Owns (by decide)

/-- C4. Construction round trip.  For every finite sequence `S` of values,
the empty one included, in a world in which the allocator has `S.length` nodes
left, the constructor from `S` (which calls `InitFromRange`) returns a list
whose `GetSize()` is the length of `S` and whose iteration from `begin()` to
`end()` yields exactly the values of `S` in the same order (for every bound
on the number of loop iterations above `S.length`). -/
theorem construction_round_trip {α : Type} [Inhabited α] (w : World α) (S : List α)
    (hb : Bounded w) (hroom : w.heap.length + S.length ≤ w.limit) :
    ∃ w2 l, construct_values w S = .ok (w2, l) ∧ GetSize w2 l = .ok S.length ∧
      to_list w2 l = .ok S ∧
      ∀ fuel, S.length < fuel →
        (do let b ← begin w2 l; traverse fuel w2 b end_) = .ok S := by
  rcases construct_values_spec w S hb with ⟨w2, news, he, hown, hmap, _, _, _⟩ | ⟨_, _, _, _, _, _, _, h⟩
  · refine ⟨w2, w.objs.length, he, ?_, ?_, ?_⟩
    · rw [GetSize_of_Owns hown, ← hmap, List.length_map]
    · rw [to_list_of_Owns hown, hmap]
    · intro fuel hfuel
      obtain ⟨o, ho, hs, _, _⟩ := hown
      have ht := traverse_Seg w2 news _ fuel hs (by rw [← hmap, List.length_map] at hfuel; exact hfuel)
      rw [hmap] at ht
      simp only [begin, obj_some ho, bind, Except.bind, pure, Except.pure]
      exact ht
  · omega

/-- Witness of C4: constructing a list from `[7, 8, 9]` and from the empty
sequence in a world with room for five nodes. -/
theorem construction_round_trip_witness :
    (∃ w2 l, construct_values (⟨[], 5, []⟩ : World Nat) [7, 8, 9] = .ok (w2, l) ∧
      GetSize w2 l = .ok 3 ∧ to_list w2 l = .ok [7, 8, 9] ∧
      ∀ fuel, 3 < fuel → (do let b ← begin w2 l; traverse fuel w2 b end_) = .ok [7, 8, 9]) ∧
    (∃ w2 l, construct_values (⟨[], 5, []⟩ : World Nat) [] = .ok (w2, l) ∧
      GetSize w2 l = .ok 0 ∧ to_list w2 l = .ok [] ∧
      ∀ fuel, 0 < fuel → (do let b ← begin w2 l; traverse fuel w2 b end_) = .ok []) :=
  ⟨construction_round_trip ⟨[], 5, []⟩ [7, 8, 9] ⟨by decide, by decide⟩ (by decide),
    construction_round_trip ⟨[], 5, []⟩ [] ⟨by decide, by decide⟩ (by decide)⟩

/-- C5. Operation sequences.  Apply to an empty list any sequence of
`PushFront` / `PopFront` / `InsertAfter` / `EraseAfter` calls on it in which
every call returns (all preconditions hold and the allocator provides the
nodes).  Then iterating the list yields the values implied by the operations,
`GetSize()` is the number of these values, and it equals the number of inserts
minus the number of erases.  In particular, in the scenario of the
specification the list is `[1,2,3]` with size 3, then `[1,10,2,3]` with size 4,
then `[1,2,3]` with size 3, and at the end `[3]` with size 1. -/
theorem operation_sequences {α : Type} [Inhabited α] (ops : List (Op α)) (w w1 : World α)
    (this : Nat) (hown : Owns w this []) (hb : Bounded w)
    (hon : ∀ op ∈ ops, op.on this = true) (hrun : run w ops = .ok w1) :
    (to_list w1 this = .ok (ops.foldl Op.implied []) ∧
      GetSize w1 this = .ok (ops.foldl Op.implied []).length ∧
      GetSize w1 this = .ok (ops.countP Op.inserts - ops.countP Op.erases) ∧
      ops.countP Op.erases ≤ ops.countP Op.inserts) ∧
    (observe scenario_start (scenario_ops.take 3) 0 = .ok ([1, 2, 3], 3) ∧
      observe scenario_start (scenario_ops.take 4) 0 = .ok ([1, 10, 2, 3], 4) ∧
      observe scenario_start (scenario_ops.take 5) 0 = .ok ([1, 2, 3], 3) ∧
      observe scenario_start scenario_ops 0 = .ok ([3], 1)) := by
  obtain ⟨cells1, hown1, _, hmap, hlen⟩ := run_element_ops ops hown hb hon hrun
  simp only [List.map_nil, List.length_nil, Nat.zero_add] at hmap hlen
  have hl : (ops.foldl Op.implied ([] : List α)).length = cells1.length := by
    rw [← hmap, List.length_map]
  refine ⟨⟨?_, ?_, ?_, by omega⟩, rfl, rfl, rfl, rfl⟩
  · rw [to_list_of_Owns hown1, hmap]
  · rw [GetSize_of_Owns hown1, hl]
  · rw [GetSize_of_Owns hown1]
    congr 1
    omega

/-- Witness of C5: the scenario of the specification. -/
theorem operation_sequences_witness :
    to_list scenario_final 0 = .ok [3] ∧ GetSize scenario_final 0 = .ok 1 ∧
      GetSize scenario_final 0 = .ok (4 - 3) :=
  have h := (operation_sequences scenario_ops scenario_start scenario_final 0
    ⟨⟨⟨0, .null⟩, 0⟩, rfl, rfl, rfl, by decide⟩ ⟨by decide, by decide⟩ (by decide) rfl).1
  ⟨h.1, h.2.1, h.2.2.1⟩

/-- C6. PushFront is equivalent to InsertAfter at `before_begin()`: in every
world the two calls have the same outcome (the same resulting state, or the
same fault); whenever `PushFront(v)` returns, the first element of the list is
`v`; and on a list that satisfies the size invariant, with a node left in the
allocator, `PushFront(v)` returns, the contents are `v` followed by the old
contents and the size has grown by one. -/
theorem PushFront_equiv_InsertAfter {α : Type} (w : World α) (this : Nat) (v : α) :
    PushFront w this v = (InsertAfter w this (before_begin this) v).map Prod.fst ∧
      (∀ w2, PushFront w this v = .ok w2 →
        (do let b ← begin w2 this; b.deref w2) = .ok v) ∧
      (∀ cells, Owns w this cells → Bounded w → w.heap.length < w.limit →
        ∃ w2, PushFront w this v = .ok w2 ∧
          to_list w2 this = .ok (v :: cells.map Prod.snd) ∧
          GetSize w2 this = .ok (cells.length + 1)) := by
  refine ⟨PushFront_eq_InsertAfter w this v, ?_, ?_⟩
  · intro w2 h
    cases ho : w.objs[this]? with
    | none => simp [PushFront, World.obj, ho, bind, Except.bind] at h
    | some o =>
      have hlt : this < w.objs.length := getElem?_lt ho
      by_cases hlim : w.heap.length < w.limit
      · rw [PushFront_eq_InsertAfter, before_begin, InsertAfter_head_eq v ho hlim] at h
        simp only [Except.map] at h
        injection h with h
        subst h
        simp [begin, World.obj, BasicIterator.deref, assert, World.load, hlt, bind,
          Except.bind, pure, Except.pure]
      · simp [PushFront, World.obj, World.new_Node, ho, hlim, bind, Except.bind] at h
  · intro cells hown hb hlim
    obtain ⟨w2, heq, hown2, _, _⟩ := InsertAfter_spec 0 v hown hb hlim (Nat.zero_le _)
    refine ⟨w2, ?_, ?_, ?_⟩
    · rw [PushFront_eq_InsertAfter]
      have h0 : pos_at this cells 0 = before_begin this := rfl
      rw [h0] at heq
      rw [heq]
      rfl
    · rw [to_list_of_Owns hown2]
      simp
    · rw [GetSize_of_Owns hown2]
      simp

/-- Witness of C6 on the list `[5, 6]` of `ex_world`. -/
theorem PushFront_equiv_InsertAfter_witness :
    ∃ w2, PushFront ex_world 0 4 = .ok w2 ∧ to_list w2 0 = .ok [4, 5, 6] ∧
      GetSize w2 0 = .ok 3 ∧ (do let b ← begin w2 0; b.deref w2) = .ok 4 := by
  obtain ⟨_, h2, h3⟩ := PushFront_equiv_InsertAfter ex_world 0 4
  obtain ⟨w2, h4, h5, h6⟩ := h3 ex_cells ex_world_Owns ex_world_Bounded (by decide)
  exact ⟨w2, h4, h5, h6, h2 w2 h4⟩

/-- C7. PopFront is equivalent to EraseAfter at `before_begin()`: on a list
that satisfies the size invariant the two calls have the same outcome; both
fail their assertion exactly when the list is empty; on a non-empty list they
return, the first element is removed and the size has decreased by one. -/
theorem PopFront_equiv_EraseAfter {α : Type} (w : World α) (this : Nat)
    (cells : List (Nat × α)) (hown : Owns w this cells) :
    PopFront w this = (EraseAfter w this (before_begin this)).map Prod.fst ∧
      (cells = [] → PopFront w this = .error .assertion ∧
        EraseAfter w this (before_begin this) = .error .assertion) ∧
      (cells ≠ [] → ∃ w2 it, PopFront w this = .ok w2 ∧
        EraseAfter w this (before_begin this) = .ok (w2, it) ∧
        to_list w2 this = .ok ((cells.map Prod.snd).drop 1) ∧
        GetSize w2 this = .ok (cells.length - 1) ∧ Owns w2 this (cells.drop 1)) := by
  have heq := PopFront_eq_EraseAfter hown
  refine ⟨heq, ?_, ?_⟩
  · intro hnil
    subst hnil
    have h1 := EraseAfter_last hown
    exact ⟨PopFront_nil hown, h1⟩
  · intro hne
    have hk : 0 < cells.length := List.length_pos.2 hne
    obtain ⟨w2, he, hown2, _, _⟩ := EraseAfter_spec 0 hown hk
    have h0 : pos_at this cells 0 = before_begin this := rfl
    rw [h0] at he
    rw [List.eraseIdx_zero, ← List.drop_one] at hown2
    refine ⟨w2, _, ?_, he, ?_, ?_, hown2⟩
    · rw [heq, he]
      rfl
    · rw [to_list_of_Owns hown2]
      simp
    · rw [GetSize_of_Owns hown2]
      simp

/-- Witness of C7 on the list `[5, 6]` of `ex_world`. -/
theorem PopFront_equiv_EraseAfter_witness :
    ∃ w2 it, PopFront ex_world 0 = .ok w2 ∧
      EraseAfter ex_world 0 (before_begin 0) = .ok (w2, it) ∧
      to_list w2 0 = .ok [6] ∧ GetSize w2 0 = .ok 1 ∧ Owns w2 0 [(1, 6)] :=
  (PopFront_equiv_EraseAfter ex_world 0 ex_cells ex_world_Owns).2.2 (by decide)

/-- C8. EraseAfter precondition.  On a list that satisfies the size invariant
with nodes `cells`, take any position `pos` that is the end position or a
position of the list (`pos_at this cells k`: the sentinel for `k = 0`, the
`k`-th element for `1 ≤ k ≤ size`, the end position for `k > size`).  Then the
assertion of `EraseAfter(pos)` fails if and only if `pos` is the end position
or no node follows `pos` (the last element, or the sentinel of an empty list),
that is `size ≤ k`; for every other position of the list the call returns. -/
theorem EraseAfter_precondition {α : Type} (w : World α) (this : Nat)
    (cells : List (Nat × α)) (hown : Owns w this cells) :
    EraseAfter w this end_ = .error .assertion ∧
      ∀ k, (EraseAfter w this (pos_at this cells k) = .error .assertion ↔ cells.length ≤ k) ∧
        (k < cells.length → ∃ w2 it, EraseAfter w this (pos_at this cells k) = .ok (w2, it)) := by
  refine ⟨EraseAfter_end w this, ?_⟩
  intro k
  have hok : k < cells.length →
      ∃ w2 it, EraseAfter w this (pos_at this cells k) = .ok (w2, it) := by
    intro hk
    obtain ⟨w2, he, _⟩ := EraseAfter_spec k hown hk
    exact ⟨w2, _, he⟩
  refine ⟨⟨?_, ?_⟩, hok⟩
  · intro hfail
    by_contra hlt
    obtain ⟨w2, it, he⟩ := hok (by omega)
    rw [he] at hfail
    cases hfail
  · intro hge
    rcases Nat.eq_or_lt_of_le hge with heq | hgt
    · rw [← heq]
      exact EraseAfter_last hown
    · cases k with
      | zero => omega
      | succ j =>
        rw [pos_at_end this cells j (by omega)]
        exact EraseAfter_end w this

/-- Witness of C8 on the list `[5, 6]` of `ex_world`: erasing after the last
element fails the assertion, erasing after the first element returns. -/
theorem EraseAfter_precondition_witness :
    EraseAfter ex_world 0 (pos_at 0 ex_cells 2) = .error .assertion ∧
      ∃ w2 it, EraseAfter ex_world 0 (pos_at 0 ex_cells 1) = .ok (w2, it) :=
  ⟨((EraseAfter_precondition ex_world 0 ex_cells ex_world_Owns).2 2).1.2 (by decide),
    ((EraseAfter_precondition ex_world 0 ex_cells ex_world_Owns).2 1).2 (by decide)⟩

/-- C9, counterexample.  In `ex_world` dereferencing `before_begin()` and
`cbefore_begin()` of the list does not fail: the assertion `assert(node_)`
passes, since the address of the sentinel is not null, and the value member
of the sentinel is returned. -/
theorem deref_sentinel_counterexample :
    BasicIterator.deref ex_world (before_begin 0) = .ok 0 ∧
      BasicIterator.deref ex_world (cbefore_begin 0) = .ok 0 ∧
      BasicIterator.arrow ex_world (before_begin 0) = .ok 0 ∧
      ¬ ∃ f, BasicIterator.deref ex_world (before_begin 0) = .error f := by
  refine ⟨rfl, rfl, rfl, ?_⟩
  rintro ⟨f, hf⟩
  cases hf

/-- C9, amended.  On a list that satisfies the size invariant, dereferencing
(`operator*` and `operator->`) the position of the `j`-th element node yields
the value of that node; dereferencing the end position fails the assertion;
dereferencing the sentinel position `before_begin()` / `cbefore_begin()` passes
the assertion and yields the value member of the sentinel node. -/
theorem deref_contract {α : Type} (w : World α) (this : Nat) (cells : List (Nat × α))
    (hown : Owns w this cells) :
    (∀ j (hj : j < cells.length),
        BasicIterator.deref w (pos_at this cells (j + 1)) = .ok cells[j].2 ∧
        BasicIterator.arrow w (pos_at this cells (j + 1)) = .ok cells[j].2) ∧
      BasicIterator.deref w end_ = .error .assertion ∧
      BasicIterator.deref w cend = .error .assertion ∧
      BasicIterator.arrow w end_ = .error .assertion ∧
      ∃ o, w.objs[this]? = some o ∧
        BasicIterator.deref w (before_begin this) = .ok o.head_.value ∧
        BasicIterator.deref w (cbefore_begin this) = .ok o.head_.value ∧
        BasicIterator.arrow w (before_begin this) = .ok o.head_.value := by
  refine ⟨?_, deref_null w, deref_null w, deref_null w, ?_⟩
  · intro j hj
    have h := deref_pos_at hown j hj
    exact ⟨h, h⟩
  · obtain ⟨o, ho, _⟩ := hown
    have h := deref_of_load (p := .head this) (by simp) (load_head ho)
    exact ⟨o, ho, h, h, h⟩

/-- Witness of C9 (amended) on the list `[5, 6]` of `ex_world`. -/
theorem deref_contract_witness :
    BasicIterator.deref ex_world (pos_at 0 ex_cells 2) = .ok 6 ∧
      BasicIterator.deref ex_world end_ = .error .assertion :=
  ⟨((deref_contract ex_world 0 ex_cells ex_world_Owns).1 1 (by decide)).1,
    (deref_contract ex_world 0 ex_cells ex_world_Owns).2.1⟩

/-- C10. Advance contract.  Advancing a position that references a node moves
it to the target of that node's `next_node` link.  On a list that satisfies the
size invariant: advancing `before_begin()` gives `begin()`, advancing the
`k`-th position gives the `(k+1)`-th, advancing the last position gives
`end()`; advancing the end position fails the assertion; post-increment
advances in the same way and returns the position as it was before. -/
theorem advance_contract {α : Type} (w : World α) (this : Nat) (cells : List (Nat × α))
    (hown : Owns w this cells) :
    (∀ p n, p ≠ .null → w.load p = .ok n → BasicIterator.incr w ⟨p⟩ = .ok ⟨n.next_node⟩) ∧
      (∃ b, begin w this = .ok b ∧ BasicIterator.incr w (before_begin this) = .ok b) ∧
      (∀ k, k ≤ cells.length →
        BasicIterator.incr w (pos_at this cells k) = .ok (pos_at this cells (k + 1))) ∧
      BasicIterator.incr w (pos_at this cells cells.length) = .ok end_ ∧
      BasicIterator.incr w end_ = .error .assertion ∧
      (∀ it : BasicIterator,
        BasicIterator.post_incr w it = (BasicIterator.incr w it).map (fun it1 => (it, it1))) := by
  refine ⟨fun p n hp hl => incr_of_load hp hl, ?_, fun k hk => incr_pos_at hown k hk, ?_,
    incr_null w, ?_⟩
  · obtain ⟨o, ho, _⟩ := hown
    refine ⟨⟨o.head_.next_node⟩, ?_, ?_⟩
    · simp [begin, obj_some ho, bind, Except.bind, pure, Except.pure]
    · exact incr_of_load (p := .head this) (by simp) (load_head ho)
  · have h := incr_pos_at hown cells.length (Nat.le_refl _)
    rw [pos_at_end this cells cells.length (Nat.le_refl _)] at h
    exact h
  · intro it
    cases h : BasicIterator.incr w it <;>
      simp [BasicIterator.post_incr, h, bind, Except.bind, pure, Except.pure, Except.map]

/-- Witness of C10 on the list `[5, 6]` of `ex_world`. -/
theorem advance_contract_witness :
    BasicIterator.incr ex_world (pos_at 0 ex_cells 1) = .ok (pos_at 0 ex_cells 2) ∧
      BasicIterator.incr ex_world (pos_at 0 ex_cells 2) = .ok end_ ∧
      BasicIterator.incr ex_world end_ = .error .assertion :=
  ⟨(advance_contract ex_world 0 ex_cells ex_world_Owns).2.2.1 1 (by decide),
    (advance_contract ex_world 0 ex_cells ex_world_Owns).2.2.2.1,
    (advance_contract ex_world 0 ex_cells ex_world_Owns).2.2.2.2.1⟩

/-- C11, counterexample.  In `ex_nan` the list `A` holds the single value `nan`
of an element type whose `==` is not reflexive.  `A == A` is true, by the
identity short-circuit `if (&lhs == &rhs) return true;`, although the values of
`A` and `A` are not pairwise equal by `==`. -/
theorem list_equality_counterexample :
    ∃ r xs sa, operator_eq ex_nan 0 0 = .ok r ∧ to_list ex_nan 0 = .ok xs ∧
      GetSize ex_nan 0 = .ok sa ∧
      ¬ (r = true ↔ (sa = sa ∧
        ∀ (i : Nat) (a b : Flt), xs[i]? = some a → xs[i]? = some b → (a == b) = true)) := by
  refine ⟨true, [Flt.nan], 1, rfl, rfl, rfl, ?_⟩
  intro h
  have h1 := (h.1 rfl).2 0 Flt.nan Flt.nan rfl rfl
  exact absurd h1 (by decide)

/-- C11, amended.  For two lists `A` and `B` that satisfy the size invariant,
`A == B` returns, and `A != B` returns its negation.  The result is true if
and only if `A` and `B` are one and the same list object (the identity
short-circuit) or `GetSize()` of `A` equals `GetSize()` of `B` and the values
of `A` and `B` are pairwise equal, by the `==` of the element type, in
iteration order.  For two different list objects, and for one and the same
object whenever `==` of the element type is reflexive, this is: the result is
true if and only if the sizes are equal and the values are pairwise equal.
For example `{1,2,3} == {1,2,3}` is true, for two objects and for one. -/
theorem list_equality {α : Type} [BEq α] (w : World α) (A B : Nat)
    (csA csB : List (Nat × α)) (hA : Owns w A csA) (hB : Owns w B csB) :
    (∃ r xs ys sa sb, operator_eq w A B = .ok r ∧ operator_ne w A B = .ok (!r) ∧
      to_list w A = .ok xs ∧ to_list w B = .ok ys ∧
      GetSize w A = .ok sa ∧ GetSize w B = .ok sb ∧
      (r = true ↔ A = B ∨ (sa = sb ∧
        ∀ (i : Nat) (a b : α), xs[i]? = some a → ys[i]? = some b → (a == b) = true)) ∧
      ((A ≠ B ∨ ∀ a : α, (a == a) = true) →
        (r = true ↔ (sa = sb ∧
          ∀ (i : Nat) (a b : α), xs[i]? = some a → ys[i]? = some b → (a == b) = true)))) ∧
    (operator_eq ex_lists 0 1 = .ok true ∧ operator_eq ex_lists 0 0 = .ok true ∧
      operator_ne ex_lists 0 1 = .ok false ∧ operator_eq ex_lists 0 4 = .ok false ∧
      operator_eq ex_lists 0 2 = .ok false) := by
  refine ⟨?_, rfl, rfl, rfl, rfl, rfl⟩
  have hspec := operator_eq_spec hA hB
  have hiff := seq_equal_iff (csA.map Prod.snd) (csB.map Prod.snd)
  simp only [List.length_map] at hiff
  refine ⟨_, csA.map Prod.snd, csB.map Prod.snd, csA.length, csB.length, hspec, ?_,
    to_list_of_Owns hA, to_list_of_Owns hB, GetSize_of_Owns hA, GetSize_of_Owns hB, ?_, ?_⟩
  · simp only [operator_ne, hspec, bind, Except.bind, pure, Except.pure]
  · rw [Bool.or_eq_true, decide_eq_true_iff, hiff]
  · intro hcase
    rw [Bool.or_eq_true, decide_eq_true_iff, hiff]
    constructor
    · rintro (hAB | h)
      · rcases hcase with hne | hrefl
        · exact absurd hAB hne
        · subst hAB
          have hcs := Owns_unique hA hB
          subst hcs
          exact hiff.1 (seq_equal_refl hrefl _)
      · exact h
    · intro h
      exact Or.inr h

/-- Witness of C11 (amended): the lists `{1,2,3}` and `{1,2,3}` of `ex_lists`. -/
theorem list_equality_witness :
    ∃ r xs ys sa sb, operator_eq ex_lists 0 1 = .ok r ∧ operator_ne ex_lists 0 1 = .ok (!r) ∧
      to_list ex_lists 0 = .ok xs ∧ to_list ex_lists 1 = .ok ys ∧
      GetSize ex_lists 0 = .ok sa ∧ GetSize ex_lists 1 = .ok sb ∧
      (r = true ↔ 0 = 1 ∨ (sa = sb ∧
        ∀ (i : Nat) (a b : Nat), xs[i]? = some a → ys[i]? = some b → (a == b) = true)) ∧
      (((0 : Nat) ≠ 1 ∨ ∀ a : Nat, (a == a) = true) →
        (r = true ↔ (sa = sb ∧
          ∀ (i : Nat) (a b : Nat), xs[i]? = some a → ys[i]? = some b → (a == b) = true))) :=
  (list_equality ex_lists 0 1 _ _ ex_lists_Owns0 ex_lists_Owns1).1

/-- C12, counterexample.  In `ex_nan_lists` the list `A` is `{nan, 1}` and the
list `B` is `{0, 2}`, over an element type in which `nan` is neither less nor
greater than any value.  `A < B` is true: `std::lexicographical_compare` steps
over the first pair, in which neither element is less than the other, and
finds `1 < 2`.  Yet the first index where the lists differ is 0, where `nan`
is not less than `0`, and `A` is not a proper prefix of `B`. -/
theorem list_ordering_counterexample :
    ∃ r xs ys, operator_lt Flt.lt ex_nan_lists 0 1 = .ok r ∧
      to_list ex_nan_lists 0 = .ok xs ∧ to_list ex_nan_lists 1 = .ok ys ∧
      ¬ (r = true ↔ ∃ i, xs.take i = ys.take i ∧
        ((∃ a b, xs[i]? = some a ∧ ys[i]? = some b ∧ a ≠ b ∧ Flt.lt a b = true) ∨
          (xs.length = i ∧ i < ys.length))) := by
  refine ⟨true, [Flt.nan, Flt.num 1], [Flt.num 0, Flt.num 2], rfl, rfl, rfl, ?_⟩
  intro h
  obtain ⟨i, hpre, hi⟩ := h.1 rfl
  cases i with
  | zero =>
    rcases hi with ⟨a, b, ha, hb, _, hlt⟩ | ⟨hl, _⟩
    · simp only [List.getElem?_cons_zero, Option.some.injEq] at ha hb
      subst ha
      subst hb
      simp [Flt.lt] at hlt
    · simp at hl
  | succ i => simp at hpre

/-- C12, amended.  For two lists `A` and `B` that satisfy the size invariant,
`A < B` returns the result of `std::lexicographical_compare` over their
iteration sequences: it is true if and only if there is an index such that at
every index before it neither list's element is less than the other's, and at
it either `A`'s element is less than `B`'s, or `A` has ended and `B` has not.
`A > B` returns `B < A`, so it is true if and only if the same holds with
`A` and `B` exchanged; `A <= B` returns the negation of `A > B` and `A >= B` the
negation of `A < B`.  When the elements neither of which is less than the
other are exactly the equal ones (as for a strict total order), this is:
`A < B` is true if and only if at the first index where they differ `A`'s
element is less than `B`'s, or `A` is a proper prefix of `B`, and `A > B` is
true if and only if at the first index where they differ `B`'s element is less
than `A`'s, or `B` is a proper prefix of `A`.  For example `{1,2} < {1,2,3}` is
true and `{1,3} > {1,2,9}` is true. -/
theorem list_ordering {α : Type} (lt : α → α → Bool) (w : World α) (A B : Nat)
    (csA csB : List (Nat × α)) (hA : Owns w A csA) (hB : Owns w B csB) :
    (∃ r g xs ys, operator_lt lt w A B = .ok r ∧ operator_gt lt w A B = .ok g ∧
      operator_le lt w A B = .ok (!g) ∧ operator_ge lt w A B = .ok (!r) ∧
      to_list w A = .ok xs ∧ to_list w B = .ok ys ∧
      r = seq_less lt xs ys ∧ g = seq_less lt ys xs ∧
      (r = true ↔ ∃ i, (∀ j, j < i → ∃ a b, xs[j]? = some a ∧ ys[j]? = some b ∧
              lt a b = false ∧ lt b a = false) ∧
          ((∃ a b, xs[i]? = some a ∧ ys[i]? = some b ∧ lt a b = true) ∨
            (xs.length = i ∧ i < ys.length))) ∧
      (g = true ↔ ∃ i, (∀ j, j < i → ∃ b a, ys[j]? = some b ∧ xs[j]? = some a ∧
              lt b a = false ∧ lt a b = false) ∧
          ((∃ b a, ys[i]? = some b ∧ xs[i]? = some a ∧ lt b a = true) ∨
            (ys.length = i ∧ i < xs.length))) ∧
      ((∀ a b, (lt a b = false ∧ lt b a = false) ↔ a = b) →
        (r = true ↔ ∃ i, xs.take i = ys.take i ∧
          ((∃ a b, xs[i]? = some a ∧ ys[i]? = some b ∧ a ≠ b ∧ lt a b = true) ∨
            (xs.length = i ∧ i < ys.length))) ∧
        (g = true ↔ ∃ i, ys.take i = xs.take i ∧
          ((∃ b a, ys[i]? = some b ∧ xs[i]? = some a ∧ b ≠ a ∧ lt b a = true) ∨
            (ys.length = i ∧ i < xs.length))))) ∧
    (operator_lt (fun a b => decide (a < b)) ex_lists 2 0 = .ok true ∧
      operator_gt (fun a b => decide (a < b)) ex_lists 3 4 = .ok true ∧
      operator_lt (fun a b => decide (a < b)) ex_lists 0 2 = .ok false ∧
      operator_lt (fun a b => decide (a < b)) ex_lists 0 1 = .ok false) := by
  refine ⟨?_, rfl, rfl, rfl, rfl⟩
  have hlt := operator_lt_spec lt hA hB
  have hgt := operator_lt_spec lt hB hA
  refine ⟨_, _, csA.map Prod.snd, csB.map Prod.snd, hlt, hgt, ?_, ?_, to_list_of_Owns hA,
    to_list_of_Owns hB, rfl, rfl, seq_less_iff lt _ _, seq_less_iff lt _ _, ?_⟩
  · simp only [operator_le, hgt, bind, Except.bind, pure, Except.pure]
  · simp only [operator_ge, hlt, bind, Except.bind, pure, Except.pure]
  · intro hlin
    exact ⟨seq_less_iff_linear lt hlin _ _, seq_less_iff_linear lt hlin _ _⟩

/-- Witness of C12 (amended): the list `{1,2}` is less than the list `{1,2,3}`
of `ex_lists`, being a proper prefix of it, and the list `{1,2,3}` is greater
than the list `{1,2}`. -/
theorem list_ordering_witness :
    ∃ r g xs ys, operator_lt (fun a b => decide (a < b)) ex_lists 2 0 = .ok r ∧
      operator_gt (fun a b => decide (a < b)) ex_lists 2 0 = .ok g ∧
      to_list ex_lists 2 = .ok xs ∧ to_list ex_lists 0 = .ok ys ∧
      (r = true ↔ ∃ i, xs.take i = ys.take i ∧
        ((∃ a b, xs[i]? = some a ∧ ys[i]? = some b ∧ a ≠ b ∧ decide (a < b) = true) ∨
          (xs.length = i ∧ i < ys.length))) ∧
      (g = true ↔ ∃ i, ys.take i = xs.take i ∧
        ((∃ b a, ys[i]? = some b ∧ xs[i]? = some a ∧ b ≠ a ∧ decide (b < a) = true) ∨
          (ys.length = i ∧ i < xs.length))) := by
  obtain ⟨r, g, xs, ys, h1, h2, _, _, h3, h4, _, _, _, _, h5⟩ :=
    (list_ordering (fun a b => decide (a < b)) ex_lists 2 0 _ _ ex_lists_Owns2
      ex_lists_Owns0).1
  have hlin : ∀ a b : Nat, (decide (a < b) = false ∧ decide (b < a) = false) ↔ a = b := by
    intro a b
    simp only [decide_eq_false_iff_not, Nat.not_lt]
    omega
  exact ⟨r, g, xs, ys, h1, h2, h3, h4, (h5 hlin).1, (h5 hlin).2⟩

/-- C13. Swap.  For two lists `A` and `B` that satisfy the size invariant,
`swap(A, B)` returns without allocating; afterwards `A` consists of exactly the
nodes that `B` had, so it has the contents and size that `B` had, and `B` those
that `A` had; a second `swap(A, B)` gives back the very world before the first
one, so both lists have their original contents and sizes again; the member
`swap` and the free function `swap` have the same outcome. -/
theorem swap_exchanges {α : Type} (w : World α) (A B : Nat) (csA csB : List (Nat × α))
    (hA : Owns w A csA) (hB : Owns w B csB) :
    (∀ (w0 : World α) (l r : Nat), swap_free w0 l r = swap w0 l r) ∧
      ∃ w1, swap w A B = .ok w1 ∧
        to_list w1 A = to_list w B ∧ to_list w1 B = to_list w A ∧
        GetSize w1 A = GetSize w B ∧ GetSize w1 B = GetSize w A ∧
        to_list w1 A = .ok (csB.map Prod.snd) ∧ to_list w1 B = .ok (csA.map Prod.snd) ∧
        GetSize w1 A = .ok csB.length ∧ GetSize w1 B = .ok csA.length ∧
        Owns w1 A csB ∧ Owns w1 B csA ∧ w1.heap = w.heap ∧
        swap w1 A B = .ok w := by
  refine ⟨fun _ _ _ => rfl, ?_⟩
  obtain ⟨w1, he, h1, h2, h3, _⟩ := swap_spec hA hB
  obtain ⟨oa, ha, _⟩ := hA
  obtain ⟨ob, hb, _⟩ := hB
  obtain ⟨w1b, he2, hback⟩ := swap_swap ha hb
  rw [he] at he2
  injection he2 with he2
  subst he2
  have hA0 : Owns w A csA := ⟨oa, ha, ‹_›⟩
  have hB0 : Owns w B csB := ⟨ob, hb, ‹_›⟩
  refine ⟨w1, he, ?_, ?_, ?_, ?_, to_list_of_Owns h1, to_list_of_Owns h2, GetSize_of_Owns h1,
    GetSize_of_Owns h2, h1, h2, h3, hback⟩
  · rw [to_list_of_Owns h1, to_list_of_Owns hB0]
  · rw [to_list_of_Owns h2, to_list_of_Owns hA0]
  · rw [GetSize_of_Owns h1, GetSize_of_Owns hB0]
  · rw [GetSize_of_Owns h2, GetSize_of_Owns hA0]

/-- Witness of C13: swapping the lists `{1,2}` and `{1,2,9}` of `ex_lists`. -/
theorem swap_exchanges_witness :
    ∃ w1, swap ex_lists 2 4 = .ok w1 ∧ swap_free ex_lists 2 4 = .ok w1 ∧
      to_list w1 2 = .ok [1, 2, 9] ∧ to_list w1 4 = .ok [1, 2] ∧
      GetSize w1 2 = .ok 3 ∧ GetSize w1 4 = .ok 2 ∧ swap w1 2 4 = .ok ex_lists := by
  obtain ⟨h0, w1, h1, _, _, _, _, h2, h3, h4, h5, _, _, _, h6⟩ :=
    swap_exchanges ex_lists 2 4 _ _ ex_lists_Owns2 ex_lists_Owns4
  exact ⟨w1, h1, by rw [h0, h1], h2, h3, h4, h5, h6⟩

/-- C14. Copy yields the same sequence.  Let `A` and `B` be lists of a world
that satisfies the invariants, as every reachable world does (`B` may be `A`
itself and may hold anything).
Copy-constructing a new list from `A` returns a list with the size of `A` and
the values of `A` in the same order, and `A` has the size and values it had;
so does copy-assigning `A` to `B`; either call fails only by throwing
`std::bad_alloc`, when the allocator has fewer nodes left than `A` has
elements.  Self-assignment `A = A` returns and changes nothing at all. -/
theorem copy_same_sequence {α : Type} [Inhabited α] (w : World α) (A B : Nat)
    (csA csB : List (Nat × α)) (hinv : Inv w) (hA : Owns w A csA) (hB : Owns w B csB) :
    GetSize w A = .ok csA.length ∧ to_list w A = .ok (csA.map Prod.snd) ∧
    ((∃ w1, construct_copy w A = .ok (w1, w.objs.length) ∧
        GetSize w1 w.objs.length = .ok csA.length ∧
        to_list w1 w.objs.length = .ok (csA.map Prod.snd) ∧
        GetSize w1 A = .ok csA.length ∧ to_list w1 A = .ok (csA.map Prod.snd)) ∨
      (∃ w2, construct_copy w A = .error (.bad_alloc w2) ∧
        w.limit < w.heap.length + csA.length)) ∧
    ((∃ w1, assign w B A = .ok w1 ∧
        GetSize w1 B = .ok csA.length ∧ to_list w1 B = .ok (csA.map Prod.snd) ∧
        GetSize w1 A = .ok csA.length ∧ to_list w1 A = .ok (csA.map Prod.snd)) ∨
      (∃ w2, assign w B A = .error (.bad_alloc w2) ∧ A ≠ B ∧
        w.limit < w.heap.length + csA.length)) ∧
    assign w A A = .ok w := by
  have hself : assign w A A = .ok w := by simp [assign, pure, Except.pure]
  refine ⟨GetSize_of_Owns hA, to_list_of_Owns hA, ?_, ?_, hself⟩
  · rcases copy_construct_post hA hinv.1 with ⟨w1, news, he, h1, h2, h3, _⟩ | ⟨w2, he, h⟩
    · left
      refine ⟨w1, he, ?_, ?_, GetSize_of_Owns h3, to_list_of_Owns h3⟩
      · rw [GetSize_of_Owns h1, ← List.length_map news Prod.snd, h2, List.length_map]
      · rw [to_list_of_Owns h1, h2]
    · exact Or.inr ⟨w2, he, h⟩
  · by_cases hAB : A = B
    · subst hAB
      exact Or.inl ⟨w, hself, GetSize_of_Owns hA, to_list_of_Owns hA, GetSize_of_Owns hA,
        to_list_of_Owns hA⟩
    · rcases copy_assign_post hA hB hinv.1 hAB
          (fun c hc c0 hc0 => hinv.2.2 B A csB csA (Ne.symm hAB) hB hA c0 hc0 c hc) with
        ⟨w1, news, he, h1, h2, h3, _⟩ | ⟨w2, he, h⟩
      · left
        refine ⟨w1, he, ?_, ?_, GetSize_of_Owns h3, to_list_of_Owns h3⟩
        · rw [GetSize_of_Owns h1, ← List.length_map news Prod.snd, h2, List.length_map]
        · rw [to_list_of_Owns h1, h2]
      · exact Or.inr ⟨w2, he, hAB, h⟩

/-- Witness of C14: in `ex_lists`, which has room for three more nodes, a copy
of the list `{1,2,3}` is constructed, the list `{1,2,3}` is assigned to the
list `{1,2}`, and the list `{1,2,3}` is assigned to itself. -/
theorem copy_same_sequence_witness :
    (∃ w1, construct_copy ex_lists 0 = .ok (w1, 5) ∧ GetSize w1 5 = .ok 3 ∧
      to_list w1 5 = .ok [1, 2, 3] ∧ GetSize w1 0 = .ok 3 ∧ to_list w1 0 = .ok [1, 2, 3]) ∧
    (∃ w1, assign ex_lists 2 0 = .ok w1 ∧ GetSize w1 2 = .ok 3 ∧
      to_list w1 2 = .ok [1, 2, 3] ∧ GetSize w1 0 = .ok 3 ∧ to_list w1 0 = .ok [1, 2, 3]) ∧
    assign ex_lists 0 0 = .ok ex_lists := by
  obtain ⟨_, _, h1, h2, h3⟩ :=
    copy_same_sequence ex_lists 0 2 _ _ ex_lists_Inv ex_lists_Owns0 ex_lists_Owns2
  refine ⟨?_, ?_, h3⟩
  · rcases h1 with h1 | ⟨_, _, h⟩
    · exact h1
    · exact absurd h (by decide)
  · rcases h2 with h2 | ⟨_, _, _, h⟩
    · exact h2
    · exact absurd h (by decide)

/-- C15. Copy independence.  In a world that satisfies the invariants, as
every reachable world does, let `B` be a copy of the list `A`, made by copy
assignment `B = A` to another list `B` or by copy construction of a new list
`B` from `A`.  Right after the copy both lists have the size and the values
that `A` had.  Then run any sequence of
mutations (`PushFront`, `PopFront`, `InsertAfter`, `EraseAfter`, `Clear`), to
its end or until one of them throws `std::bad_alloc`: if they are mutations of
`A`, the size and contents of `B` are unchanged, and if they are mutations of
`B`, the size and contents of `A` are unchanged. -/
theorem copy_independence {α : Type} [Inhabited α] (w w1 w2 : World α) (A B : Nat)
    (csA : List (Nat × α)) (ops : List (Op α)) (hinv : Inv w) (hA : Owns w A csA)
    (hAB : A ≠ B)
    (hcopy : exec w (.assign B A) = .ok w1 ∨
      (exec w (.construct_copy A) = .ok w1 ∧ B = w.objs.length))
    (hrun : run w1 ops = .ok w2 ∨ run w1 ops = .error (.bad_alloc w2)) :
    GetSize w1 A = .ok csA.length ∧ to_list w1 A = .ok (csA.map Prod.snd) ∧
    GetSize w1 B = .ok csA.length ∧ to_list w1 B = .ok (csA.map Prod.snd) ∧
    ((∀ op ∈ ops, op.mutation A = true) →
      GetSize w2 B = .ok csA.length ∧ to_list w2 B = .ok (csA.map Prod.snd)) ∧
    ((∀ op ∈ ops, op.mutation B = true) →
      GetSize w2 A = .ok csA.length ∧ to_list w2 A = .ok (csA.map Prod.snd)) := by
  obtain ⟨news, h1, h2, h3, hinv1⟩ := copy_made hinv hA hAB hcopy
  have hlen : news.length = csA.length := by
    rw [← List.length_map news Prod.snd, h3, List.length_map]
  refine ⟨GetSize_of_Owns h1, to_list_of_Owns h1, ?_, ?_, ?_, ?_⟩
  · rw [GetSize_of_Owns h2, hlen]
  · rw [to_list_of_Owns h2, h3]
  · intro hops
    have h := run_mutations_frame ops hinv1 (Owns_range h1) h2 (Ne.symm hAB) hops hrun
    rw [GetSize_of_Owns h, to_list_of_Owns h, hlen, h3]
    exact ⟨rfl, rfl⟩
  · intro hops
    have h := run_mutations_frame ops hinv1 (Owns_range h2) h1 hAB hops hrun
    exact ⟨GetSize_of_Owns h, to_list_of_Owns h⟩

/-- Witness of C15: in `ex_lists` the list `{1,2,3}` is assigned to the list
`{1,2}`, then `PopFront()` and `Clear()` are called on the source; the copy is
still `{1,2,3}`. -/
theorem copy_independence_witness :
    to_list ex_copied 0 = .ok [1, 2, 3] ∧ to_list ex_copied 2 = .ok [1, 2, 3] ∧
      to_list ex_mutated 0 = .ok [] ∧
      GetSize ex_mutated 2 = .ok 3 ∧ to_list ex_mutated 2 = .ok [1, 2, 3] :=
  have h := copy_independence ex_lists ex_copied ex_mutated 0 2 _ [.PopFront 0, .Clear 0]
    ex_lists_Inv ex_lists_Owns0 (by decide) (Or.inl rfl) (Or.inl rfl)
  have h2 := h.2.2.2.2.1 (by
    intro op hop
    simp at hop
    rcases hop with hop | hop <;> (subst hop; rfl))
  ⟨h.2.1, h.2.2.2.1, rfl, h2.1, h2.2⟩

/-- C16. Clear.  On every list that satisfies the size invariant, an empty one
included, `Clear()` returns (and in no world at all does its loop reach its
bound of iterations); afterwards `GetSize()` is 0, `IsEmpty()` is true,
`begin()` equals `end()`, iterating yields nothing, no element node is
reachable from the sentinel and every former node has been deleted; a second
`Clear()` returns the very same world. -/
theorem Clear_leaves_empty {α : Type} (w : World α) (this : Nat) (cells : List (Nat × α))
    (hown : Owns w this cells) :
    (∀ (w0 : World α) (l : Nat), Clear w0 l ≠ .error .out_of_fuel) ∧
      ∃ w2, Clear w this = .ok w2 ∧ GetSize w2 this = .ok 0 ∧ IsEmpty w2 this = .ok true ∧
        begin w2 this = .ok end_ ∧ BasicIterator.eq end_ end_ = true ∧
        to_list w2 this = .ok [] ∧ Owns w2 this [] ∧
        (∀ c ∈ cells, w2.heap[c.1]? = some none) ∧ Clear w2 this = .ok w2 := by
  refine ⟨fun w0 l => Clear_fuel w0 l, ?_⟩
  obtain ⟨w2, he, hown2, _, _, hdead⟩ := Clear_spec hown
  obtain ⟨o, ho, hnull, hsz⟩ := Owns_nil_head hown2
  refine ⟨w2, he, GetSize_of_Owns hown2, ?_, ?_, rfl, to_list_of_Owns hown2, hown2, hdead,
    Clear_empty hown2⟩
  · simp [IsEmpty, obj_some ho, hsz, bind, Except.bind, pure, Except.pure]
  · simp [begin, obj_some ho, hnull, end_, bind, Except.bind, pure, Except.pure]

/-- Witness of C16: clearing the list `[5, 6]` of `ex_world`, and clearing the
empty list of `scenario_start`. -/
theorem Clear_leaves_empty_witness :
    (∃ w2, Clear ex_world 0 = .ok w2 ∧ GetSize w2 0 = .ok 0 ∧ IsEmpty w2 0 = .ok true ∧
      begin w2 0 = .ok end_ ∧ to_list w2 0 = .ok [] ∧ Clear w2 0 = .ok w2) ∧
    (∃ w2, Clear scenario_start 0 = .ok w2 ∧ GetSize w2 0 = .ok 0 ∧
      IsEmpty w2 0 = .ok true ∧ begin w2 0 = .ok end_ ∧ to_list w2 0 = .ok [] ∧
      Clear w2 0 = .ok w2) := by
  obtain ⟨_, w2, h1, h2, h3, h4, _, h5, _, _, h6⟩ :=
    Clear_leaves_empty ex_world 0 ex_cells ex_world_Owns
  obtain ⟨_, w3, g1, g2, g3, g4, _, g5, _, _, g6⟩ :=
    Clear_leaves_empty scenario_start 0 [] ⟨⟨⟨0, .null⟩, 0⟩, rfl, rfl, rfl, by decide⟩
  exact ⟨⟨w2, h1, h2, h3, h4, h5, h6⟩, ⟨w3, g1, g2, g3, g4, g5, g6⟩⟩

/-- C17. InsertAfter atomicity on allocation failure.  In every world, for
every position and value: when `InsertAfter` throws `std::bad_alloc`, the world
in which the exception leaves the call is exactly the world in which the call
was made (same contents, same size, same links).  On a list that satisfies the
size invariant, at a position of the list: when the allocator cannot provide a
node the call throws `std::bad_alloc` and nothing has changed; otherwise it
returns with the splice completed. -/
theorem InsertAfter_atomic {α : Type} (w : World α) (this k : Nat) (cells : List (Nat × α))
    (v : α) (hown : Owns w this cells) (hb : Bounded w) (hk : k ≤ cells.length) :
    (∀ (w0 w2 : World α) (l : Nat) (pos : ConstIterator) (x : α),
        InsertAfter w0 l pos x = .error (.bad_alloc w2) → w2 = w0) ∧
      (¬ w.heap.length < w.limit →
        InsertAfter w this (pos_at this cells k) v = .error (.bad_alloc w) ∧
        to_list w this = .ok (cells.map Prod.snd) ∧ GetSize w this = .ok cells.length) ∧
      (w.heap.length < w.limit →
        ∃ w2 it, InsertAfter w this (pos_at this cells k) v = .ok (w2, it) ∧
          Owns w2 this (cells.take k ++ (w.heap.length, v) :: cells.drop k)) := by
  refine ⟨fun w0 w2 l pos x h => InsertAfter_throw_same w0 w2 l pos x h, ?_, ?_⟩
  · intro hlim
    exact ⟨InsertAfter_bad_alloc k v hown hk hlim, to_list_of_Owns hown, GetSize_of_Owns hown⟩
  · intro hlim
    obtain ⟨w2, he, hown2, _⟩ := InsertAfter_spec k v hown hb hlim hk
    exact ⟨w2, _, he, hown2⟩

/-- Witness of C17: in `ex_lists` with the allocator limit reached, inserting
after the first element of the list `{1,2,3}` throws and changes nothing. -/
theorem InsertAfter_atomic_witness :
    InsertAfter { ex_lists with limit := 13 } 0 (pos_at 0 [(0, 1), (1, 2), (2, 3)] 1) 7 =
        .error (.bad_alloc { ex_lists with limit := 13 }) ∧
      to_list { ex_lists with limit := 13 } 0 = .ok [1, 2, 3] ∧
      GetSize { ex_lists with limit := 13 } 0 = .ok 3 :=
  (InsertAfter_atomic { ex_lists with limit := 13 } 0 1 [(0, 1), (1, 2), (2, 3)] 7
    ⟨⟨⟨0, .cell 0⟩, 3⟩, rfl, ⟨rfl, _, rfl, rfl, _, rfl, rfl, _, rfl, rfl⟩, rfl, by decide⟩
    ⟨by decide, by decide⟩ (by decide)).2.1 (by decide)

/-- C18. Insert-then-erase round trip.  On a list that satisfies the size
invariant with nodes `cells`, at its `k`-th position `pos` (the sentinel or an
element), with a node left in the allocator: `InsertAfter(pos, v)` followed by
`EraseAfter(pos)` returns; the list then consists of exactly the original nodes
again, so its contents and its size are the original ones; and the position
that `EraseAfter` returns is the original successor of `pos`, which is `end()`
when `pos` was the last position. -/
theorem insert_erase_round_trip {α : Type} (w : World α) (this k : Nat)
    (cells : List (Nat × α)) (v : α) (hown : Owns w this cells) (hb : Bounded w)
    (hlim : w.heap.length < w.limit) (hk : k ≤ cells.length) :
    ∃ w1 it1 w2 it2, InsertAfter w this (pos_at this cells k) v = .ok (w1, it1) ∧
      EraseAfter w1 this (pos_at this cells k) = .ok (w2, it2) ∧
      Owns w2 this cells ∧ to_list w2 this = to_list w this ∧
      to_list w2 this = .ok (cells.map Prod.snd) ∧
      GetSize w2 this = GetSize w this ∧ GetSize w2 this = .ok cells.length ∧
      BasicIterator.incr w (pos_at this cells k) = .ok it2 ∧
      it2 = pos_at this cells (k + 1) ∧ (k = cells.length → it2 = end_) := by
  obtain ⟨w1, he1, hown1, _, _⟩ := InsertAfter_spec k v hown hb hlim hk
  have hk1 : k < (cells.take k ++ (w.heap.length, v) :: cells.drop k).length := by
    simp
    omega
  obtain ⟨w2, he2, hown2, _, _⟩ := EraseAfter_spec k hown1 hk1
  rw [pos_at_insert_le this cells _ k k (Nat.le_refl _) hk,
    pos_at_insert_gt this cells _ k (k + 1) (by omega) hk] at he2
  rw [eraseIdx_insert cells k _ hk] at hown2
  refine ⟨w1, _, w2, _, he1, he2, hown2, ?_, to_list_of_Owns hown2, ?_, GetSize_of_Owns hown2,
    incr_pos_at hown k hk, rfl, ?_⟩
  · rw [to_list_of_Owns hown2, to_list_of_Owns hown]
  · rw [GetSize_of_Owns hown2, GetSize_of_Owns hown]
  · intro hlast
    exact pos_at_end this cells k (by omega)

/-- Witness of C18 on the list `[5, 6]` of `ex_world`, after its last element. -/
theorem insert_erase_round_trip_witness :
    ∃ w1 it1 w2 it2, InsertAfter ex_world 0 (pos_at 0 ex_cells 2) 9 = .ok (w1, it1) ∧
      EraseAfter w1 0 (pos_at 0 ex_cells 2) = .ok (w2, it2) ∧
      Owns w2 0 ex_cells ∧ to_list w2 0 = to_list ex_world 0 ∧
      to_list w2 0 = .ok [5, 6] ∧
      GetSize w2 0 = GetSize ex_world 0 ∧ GetSize w2 0 = .ok 2 ∧
      BasicIterator.incr ex_world (pos_at 0 ex_cells 2) = .ok it2 ∧
      it2 = pos_at 0 ex_cells 3 ∧ (2 = ex_cells.length → it2 = end_) :=
  insert_erase_round_trip ex_world 0 2 ex_cells 9 ex_world_Owns ex_world_Bounded
    (by decide) (by decide)

/-- C19. Consistency of the six relational operators.  Let `<` of the element
type be a strict total order and `==` hold exactly between equal elements.
Then for two lists `A` and `B` that satisfy the size invariant all six
operators return; exactly one of `A < B`, `A == B`, `A > B` is true;
`A <= B` is true if and only if `A < B` or `A == B` is; `A >= B` is true if and
only if `A > B` or `A == B` is; and `A != B` is the negation of `A == B`. -/
theorem operators_consistent {α : Type} [BEq α] (lt : α → α → Bool) (w : World α) (A B : Nat)
    (csA csB : List (Nat × α)) (hA : Owns w A csA) (hB : Owns w B csB)
    (hirr : ∀ a, lt a a = false)
    (htrans : ∀ a b c, lt a b = true → lt b c = true → lt a c = true)
    (htot : ∀ a b, lt a b = true ∨ a = b ∨ lt b a = true)
    (heq : ∀ a b : α, (a == b) = true ↔ a = b) :
    ∃ blt beq bgt ble bge bne, operator_lt lt w A B = .ok blt ∧ operator_eq w A B = .ok beq ∧
      operator_gt lt w A B = .ok bgt ∧ operator_le lt w A B = .ok ble ∧
      operator_ge lt w A B = .ok bge ∧ operator_ne w A B = .ok bne ∧
      ((blt = true ∧ beq = false ∧ bgt = false) ∨ (blt = false ∧ beq = true ∧ bgt = false) ∨
        (blt = false ∧ beq = false ∧ bgt = true)) ∧
      (ble = true ↔ blt = true ∨ beq = true) ∧ (bge = true ↔ bgt = true ∨ beq = true) ∧
      bne = !beq := by
  have hasym : ∀ a b, lt a b = true → lt b a = false := by
    intro a b hab
    cases hba : lt b a with
    | false => rfl
    | true =>
      have := htrans a b a hab hba
      rw [hirr a] at this
      cases this
  have hcons : ∀ a b : α, (a == b) = true ↔ (lt a b = false ∧ lt b a = false) := by
    intro a b
    rw [heq]
    constructor
    · intro hab
      subst hab
      exact ⟨hirr a, hirr a⟩
    · rintro ⟨h1, h2⟩
      rcases htot a b with h | h | h
      · rw [h1] at h
        cases h
      · exact h
      · rw [h2] at h
        cases h
  have h1 := operator_lt_spec lt hA hB
  have h2 := operator_lt_spec lt hB hA
  have h3 := operator_eq_spec hA hB
  have hbeq : (decide (A = B) || seq_equal (csA.map Prod.snd) (csB.map Prod.snd)) =
      seq_equal (csA.map Prod.snd) (csB.map Prod.snd) := by
    by_cases hAB : A = B
    · subst hAB
      have hcs := Owns_unique hA hB
      subst hcs
      rw [seq_equal_refl (fun a => (heq a a).2 rfl)]
      simp
    · simp [hAB]
  rw [hbeq] at h3
  refine ⟨_, _, _, !(seq_less lt (csB.map Prod.snd) (csA.map Prod.snd)),
    !(seq_less lt (csA.map Prod.snd) (csB.map Prod.snd)),
    !(seq_equal (csA.map Prod.snd) (csB.map Prod.snd)), h1, h3, h2, ?_, ?_, ?_, ?_⟩
  · simp only [operator_le, h2, bind, Except.bind, pure, Except.pure]
  · simp only [operator_ge, h1, bind, Except.bind, pure, Except.pure]
  · simp only [operator_ne, h3, bind, Except.bind, pure, Except.pure]
  · have htri := seq_trichotomy lt hasym hcons (csA.map Prod.snd) (csB.map Prod.snd)
    refine ⟨htri, ?_, ?_, rfl⟩
    · rcases htri with ⟨a, b, c⟩ | ⟨a, b, c⟩ | ⟨a, b, c⟩ <;> simp [a, b, c]
    · rcases htri with ⟨a, b, c⟩ | ⟨a, b, c⟩ | ⟨a, b, c⟩ <;> simp [a, b, c]

/-- Witness of C19: the lists `{1,3}` and `{1,2,9}` of `ex_lists` with the
order and the equality of the natural numbers. -/
theorem operators_consistent_witness :
    ∃ blt beq bgt ble bge bne,
      operator_lt (fun a b => decide (a < b)) ex_lists 3 4 = .ok blt ∧
      operator_eq ex_lists 3 4 = .ok beq ∧
      operator_gt (fun a b => decide (a < b)) ex_lists 3 4 = .ok bgt ∧
      operator_le (fun a b => decide (a < b)) ex_lists 3 4 = .ok ble ∧
      operator_ge (fun a b => decide (a < b)) ex_lists 3 4 = .ok bge ∧
      operator_ne ex_lists 3 4 = .ok bne ∧
      ((blt = true ∧ beq = false ∧ bgt = false) ∨ (blt = false ∧ beq = true ∧ bgt = false) ∨
        (blt = false ∧ beq = false ∧ bgt = true)) ∧
      (ble = true ↔ blt = true ∨ beq = true) ∧ (bge = true ↔ bgt = true ∨ beq = true) ∧
      bne = !beq :=
  operators_consistent (fun a b => decide (a < b)) ex_lists 3 4 _ _ ex_lists_Owns3
    ex_lists_Owns4 (by intro a; simp)
    (by intro a b c h1 h2; simp only [decide_eq_true_eq] at h1 h2 ⊢; omega)
    (by intro a b; simp only [decide_eq_true_eq]; omega)
    (by intro a b; simp)

/-- C20. PopFront safety.  On a list that satisfies the size invariant:
whenever the assertion `!IsEmpty()` of `PopFront` passes, the sentinel's
`next_node` is not null and references a live node, so the read of that node's
`next_node` succeeds and `PopFront` returns; when the assertion fails the call
stops there; and `IsEmpty()` is true if and only if `begin()` equals `end()`. -/
theorem PopFront_safety {α : Type} (w : World α) (this : Nat) (cells : List (Nat × α))
    (hown : Owns w this cells) :
    ∃ e o b, IsEmpty w this = .ok e ∧ w.objs[this]? = some o ∧ begin w this = .ok b ∧
      (e = false → o.head_.next_node ≠ .null ∧
        (∃ n, w.load o.head_.next_node = .ok n) ∧ ∃ w2, PopFront w this = .ok w2) ∧
      (e = true → PopFront w this = .error .assertion) ∧
      (e = true ↔ b.eq end_ = true) ∧ (e = true ↔ b.eq cend = true) := by
  obtain ⟨o, ho, hs, hsz, hmx⟩ := hown
  have hIs : IsEmpty w this = .ok (decide (o.size_ = 0)) := by
    simp [IsEmpty, obj_some ho, bind, Except.bind, pure, Except.pure]
  have hbeg : begin w this = .ok ⟨o.head_.next_node⟩ := by
    simp [begin, obj_some ho, bind, Except.bind, pure, Except.pure]
  refine ⟨_, o, _, hIs, ho, hbeg, ?_, ?_, ?_⟩
  · intro he
    have hne : o.size_ ≠ 0 := by simpa using he
    cases cells with
    | nil => simp at hsz; exact absurd hsz hne
    | cons t l2 =>
      obtain ⟨r, hp, hr, _⟩ := Seg_erase_head hs
      refine ⟨by rw [hp]; simp, ⟨_, by rw [hp]; exact load_cell hr⟩, _,
        PopFront_eq ho hp hr (by omega)⟩
  · intro he
    have h0 : o.size_ = 0 := by simpa using he
    have hnil : cells = [] := by
      rw [h0] at hsz
      exact List.length_eq_zero.1 hsz.symm
    subst hnil
    exact PopFront_nil ⟨o, ho, hs, hsz, hmx⟩
  · have key : o.size_ = 0 ↔ o.head_.next_node = .null := by
      cases cells with
      | nil =>
        have hp : o.head_.next_node = .null := hs
        simp [hsz, hp]
      | cons t l2 =>
        obtain ⟨hp, _⟩ := hs
        simp [hsz, hp]
    constructor <;> simp [BasicIterator.eq, end_, cend, key]

/-- Witness of C20 on the list `[5, 6]` of `ex_world` and on the empty list of
`scenario_start`. -/
theorem PopFront_safety_witness :
    (IsEmpty ex_world 0 = .ok false ∧ ∃ w2, PopFront ex_world 0 = .ok w2) ∧
      (IsEmpty scenario_start 0 = .ok true ∧ begin scenario_start 0 = .ok end_ ∧
        PopFront scenario_start 0 = .error .assertion) := by
  obtain ⟨e, o, b, h1, h2, h3, h4, _, _⟩ := PopFront_safety ex_world 0 ex_cells ex_world_Owns
  have he : e = false := by
    have : IsEmpty ex_world 0 = .ok false := rfl
    rw [h1] at this
    injection this
  obtain ⟨e2, o2, b2, g1, g2, g3, _, g5, _⟩ :=
    PopFront_safety scenario_start 0 [] ⟨⟨⟨0, .null⟩, 0⟩, rfl, rfl, rfl, by decide⟩
  have he2 : e2 = true := by
    have : IsEmpty scenario_start 0 = .ok true := rfl
    rw [g1] at this
    injection this
  exact ⟨⟨by rw [h1, he], (h4 he).2.2⟩, ⟨by rw [g1, he2], rfl, g5 he2⟩⟩

end SLL
